import Mathlib

/-!
# Verification of `pkg/utils/utils.go`

A shallow embedding of the helper functions of package `utils` and of the
parts of the Go standard library they call (`net/netip`, `strconv`,
`strings`, `regexp`, `crypto/rand`), followed by theorems about them.

Conventions of the embedding:

* a Go `string` is a `List Char`; indices count characters (all delimiters the
  code looks for are ASCII, so slicing at them is the same in bytes);
* a `byte` is a `Fin 256`, wider machine integers are `Nat` with an explicit
  reduction where the Go conversion truncates;
* a function returning `(T, error)` returns `Except GoError T`;
* loops are recursive functions over the unread input or over a bound on the
  number of iterations;
* a call that ends in a run-time panic has the outcome `panic`; the width of
  `int` and the allocation limit of the runtime are constants of a
  `GoPlatform`, and memory within that limit is taken to be available.
-/

namespace Utils

/-! ## Errors and bytes -/

/-- Go error values that the embedded functions can return.  Each constructor
is one family of error values, with the message the Go code gives it. -/
inductive GoError where
  /-- netip `parseAddrError{in, msg, at}`. -/
  | parseAddrError (input : List Char) (msg : String) (rest : List Char)
  /-- an `errors.New(msg)` with a literal message. -/
  | errorString (msg : String)
  /-- netip `errors.New("invalid port " + Quote(port) + " parsing " + Quote(s))`. -/
  | invalidPort (port s : List Char)
  /-- netip `"invalid ip:port " + Quote(s) + ", square brackets can only be used with IPv6 addresses"`. -/
  | bracketsOnlyV6 (s : List Char)
  /-- netip `"invalid ip:port " + Quote(s) + ", IPv6 addresses must be surrounded by square brackets"`. -/
  | v6NeedsBrackets (s : List Char)
  /-- strconv `*NumError{Func, Num, Err}` with `Err` one of `ErrSyntax`, `ErrRange`. -/
  | numError (func : String) (num : List Char) (err : String)
  /-- an error reported by the random source. -/
  | randError (code : Nat)
  deriving DecidableEq

deriving instance DecidableEq for Except

/-- A Go `byte` / `uint8`. -/
abbrev Byte := Fin 256

/-- The conversion `uint8(n)` / `byte(n)`. -/
def toByte (n : Nat) : Byte := ⟨n % 256, Nat.mod_lt n (by decide)⟩

/-- Read `b[i]` of a byte array; the arrays of the embedding have fixed length
and every index used is in range. -/
def byteAt (b : List Byte) (i : Nat) : Nat := (b.getD i 0).val

/-! ## `net/netip`: the address type -/

/-- netip `uint128`: the two 64-bit halves of an address. -/
structure uint128 where
  hi : Nat
  lo : Nat
  deriving DecidableEq

/-- The field `z` of netip `Addr`: `z0` is the zero `Addr`, `z4` an IPv4
address, `z6noz` an IPv6 address without zone, `zone name` the handle
`unique.Make(addrDetail{isV6: true, zoneV6: name})`. -/
inductive ZoneHandle where
  | z0
  | z4
  | z6noz
  | zone (name : List Char)
  deriving DecidableEq

/-- netip `Addr`. -/
structure Addr where
  addr : uint128
  z : ZoneHandle
  deriving DecidableEq

/-- netip `byteorder.BeUint64`. -/
def beUint64 (b : List Byte) : Nat :=
  byteAt b 7 ||| byteAt b 6 <<< 8 ||| byteAt b 5 <<< 16 ||| byteAt b 4 <<< 24 |||
    byteAt b 3 <<< 32 ||| byteAt b 2 <<< 40 ||| byteAt b 1 <<< 48 ||| byteAt b 0 <<< 56

/-- netip `byteorder.BePutUint64`, as the eight bytes written. -/
def bePutUint64 (v : Nat) : List Byte :=
  [toByte (v >>> 56), toByte (v >>> 48), toByte (v >>> 40), toByte (v >>> 32),
   toByte (v >>> 24), toByte (v >>> 16), toByte (v >>> 8), toByte v]

/-- netip `AddrFrom4`. -/
def AddrFrom4 (addr : List Byte) : Addr :=
  { addr := { hi := 0,
              lo := 0xffff00000000 ||| byteAt addr 0 <<< 24 ||| byteAt addr 1 <<< 16 |||
                    byteAt addr 2 <<< 8 ||| byteAt addr 3 },
    z := .z4 }

/-- netip `AddrFrom16`. -/
def AddrFrom16 (addr : List Byte) : Addr :=
  { addr := { hi := beUint64 (addr.take 8), lo := beUint64 (addr.drop 8) },
    z := .z6noz }

/-- netip `IPv6Unspecified`. -/
def IPv6Unspecified : Addr := { addr := { hi := 0, lo := 0 }, z := .z6noz }

/-- netip `Addr.IsValid`. -/
def Addr.IsValid (ip : Addr) : Bool := ip.z != .z0

/-- netip `Addr.Is4`. -/
def Addr.Is4 (ip : Addr) : Bool := ip.z == .z4

/-- netip `Addr.Is6`. -/
def Addr.Is6 (ip : Addr) : Bool := ip.z != .z0 && ip.z != .z4

/-- netip `Addr.Is4In6`. -/
def Addr.Is4In6 (ip : Addr) : Bool :=
  ip.Is6 && ip.addr.hi == 0 && ip.addr.lo >>> 32 == 0xffff

/-- netip `Addr.Unmap`. -/
def Addr.Unmap (ip : Addr) : Addr :=
  if ip.Is4In6 then { ip with z := .z4 } else ip

/-- netip `Addr.WithZone`. -/
def Addr.WithZone (ip : Addr) (zone : List Char) : Addr :=
  if !ip.Is6 then ip
  else if zone == [] then { ip with z := .z6noz }
  else { ip with z := .zone zone }

/-- netip `Addr.Zone`. -/
def Addr.Zone (ip : Addr) : List Char :=
  match ip.z with
  | .zone name => name
  | _ => []

/-- netip `Addr.As16`. -/
def Addr.As16 (ip : Addr) : List Byte :=
  bePutUint64 ip.addr.hi ++ bePutUint64 ip.addr.lo

/-! ## `net/netip`: rendering -/

/-- netip constant `digits`. -/
def digits : List Char := "0123456789abcdef".toList

/-- Index into `digits`; every index used is below 16. -/
def digitAt (i : Nat) : Char := digits.getD i '0'

/-- netip `Addr.v4`. -/
def Addr.v4 (ip : Addr) (i : Nat) : Nat := (ip.addr.lo >>> ((3 - i) * 8)) % 256

/-- netip `Addr.v6u16`. -/
def Addr.v6u16 (ip : Addr) (i : Nat) : Nat :=
  ((if (i / 4) % 2 = 0 then ip.addr.hi else ip.addr.lo) >>> ((3 - i % 4) * 16)) % 65536

/-- netip `appendDecimal`. -/
def appendDecimal (b : List Char) (x : Nat) : List Char :=
  let b := if x ≥ 100 then b ++ [digitAt (x / 100)] else b
  let b := if x ≥ 10 then b ++ [digitAt (x / 10 % 10)] else b
  b ++ [digitAt (x % 10)]

/-- netip `appendHex`. -/
def appendHex (b : List Char) (x : Nat) : List Char :=
  let b := if x ≥ 0x1000 then b ++ [digitAt (x >>> 12)] else b
  let b := if x ≥ 0x100 then b ++ [digitAt (x >>> 8 &&& 0xf)] else b
  let b := if x ≥ 0x10 then b ++ [digitAt (x >>> 4 &&& 0xf)] else b
  b ++ [digitAt (x &&& 0xf)]

/-- netip `Addr.appendTo4`. -/
def Addr.appendTo4 (ip : Addr) (ret : List Char) : List Char :=
  let ret := appendDecimal ret (ip.v4 0)
  let ret := ret ++ ['.']
  let ret := appendDecimal ret (ip.v4 1)
  let ret := ret ++ ['.']
  let ret := appendDecimal ret (ip.v4 2)
  let ret := ret ++ ['.']
  appendDecimal ret (ip.v4 3)

/-- netip `Addr.string4`. -/
def Addr.string4 (ip : Addr) : List Char := ip.appendTo4 []

/-- The inner loop `for j < 8 && ip.v6u16(j) == 0 { j++ }` of `appendTo6`;
the first argument bounds the iterations (`j` only grows up to 8). -/
def zeroRunEnd (ip : Addr) : Nat → Nat → Nat
  | 0, j => j
  | fuel + 1, j => if j < 8 ∧ ip.v6u16 j = 0 then zeroRunEnd ip fuel (j + 1) else j

/-- The first loop of `appendTo6`, which finds the longest run of zero groups;
`zeroStart` and `zeroEnd` are `uint8`, hence the reduction of their difference. -/
def findZeroRun (ip : Addr) : Nat → Nat → Nat → Nat → Nat × Nat
  | 0, _, zeroStart, zeroEnd => (zeroStart, zeroEnd)
  | fuel + 1, i, zeroStart, zeroEnd =>
    if i < 8 then
      let j := zeroRunEnd ip 8 i
      let l := j - i
      if l ≥ 2 ∧ l > (zeroEnd + 256 - zeroStart) % 256 then findZeroRun ip fuel (i + 1) i j
      else findZeroRun ip fuel (i + 1) zeroStart zeroEnd
    else (zeroStart, zeroEnd)

/-- The second loop of `appendTo6`, which writes the groups. -/
def writeGroups (ip : Addr) (zeroStart zeroEnd : Nat) : Nat → Nat → List Char → List Char
  | 0, _, ret => ret
  | fuel + 1, i, ret =>
    if i < 8 then
      if i = zeroStart then
        let ret := ret ++ [':', ':']
        let i := zeroEnd
        if i ≥ 8 then ret
        else writeGroups ip zeroStart zeroEnd fuel (i + 1) (appendHex ret (ip.v6u16 i))
      else
        let ret := if i > 0 then ret ++ [':'] else ret
        writeGroups ip zeroStart zeroEnd fuel (i + 1) (appendHex ret (ip.v6u16 i))
    else ret

/-- netip `Addr.appendTo6`. -/
def Addr.appendTo6 (ip : Addr) (ret : List Char) : List Char :=
  let (zeroStart, zeroEnd) := findZeroRun ip 8 0 255 255
  let ret := writeGroups ip zeroStart zeroEnd 8 0 ret
  if ip.z != .z6noz then ret ++ ['%'] ++ ip.Zone else ret

/-- netip `Addr.string6`. -/
def Addr.string6 (ip : Addr) : List Char := ip.appendTo6 []

/-- netip `Addr.appendTo4In6`. -/
def Addr.appendTo4In6 (ip : Addr) (ret : List Char) : List Char :=
  let ret := ret ++ "::ffff:".toList
  let ret := ip.Unmap.appendTo4 ret
  if ip.z != .z6noz then ret ++ ['%'] ++ ip.Zone else ret

/-- netip `Addr.string4In6`. -/
def Addr.string4In6 (ip : Addr) : List Char := ip.appendTo4In6 []

/-- netip `Addr.String`. -/
def Addr.String (ip : Addr) : List Char :=
  match ip.z with
  | .z0 => "invalid IP".toList
  | .z4 => ip.string4
  | _ => if ip.Is4In6 then ip.string4In6 else ip.string6

/-! ## `net/netip`: parsing -/

/-- Go `bytealg.IndexByteString`: the index of the first `c` in `s`, or `-1`. -/
def IndexByteString : List Char → Char → Int
  | [], _ => -1
  | x :: rest, c =>
    if x = c then 0
    else
      let r := IndexByteString rest c
      if r < 0 then -1 else r + 1

/-- Go `bytealg.LastIndexByteString`: the index of the last `c` in `s`, or `-1`. -/
def LastIndexByteString : List Char → Char → Int
  | [], _ => -1
  | x :: rest, c =>
    let r := LastIndexByteString rest c
    if r ≥ 0 then r + 1 else if x = c then 0 else -1

/-- The loop of netip `parseIPv4Fields` over `s = in[off:end]`; the third
argument is the unread part `s[i:]`.  Returns `val`, `pos` and `fields` at the
end of the loop. -/
def parseIPv4FieldsLoop (input s : List Char) :
    List Char → Nat → Nat → Nat → Nat → List Byte → Except GoError (Nat × Nat × List Byte)
  | [], _, val, pos, _, fields => .ok (val, pos, fields)
  | c :: rest, i, val, pos, digLen, fields =>
    if '0' ≤ c ∧ c ≤ '9' then
      if digLen = 1 ∧ val = 0 then
        .error (.parseAddrError input "IPv4 field has octet with leading zero" [])
      else
        let val := val * 10 + c.toNat - '0'.toNat
        let digLen := digLen + 1
        if val > 255 then
          .error (.parseAddrError input "IPv4 field has value >255" [])
        else parseIPv4FieldsLoop input s rest (i + 1) val pos digLen fields
    else if c = '.' then
      if i = 0 ∨ i = s.length - 1 ∨ s.getD (i - 1) ' ' = '.' then
        .error (.parseAddrError input "IPv4 field must have at least one digit" (c :: rest))
      else if pos = 3 then
        .error (.parseAddrError input "IPv4 address too long" [])
      else parseIPv4FieldsLoop input s rest (i + 1) 0 (pos + 1) 0 (fields.set pos (toByte val))
    else .error (.parseAddrError input "unexpected character" (c :: rest))

/-- netip `parseIPv4Fields`: parses `in[off:end]` into the four bytes of
`fields`, which are returned. -/
def parseIPv4Fields (input : List Char) (off end_ : Nat) (fields : List Byte) :
    Except GoError (List Byte) :=
  let s := (input.take end_).drop off
  match parseIPv4FieldsLoop input s s 0 0 0 0 fields with
  | .error e => .error e
  | .ok (val, pos, fields) =>
    if pos < 3 then .error (.parseAddrError input "IPv4 address too short" [])
    else .ok (fields.set 3 (toByte val))

/-- netip `parseIPv4`. -/
def parseIPv4 (s : List Char) : Except GoError Addr :=
  match parseIPv4Fields s 0 s.length [0, 0, 0, 0] with
  | .error e => .error e
  | .ok fields => .ok (AddrFrom4 fields)

/-- The value of a hexadecimal digit, following the three branches of the
inner loop of `parseIPv6`; `none` is the `break` branch. -/
def hexDigitValue (c : Char) : Option Nat :=
  if '0' ≤ c ∧ c ≤ '9' then some (c.toNat - '0'.toNat)
  else if 'a' ≤ c ∧ c ≤ 'f' then some (c.toNat - 'a'.toNat + 10)
  else if 'A' ≤ c ∧ c ≤ 'F' then some (c.toNat - 'A'.toNat + 10)
  else none

/-- The inner loop of netip `parseIPv6` reading one hexadecimal group of `s`;
the third argument is `s[off:]`.  Returns `off` and `acc` (a `uint32`). -/
def hexLoop (input s : List Char) : List Char → Nat → Nat → Except GoError (Nat × Nat)
  | [], off, acc => .ok (off, acc)
  | c :: rest, off, acc =>
    match hexDigitValue c with
    | none => .ok (off, acc)
    | some d =>
      let acc := ((acc <<< 4) + d) % 2 ^ 32
      if off > 3 then
        .error (.parseAddrError input "each group must have 4 or less digits" s)
      else if acc > 0xffff then
        .error (.parseAddrError input "IPv6 field has value >=2^16" s)
      else hexLoop input s rest (off + 1) acc

/-- The local variables of the main loop of netip `parseIPv6`. -/
structure V6State where
  s : List Char
  i : Nat
  ip : List Byte
  ellipsis : Int
  deriving DecidableEq

/-- How one iteration of the main loop of `parseIPv6` ends. -/
inductive V6Step where
  | brk (st : V6State)
  | cont (st : V6State)

/-- Overwrite `ip[i:i+4]` with the four bytes of `fields`. -/
def putFields (ip : List Byte) (i : Nat) (fields : List Byte) : List Byte :=
  (((ip.set i (fields.getD 0 0)).set (i + 1) (fields.getD 1 0)).set (i + 2)
    (fields.getD 2 0)).set (i + 3) (fields.getD 3 0)

/-- One iteration of the main loop of netip `parseIPv6`. -/
def parseIPv6Step (input zone : List Char) (st : V6State) : Except GoError V6Step :=
  match hexLoop input st.s st.s 0 0 with
  | .error e => .error e
  | .ok (off, acc) =>
    if off = 0 then
      .error (.parseAddrError input
        "each colon-separated field must have at least one digit" st.s)
    else if off < st.s.length ∧ st.s.getD off ' ' = '.' then
      if st.ellipsis < 0 ∧ st.i ≠ 12 then
        .error (.parseAddrError input
          "embedded IPv4 address must replace the final 2 fields of the address" st.s)
      else if st.i + 4 > 16 then
        .error (.parseAddrError input
          "too many hex fields to fit an embedded IPv4 at the end of the address" st.s)
      else
        let end_ := if zone.length > 0 then input.length - (zone.length + 1) else input.length
        match parseIPv4Fields input (end_ - st.s.length) end_ ((st.ip.drop st.i).take 4) with
        | .error e => .error e
        | .ok fields =>
          .ok (.brk { s := [], i := st.i + 4, ip := putFields st.ip st.i fields,
                      ellipsis := st.ellipsis })
    else
      let ip := (st.ip.set st.i (toByte (acc >>> 8))).set (st.i + 1) (toByte acc)
      let i := st.i + 2
      let s := st.s.drop off
      if s.length = 0 then .ok (.brk { s := s, i := i, ip := ip, ellipsis := st.ellipsis })
      else if s.getD 0 ' ' ≠ ':' then
        .error (.parseAddrError input "unexpected character, want colon" s)
      else if s.length = 1 then
        .error (.parseAddrError input "colon must be followed by more characters" s)
      else
        let s := s.drop 1
        if s.getD 0 ' ' = ':' then
          if st.ellipsis ≥ 0 then
            .error (.parseAddrError input "multiple :: in address" s)
          else
            let s := s.drop 1
            if s.length = 0 then .ok (.brk { s := s, i := i, ip := ip, ellipsis := i })
            else .ok (.cont { s := s, i := i, ip := ip, ellipsis := i })
        else .ok (.cont { s := s, i := i, ip := ip, ellipsis := st.ellipsis })

/-- The main loop `for i < 16 { ... }` of netip `parseIPv6`.  Every iteration
that does not leave the loop adds 2 to `i`, so 8 iterations are enough from
`i = 0`; the first argument is that bound. -/
def parseIPv6Loop (input zone : List Char) : Nat → V6State → Except GoError V6State
  | 0, st => .ok st
  | fuel + 1, st =>
    if st.i < 16 then
      match parseIPv6Step input zone st with
      | .error e => .error e
      | .ok (.brk st') => .ok st'
      | .ok (.cont st') => parseIPv6Loop input zone fuel st'
    else .ok st

/-- The loop `for j := i - 1; j >= ellipsis; j-- { ip[j+n] = ip[j] }` of netip
`parseIPv6`; the first argument bounds the iterations. -/
def expandLoop (n : Nat) (ellipsis : Int) : Nat → Int → List Byte → List Byte
  | 0, _, ip => ip
  | fuel + 1, j, ip =>
    if j ≥ ellipsis then
      expandLoop n ellipsis fuel (j - 1) (ip.set (j.toNat + n) (ip.getD j.toNat 0))
    else ip

/-- Go `clear(ip[lo:hi])`. -/
def clearRange (ip : List Byte) (lo hi : Nat) : List Byte :=
  ip.take lo ++ List.replicate (hi - lo) 0 ++ ip.drop hi

/-- netip `parseIPv6`. -/
def parseIPv6 (input : List Char) : Except GoError Addr :=
  let i := IndexByteString input '%'
  let s := if i ≠ -1 then input.take i.toNat else input
  let zone := if i ≠ -1 then input.drop (i.toNat + 1) else []
  if i ≠ -1 ∧ zone = [] then
    .error (.parseAddrError input "zone must be a non-empty string" [])
  else
    let lead := decide (s.length ≥ 2 ∧ s.getD 0 ' ' = ':' ∧ s.getD 1 ' ' = ':')
    let ellipsis : Int := if lead then 0 else -1
    let s := if lead then s.drop 2 else s
    if lead ∧ s.length = 0 then .ok (IPv6Unspecified.WithZone zone)
    else
      match parseIPv6Loop input zone 8
          { s := s, i := 0, ip := List.replicate 16 0, ellipsis := ellipsis } with
      | .error e => .error e
      | .ok st =>
        if st.s.length ≠ 0 then
          .error (.parseAddrError input "trailing garbage after address" st.s)
        else if st.i < 16 then
          if st.ellipsis < 0 then
            .error (.parseAddrError input "address string too short" [])
          else
            let n := 16 - st.i
            let ip := expandLoop n st.ellipsis 16 (st.i - 1 : Int) st.ip
            let ip := clearRange ip st.ellipsis.toNat (st.ellipsis.toNat + n)
            .ok ((AddrFrom16 ip).WithZone zone)
        else if st.ellipsis ≥ 0 then
          .error (.parseAddrError input
            "the :: must expand to at least one field of zeros" [])
        else .ok ((AddrFrom16 st.ip).WithZone zone)

/-- The scanning loop of netip `ParseAddr`; the second argument is `s[i:]`. -/
def ParseAddrLoop (s : List Char) : List Char → Except GoError Addr
  | [] => .error (.parseAddrError s "unable to parse IP" [])
  | c :: rest =>
    if c = '.' then parseIPv4 s
    else if c = ':' then parseIPv6 s
    else if c = '%' then .error (.parseAddrError s "missing IPv6 address" [])
    else ParseAddrLoop s rest

/-- netip `ParseAddr`. -/
def ParseAddr (s : List Char) : Except GoError Addr := ParseAddrLoop s s

/-! ## `strconv.ParseUint` and `netip.ParseAddrPort` -/

/-- The loop of `strconv.ParseUint(s, 10, 16)` over the bytes of `s`: `s0` is
the whole argument, `n` the `uint64` accumulator. -/
def ParseUintLoop (s0 : List Char) : List Char → Nat → Except GoError Nat
  | [], n => .ok n
  | c :: rest, n =>
    let lower := c.toNat ||| ('x'.toNat - 'X'.toNat)
    let d : Option Nat :=
      if '0' ≤ c ∧ c ≤ '9' then some (c.toNat - '0'.toNat)
      else if 'a'.toNat ≤ lower ∧ lower ≤ 'z'.toNat then some (lower - 'a'.toNat + 10)
      else none
    match d with
    | none => .error (.numError "ParseUint" s0 "invalid syntax")
    | some d =>
      if d ≥ 10 then .error (.numError "ParseUint" s0 "invalid syntax")
      else if n ≥ (2 ^ 64 - 1) / 10 + 1 then
        .error (.numError "ParseUint" s0 "value out of range")
      else
        let n := (n * 10) % 2 ^ 64
        let n1 := (n + d) % 2 ^ 64
        if n1 < n ∨ n1 > 2 ^ 16 - 1 then
          .error (.numError "ParseUint" s0 "value out of range")
        else ParseUintLoop s0 rest n1

/-- Go `strconv.ParseUint(s, 10, 16)`. -/
def ParseUint (s : List Char) : Except GoError Nat :=
  if s = [] then .error (.numError "ParseUint" s "invalid syntax")
  else ParseUintLoop s s 0

/-- netip `splitAddrPort`: returns `ip`, `port` and `v6`. -/
def splitAddrPort (s : List Char) : Except GoError (List Char × List Char × Bool) :=
  let i := LastIndexByteString s ':'
  if i = -1 then .error (.errorString "not an ip:port")
  else
    let ip := s.take i.toNat
    let port := s.drop (i.toNat + 1)
    if ip.length = 0 then .error (.errorString "no IP")
    else if port.length = 0 then .error (.errorString "no port")
    else if ip.getD 0 ' ' = '[' then
      if ip.length < 2 ∨ ip.getD (ip.length - 1) ' ' ≠ ']' then
        .error (.errorString "missing ]")
      else .ok ((ip.take (ip.length - 1)).drop 1, port, true)
    else .ok (ip, port, false)

/-- netip `AddrPort`. -/
structure AddrPort where
  ip : Addr
  port : Nat
  deriving DecidableEq

/-- netip `AddrPort.IsValid`. -/
def AddrPort.IsValid (p : AddrPort) : Bool := p.ip.IsValid

/-- netip `AddrPort.Addr`. -/
def AddrPort.Addr (p : AddrPort) : Addr := p.ip

/-- netip `ParseAddrPort`. -/
def ParseAddrPort (s : List Char) : Except GoError AddrPort :=
  match splitAddrPort s with
  | .error e => .error e
  | .ok (ip, port, v6) =>
    match ParseUint port with
    | .error _ => .error (.invalidPort port s)
    | .ok port16 =>
      match ParseAddr ip with
      | .error e => .error e
      | .ok a =>
        if v6 ∧ a.Is4 then .error (.bracketsOnlyV6 s)
        else if ¬ v6 ∧ a.Is6 then .error (.v6NeedsBrackets s)
        else .ok { ip := a, port := port16 }

/-! ## `strings` -/

/-- Go `strings.Count(s, sep)` for a one-byte separator. -/
def Count (s : List Char) (sep : Char) : Nat := s.count sep

/-- The loop of Go `strings.genSplit` for a one-byte separator: the first
argument is `n - i`, the number of separators still to be cut at. -/
def genSplitLoop (sep : Char) : Nat → List Char → List (List Char)
  | 0, s => [s]
  | k + 1, s =>
    let m := IndexByteString s sep
    if m < 0 then [s]
    else s.take m.toNat :: genSplitLoop sep k (s.drop (m.toNat + 1))

/-- Go `strings.Split(s, sep)` for a one-byte separator: `genSplit(s, sep, 0, -1)`,
which cuts at `Count(s, sep)` separators. -/
def Split (s : List Char) (sep : Char) : List (List Char) :=
  genSplitLoop sep (Count s sep) s

/-- Go `strings.Contains(s, substr)` for a one-byte `substr`. -/
def Contains (s : List Char) (c : Char) : Bool := decide (IndexByteString s c ≥ 0)

/-- Go `unicode.IsSpace`. -/
def IsSpace (c : Char) : Bool :=
  let r := c.toNat
  r = 0x09 || r = 0x0a || r = 0x0b || r = 0x0c || r = 0x0d || r = 0x20 || r = 0x85 ||
    r = 0xa0 || r = 0x1680 || (0x2000 ≤ r && r ≤ 0x200a) || r = 0x2028 || r = 0x2029 ||
    r = 0x202f || r = 0x205f || r = 0x3000

/-- Go `strings.TrimSpace`: all leading and trailing white space removed. -/
def TrimSpace (s : List Char) : List Char :=
  ((s.dropWhile IsSpace).reverse.dropWhile IsSpace).reverse

/-! ## `regexp`: the two patterns and `ReplaceAllString` -/

/-- The pieces a pattern of this file is a sequence of. -/
inductive Inst where
  /-- one literal character. -/
  | lit (x : Char)
  /-- a greedy `x*` over a class. -/
  | star (p : Char → Bool)
  /-- a capture boundary: slot `n` of the match array takes the position. -/
  | save (n : Nat)

/-- The class `\d` of Go regexp (ASCII digits). -/
def isDigitClass (c : Char) : Bool := decide ('0' ≤ c ∧ c ≤ '9')

/-- The class `\w` of Go regexp (ASCII letters, digits and underscore). -/
def isWordClass (c : Char) : Bool :=
  decide (('0' ≤ c ∧ c ≤ '9') ∨ ('A' ≤ c ∧ c ≤ 'Z') ∨ c = '_' ∨ ('a' ≤ c ∧ c ≤ 'z'))

/-- The class `.` of Go regexp without the `s` flag: any character but newline. -/
def isAnyClass (c : Char) : Bool := c != '\n'

/-- The pattern `(\d*\.).*(\.\d*)` of `ipv4Re`. -/
def ipv4Re : List Inst :=
  [.save 2, .star isDigitClass, .lit '.', .save 3, .star isAnyClass,
   .save 4, .lit '.', .star isDigitClass, .save 5]

/-- The pattern `(\w*:\w*:).*(:\w*:\w*)` of `ipv6Re`. -/
def ipv6Re : List Inst :=
  [.save 2, .star isWordClass, .lit ':', .star isWordClass, .lit ':',
   .save 3, .star isAnyClass,
   .save 4, .lit ':', .star isWordClass, .lit ':', .star isWordClass,
   .save 5]

/-- A greedy star: take one more character of the class when that leads to a
match, otherwise go on with the rest of the pattern `k` from here. -/
def starLoop (p : Char → Bool) (k : List Char → Nat → List Nat → Option (List Nat)) :
    List Char → Nat → List Nat → Option (List Nat)
  | [], pos, cap => k [] pos cap
  | c :: rest, pos, cap =>
    if p c then
      match starLoop p k rest (pos + 1) cap with
      | some r => some r
      | none => k (c :: rest) pos cap
    else k (c :: rest) pos cap

/-- Match a pattern at position `pos`, where the unread input is `rest`, in the
leftmost-first order of Go regexp (the order of a backtracking search).  On
success the match array is returned, its slot 1 holding the end of the match. -/
def matchInsts : List Inst → List Char → Nat → List Nat → Option (List Nat)
  | [], _, pos, cap => some (cap.set 1 pos)
  | .lit x :: is, rest, pos, cap =>
    match rest with
    | [] => none
    | c :: rest' => if c = x then matchInsts is rest' (pos + 1) cap else none
  | .star p :: is, rest, pos, cap => starLoop p (matchInsts is) rest pos cap
  | .save n :: is, rest, pos, cap => matchInsts is rest pos (cap.set n pos)

/-- Look for the leftmost match that starts at `pos` or later; `rest` is the
input from `pos` on.  The match array has six slots (the whole match and two
groups); both groups take part in every match of the two patterns. -/
def searchFrom (re : List Inst) : List Char → Nat → Option (List Nat)
  | [], pos => matchInsts re [] pos [pos, 0, 0, 0, 0, 0]
  | c :: rest, pos =>
    match matchInsts re (c :: rest) pos [pos, 0, 0, 0, 0, 0] with
    | some r => some r
    | none => searchFrom re rest (pos + 1)

/-- Go `Regexp.doExecute` on `src` from `pos`: the match array, if any. -/
def doExecute (re : List Inst) (src : List Char) (pos : Nat) : Option (List Nat) :=
  searchFrom re (src.drop pos) pos

/-- The slice `src[lo:hi]`. -/
def slice (src : List Char) (lo hi : Nat) : List Char := (src.take hi).drop lo

/-- Go `Regexp.expand` for the template `"$1****$2"`: the name after each `$`
is the longest run of letters, digits and underscores, so the template is
group 1, the text `****`, group 2. -/
def expandTemplate (src : List Char) (a : List Nat) : List Char :=
  slice src (a.getD 2 0) (a.getD 3 0) ++ "****".toList ++ slice src (a.getD 4 0) (a.getD 5 0)

/-- The loop of Go `Regexp.replaceAll`; the first argument bounds the
iterations (`searchPos` grows by at least one each time, up to `len(src)`). -/
def replaceAllLoop (re : List Inst) (src : List Char) :
    Nat → Nat → Nat → List Char → List Char
  | 0, lastMatchEnd, _, buf => buf ++ src.drop lastMatchEnd
  | fuel + 1, lastMatchEnd, searchPos, buf =>
    if searchPos ≤ src.length then
      match doExecute re src searchPos with
      | none => buf ++ src.drop lastMatchEnd
      | some a =>
        let buf := buf ++ slice src lastMatchEnd (a.getD 0 0)
        let buf :=
          if a.getD 1 0 > lastMatchEnd ∨ a.getD 0 0 = 0 then buf ++ expandTemplate src a
          else buf
        let width := if searchPos < src.length then 1 else 0
        let searchPos :=
          if searchPos + width > a.getD 1 0 then searchPos + width
          else if searchPos + 1 > a.getD 1 0 then searchPos + 1
          else a.getD 1 0
        replaceAllLoop re src fuel (a.getD 1 0) searchPos buf
    else buf ++ src.drop lastMatchEnd

/-- Go `Regexp.ReplaceAllString(src, "$1****$2")`. -/
def ReplaceAllString (re : List Inst) (src : List Char) : List Char :=
  replaceAllLoop re src (src.length + 1) 0 0 []

/-! ## Package `utils` -/

/-- Go `ipv4Desensitize`. -/
def ipv4Desensitize (ipv4Addr : List Char) : List Char := ReplaceAllString ipv4Re ipv4Addr

/-- Go `ipv6Desensitize`. -/
def ipv6Desensitize (ipv6Addr : List Char) : List Char := ReplaceAllString ipv6Re ipv6Addr

/-- Go `IPDesensitize`. -/
def IPDesensitize (ipAddr : List Char) : List Char :=
  let ipAddr := ipv4Desensitize ipAddr
  let ipAddr := ipv6Desensitize ipAddr
  ipAddr

/-- Go `IPStringToBinary`. -/
def IPStringToBinary (ip : List Char) : Except GoError (List Byte) :=
  match ParseAddr ip with
  | .error err => .error err
  | .ok addr => .ok addr.As16

/-- Go `copy(addr16[:], b)` into a zeroed `[16]byte`: the first
`min(16, len(b))` bytes are those of `b`, the others stay zero. -/
def copy16 (b : List Byte) : List Byte :=
  b.take 16 ++ List.replicate (16 - b.length) 0

/-- Go `BinaryToIPString`. -/
def BinaryToIPString (b : List Byte) : List Char :=
  let addr16 := copy16 b
  let addr := AddrFrom16 addr16
  addr.Unmap.String

/-- Go `GetIPFromHeader`.  The index `len(a)-1` is looked up with `getD`; it
is in range for every header (see `Split_length_pos`). -/
def GetIPFromHeader (headerValue : List Char) : Except GoError (List Char) :=
  let a := Split headerValue ','
  let h := TrimSpace (a.getD (a.length - 1) [])
  match ParseAddrPort h with
  | .error err => .error err
  | .ok ip =>
    if !ip.IsValid then .error (.errorString "invalid ip")
    else .ok ip.Addr.String

/-- Go `SplitIPAddr`. -/
def SplitIPAddr (v4v6Bundle : List Char) : List Char × List Char × List Char :=
  let ipList := Split v4v6Bundle '/'
  if ipList.length > 1 then
    let ipv4 := ipList.getD 0 []
    let ipv6 := ipList.getD 1 []
    (ipv4, ipv6, ipv4)
  else if ipList.length = 1 then
    if Contains (ipList.getD 0 []) ':' then (([] : List Char), ipList.getD 0 [], ipList.getD 0 [])
    else (ipList.getD 0 [], ([] : List Char), ipList.getD 0 [])
  else ([], [], [])

/-- How a Go call ends: with a run-time panic, or by returning. -/
inductive Outcome (α : Type) where
  | panic (msg : String)
  | ret (value : α)
  deriving DecidableEq

/-- The secure random source as seen by `GenerateRandomString`: the result of
the `k`-th call `rand.Int(rand.Reader, lettersLength)`, for `k = 0, 1, ...`. -/
abbrev RandSource := Nat → Except GoError Nat

/-- The constant `letters` of `GenerateRandomString`. -/
def letters : List Char :=
  "0123456789ABCDEFGHIJKLMNOPQRSTUVWXYZabcdefghijklmnopqrstuvwxyz".toList

/-- What a call of `GenerateRandomString` does: how it ends, with the returned
string and error, and how many draws it made from the random source. -/
structure RandResult where
  outcome : Outcome (List Char × Option GoError)
  draws : Nat

/-- The loop `for i := 0; i < n; i++` of `GenerateRandomString`; the first
argument is `n - i`.  The `i`-th iteration makes the `i`-th draw. -/
def GenerateRandomStringLoop (src : RandSource) : Nat → Nat → List Char → RandResult
  | 0, i, ret => { outcome := .ret (ret, none), draws := i }
  | k + 1, i, ret =>
    match src i with
    | .error err => { outcome := .ret ([], some err), draws := i + 1 }
    | .ok num =>
      if num < letters.length then
        GenerateRandomStringLoop src k (i + 1) (ret.set i (letters.getD num ' '))
      else { outcome := .panic "index out of range", draws := i + 1 }

/-- The constants of a platform that `make([]byte, n)` depends on: the width
of `int` (32 or 64 bits) and `runtime.maxAlloc`, the largest size of a single
allocation. -/
structure GoPlatform where
  intBits : Nat
  maxAlloc : Nat

/-- The platform linux/amd64: `int` has 64 bits and `maxAlloc` is `1 << 48`. -/
def linuxAmd64 : GoPlatform := { intBits := 64, maxAlloc := 2 ^ 48 }

/-- The values of the Go type `int` on a platform. -/
def GoPlatform.isInt (pf : GoPlatform) (n : Int) : Prop :=
  -(2 ^ (pf.intBits - 1)) ≤ n ∧ n < 2 ^ (pf.intBits - 1)

/-- Go `make([]byte, n)`, that is `runtime.makeslice` with elements of one
byte: a length that is negative or above `maxAlloc` is a run-time panic,
otherwise the slice has `n` zero bytes.  The memory itself is taken to be
there: the fatal error of a heap that cannot grow is not modelled. -/
def makeBytes (pf : GoPlatform) (n : Int) : Outcome (List Char) :=
  if n < 0 ∨ (pf.maxAlloc : Int) < n then .panic "makeslice: len out of range"
  else .ret (List.replicate n.toNat (Char.ofNat 0))

/-- Go `GenerateRandomString`; the argument is an `int` of the platform.  The
slice `ret` is made before the first draw. -/
def GenerateRandomString (pf : GoPlatform) (src : RandSource) (n : Int) : RandResult :=
  match makeBytes pf n with
  | .panic msg => { outcome := .panic msg, draws := 0 }
  | .ret ret => GenerateRandomStringLoop src n.toNat 0 ret

/-! ## Package `utils`: generic helpers -/

/-- The conversion `uint64(x)`: the value of `x` modulo 2^64. -/
def toUint64 (x : Int) : Nat := (x % 2 ^ 64).toNat

/-- The `int64` result of an operation whose mathematical value is `x`: Go
integer arithmetic wraps around into the range from -2^63 to 2^63 - 1. -/
def wrapInt64 (x : Int) : Int := (x + 2 ^ 63) % 2 ^ 64 - 2 ^ 63

/-- Go `Uint64SubInt64`; `a` is a `uint64` and `b` an `int64`, and the `uint64`
sum and difference wrap around modulo 2^64. -/
def Uint64SubInt64 (a : Nat) (b : Int) : Nat :=
  if b < 0 then (a + toUint64 (wrapInt64 (-b))) % 2 ^ 64
  else if a < toUint64 b then 0
  else (a + 2 ^ 64 - toUint64 b) % 2 ^ 64

/-- Go `IfOr`. -/
def IfOr {T : Type} (a : Bool) (x y : T) : T := if a then x else y

/-- A Go `func() T` whose call may read and change a state `σ`: it maps the
state before the call to its result and the state after the call. -/
abbrev Thunk (σ T : Type) := σ → T × σ

/-- Go `IfOrFn`, as a function of the state in which it is called. -/
def IfOrFn {σ T : Type} (a : Bool) (x y : Thunk σ T) : Thunk σ T :=
  fun s => if a then x s else y s

/-- An ordered Go type (`constraints.Ordered`: the integer, floating-point and
string types) as the operators `<`, `>`, `==` and `!=` see it.  Every value is
either a NaN or has a place `key` in a linear order `K`, and the operators
compare the keys: a comparison with a NaN is false, except `!=`, which is true.
For integers and strings the key is the value itself and no value is a NaN; for
floats it is the number denoted, so that `-0.0` and `0.0` have the same key. -/
structure GoOrdered (T K : Type) where
  key : T → Option K

/-- The Go operator `x < y`. -/
def GoOrdered.lt {T K : Type} [LinearOrder K] (o : GoOrdered T K) (x y : T) : Bool :=
  match o.key x, o.key y with
  | some a, some b => decide (a < b)
  | _, _ => false

/-- The Go operator `x > y`. -/
def GoOrdered.gt {T K : Type} [LinearOrder K] (o : GoOrdered T K) (x y : T) : Bool :=
  match o.key x, o.key y with
  | some a, some b => decide (a > b)
  | _, _ => false

/-- The Go operator `x != y`. -/
def GoOrdered.ne {T K : Type} [LinearOrder K] (o : GoOrdered T K) (x y : T) : Bool :=
  match o.key x, o.key y with
  | some a, some b => decide (a ≠ b)
  | _, _ => true

/-- Go `isNaN`. -/
def isNaN {T K : Type} [LinearOrder K] (o : GoOrdered T K) (x : T) : Bool := o.ne x x

/-- Go `Compare`. -/
def Compare {T K : Type} [LinearOrder K] (o : GoOrdered T K) (x y : T) : Int :=
  let xNaN := isNaN o x
  let yNaN := isNaN o y
  if xNaN then
    if yNaN then 0 else -1
  else if yNaN then 1
  else if o.lt x y then -1
  else if o.gt x y then 1
  else 0

/-- The ordered types without NaN (integers, strings): a linear order. -/
def GoOrdered.total (T : Type) : GoOrdered T T := { key := some }

/-- The values of a Go floating-point type, by what they denote: a NaN, an
infinity, the negative zero, or a rational number (`num 0` is `+0.0`). -/
inductive GoFloat where
  | nan
  | negInf
  | posInf
  | negZero
  | num (q : ℚ)

/-- The place of a float in the order of the extended rationals; a NaN has none. -/
def GoFloat.key : GoFloat → Option (WithBot (WithTop ℚ))
  | .nan => none
  | .negInf => some ⊥
  | .posInf => some ((⊤ : WithTop ℚ) : WithBot (WithTop ℚ))
  | .negZero => some ((0 : ℚ) : WithTop ℚ)
  | .num q => some ((q : WithTop ℚ) : WithBot (WithTop ℚ))

/-- The floating-point types as ordered Go types. -/
def GoOrdered.float : GoOrdered GoFloat (WithBot (WithTop ℚ)) := { key := GoFloat.key }

/-! ## `strconv.FormatInt`, `strconv.FormatUint` and `Itoa` -/

/-- strconv constant `smallsString`: the two-digit numbers `00` to `99`. -/
def smallsString : List Char :=
  ("0001020304050607080910111213141516171819" ++
    "2021222324252627282930313233343536373839" ++
    "4041424344454647484950515253545556575859" ++
    "6061626364656667686970717273747576777879" ++
    "8081828384858687888990919293949596979899").toList

/-- strconv constant `digits`. -/
def strconvDigits : List Char := "0123456789abcdefghijklmnopqrstuvwxyz".toList

/-- strconv `small`: the string of an `i` with `0 ≤ i < 100`. -/
def small (i : Nat) : List Char :=
  if i < 10 then (strconvDigits.drop i).take 1
  else (smallsString.drop (i * 2)).take 2

/-- The loop `for us >= 100 { ... }` of strconv `formatBits` in base 10, which
writes two digits at a time from the right into the buffer `a`; the first
argument bounds the iterations (`us` is divided by 100 each time). -/
def formatBitsLoop : Nat → Nat → List Char → Nat × List Char
  | 0, us, a => (us, a)
  | fuel + 1, us, a =>
    if us ≥ 100 then
      let is := us % 100 * 2
      formatBitsLoop fuel (us / 100)
        (smallsString.getD (is + 0) '0' :: smallsString.getD (is + 1) '0' :: a)
    else (us, a)

/-- strconv `formatBits(nil, u, 10, neg, false)` on a 64-bit host: the string
`a[i:]` that is returned. -/
def formatBits (u : Nat) (neg : Bool) : List Char :=
  let u := if neg then (2 ^ 64 - u) % 2 ^ 64 else u
  let (us, a) := formatBitsLoop 10 u []
  let is := us * 2
  let a := smallsString.getD (is + 1) '0' :: a
  let a := if us ≥ 10 then smallsString.getD is '0' :: a else a
  if neg then '-' :: a else a

/-- Go `strconv.FormatInt(i, 10)`. -/
def FormatInt (i : Int) : List Char :=
  if 0 ≤ i ∧ i < 100 then small i.toNat
  else formatBits (toUint64 i) (decide (i < 0))

/-- Go `strconv.FormatUint(i, 10)`. -/
def FormatUint (i : Nat) : List Char :=
  if i < 100 then small i
  else formatBits i false

/-- The predeclared integer types of Go. -/
inductive GoIntKind where
  | int | int8 | int16 | int32 | int64
  | uint | uint8 | uint16 | uint32 | uint64 | uintptr
  deriving DecidableEq

/-- A type that satisfies `constraints.Integer`: a predeclared integer type
(`named = false`) or a defined type with that underlying type, such as
`type ID int64` (`named = true`), which is a different type. -/
structure GoIntType where
  kind : GoIntKind
  named : Bool
  deriving DecidableEq

/-- The values of an integer type (with 64-bit `int`, `uint` and `uintptr`). -/
def GoIntKind.inRange (k : GoIntKind) (i : Int) : Prop :=
  match k with
  | .int | .int64 => -2 ^ 63 ≤ i ∧ i < 2 ^ 63
  | .int8 => -2 ^ 7 ≤ i ∧ i < 2 ^ 7
  | .int16 => -2 ^ 15 ≤ i ∧ i < 2 ^ 15
  | .int32 => -2 ^ 31 ≤ i ∧ i < 2 ^ 31
  | .uint | .uint64 | .uintptr => 0 ≤ i ∧ i < 2 ^ 64
  | .uint8 => 0 ≤ i ∧ i < 2 ^ 8
  | .uint16 => 0 ≤ i ∧ i < 2 ^ 16
  | .uint32 => 0 ≤ i ∧ i < 2 ^ 32

/-- Go `Itoa` at the type `t` and the value `i`: the type switch compares the
dynamic type of `any(i)` with the ten listed types. -/
def Itoa (t : GoIntType) (i : Int) : List Char :=
  if t.named then []
  else
    match t.kind with
    | .int | .int8 | .int16 | .int32 | .int64 => FormatInt (wrapInt64 i)
    | .uint | .uint8 | .uint16 | .uint32 | .uint64 => FormatUint (toUint64 i)
    | .uintptr => []

/-! ## Notions used to state the properties -/

/-- Whether an error is a netip `parseAddrError`. -/
def GoError.isParseAddrError : GoError → Bool
  | .parseAddrError _ _ _ => true
  | _ => false

/-- The element of the header that `GetIPFromHeader` parses: the last
comma-separated element, trimmed. -/
def lastElement (headerValue : List Char) : List Char :=
  TrimSpace ((Split headerValue ',').getD ((Split headerValue ',').length - 1) [])

/-- The text of `s` before its first `/` (all of `s` when it has none). -/
def beforeSlash (s : List Char) : List Char := s.takeWhile (· != '/')

/-- The text of `s` after its first `/` (empty when it has none). -/
def afterSlash (s : List Char) : List Char := (s.dropWhile (· != '/')).drop 1

/-- The token that `GenerateRandomString` builds from the draws `d 0`, `d 1`,
..., `d (n-1)`: the characters of `letters` at these indices, in draw order. -/
def tokenOf (d : Nat → Nat) (n : Nat) : List Char :=
  (List.range n).map (fun i => letters.getD (d i) ' ')

/-- Splitting at a separator by recursion on the string: the value of `Split`
(see `Split_eq_splitAux`), in a form suited to induction. -/
def splitAux (sep : Char) : List Char → List (List Char)
  | [] => [[]]
  | c :: rest =>
    if c = sep then [] :: splitAux sep rest
    else
      match splitAux sep rest with
      | [] => [[c]]
      | x :: l => (c :: x) :: l

/-- A hexadecimal digit, in either case. -/
def isHexDigitChar (c : Char) : Bool :=
  decide (('0' ≤ c ∧ c ≤ '9') ∨ ('a' ≤ c ∧ c ≤ 'f') ∨ ('A' ≤ c ∧ c ≤ 'F'))

/-- The number of times the literal `x` occurs in a pattern: every match
contains at least that many `x`. -/
def litCount (x : Char) : List Inst → Nat
  | [] => 0
  | .lit y :: is => (if y = x then 1 else 0) + litCount x is
  | .star _ :: is => litCount x is
  | .save _ :: is => litCount x is

/-- The invariant of the addresses that `ParseAddr` returns: both halves fit in
64 bits, the address is not the zero `Addr`, a zone is never empty, and an
IPv4 address is stored in IPv4-mapped form. -/
def Addr.WF (a : Addr) : Prop :=
  a.addr.hi < 2 ^ 64 ∧ a.addr.lo < 2 ^ 64 ∧ a.z ≠ .z0 ∧ a.z ≠ .zone [] ∧
    (a.z = .z4 → a.addr.hi = 0 ∧ a.addr.lo >>> 32 = 0xffff)

instance (a : Addr) : Decidable a.WF := by
  unfold Addr.WF
  infer_instance

/-- The characters of a canonical address without zone: decimal digits,
lowercase hexadecimal digits, the colon and the dot. -/
def canonicalChars : List Char := "0123456789abcdef:.".toList

/-- The canonical textual form of an address: the rendering of netip
(lowercase, the longest run of zero groups compressed, a zone after `%`), with
an IPv4-mapped IPv6 address unmapped and written as a dotted quad. -/
def canonicalForm (a : Addr) : List Char := a.Unmap.String

/-- The ten types that `Itoa` recognizes. -/
def GoIntType.recognized (t : GoIntType) : Bool := !t.named && t.kind != .uintptr

/-- The decimal digits of a natural number, most significant first, without
leading zeros (`0` is written `0`). -/
def decimalString (n : Nat) : List Char :=
  if n = 0 then ['0'] else (Nat.digits 10 n).reverse.map (fun d => Char.ofNat (48 + d))

/-- The base-10 rendering of an integer: a `-` before the digits of a negative
number. -/
def renderInt (i : Int) : List Char :=
  if i < 0 then '-' :: decimalString i.natAbs else decimalString i.natAbs

/-- The number that a string of decimal digits denotes. -/
def decimalValue (s : List Char) : Nat := s.foldl (fun acc c => acc * 10 + (c.toNat - 48)) 0

/-- The integer that a decimal string with an optional leading `-` denotes. -/
def parseInt (s : List Char) : Int :=
  match s with
  | '-' :: r => -(decimalValue r : Int)
  | _ => (decimalValue s : Int)

/-- The offset that a greedy star over the class `p` settles on when the rest
of the pattern matches exactly where `test` holds: the last offset within the
run of `p` at which `test` holds for what remains. -/
def lastTest (p : Char → Bool) (test : List Char → Bool) : List Char → Option Nat
  | [] => if test [] then some 0 else none
  | c :: r =>
    if p c then
      match lastTest p test r with
      | some j => some (j + 1)
      | none => if test (c :: r) then some 0 else none
    else if test (c :: r) then some 0 else none

/-- A pattern of the form `(G1).*(G2)`, described by what one match attempt at
the start of an input does: `parseG1` gives the length of group 1 when it
matches there, `test` tells whether group 2 matches at the start of an input
and `lenG2` gives its length. -/
structure MaskPattern where
  parseG1 : List Char → Option Nat
  test : List Char → Bool
  lenG2 : List Char → Nat

/-- One match attempt at the start of `z`: the end of group 1, the start of
group 2 and the end of the match, as offsets into `z`. -/
def MaskPattern.attempt (P : MaskPattern) (z : List Char) : Option (Nat × Nat × Nat) :=
  match P.parseG1 z with
  | none => none
  | some i =>
    match lastTest isAnyClass P.test (z.drop i) with
    | none => none
    | some j => some (i, i + j, i + j + P.lenG2 (z.drop (i + j)))

/-- The pattern `(\d*\.).*(\.\d*)` as a `MaskPattern`. -/
def mask4 : MaskPattern where
  parseG1 z :=
    match z.dropWhile isDigitClass with
    | '.' :: _ => some ((z.takeWhile isDigitClass).length + 1)
    | _ => none
  test y :=
    match y with
    | '.' :: _ => true
    | _ => false
  lenG2 y := 1 + ((y.drop 1).takeWhile isDigitClass).length

/-- The pattern `(\w*:\w*:).*(:\w*:\w*)` as a `MaskPattern`. -/
def mask6 : MaskPattern where
  parseG1 z :=
    match z.dropWhile isWordClass with
    | ':' :: z2 =>
      match z2.dropWhile isWordClass with
      | ':' :: _ =>
        some ((z.takeWhile isWordClass).length + 1 + (z2.takeWhile isWordClass).length + 1)
      | _ => none
    | _ => none
  test y :=
    match y with
    | ':' :: y' =>
      match y'.dropWhile isWordClass with
      | ':' :: _ => true
      | _ => false
    | _ => false
  lenG2 y :=
    1 + ((y.drop 1).takeWhile isWordClass).length + 1 +
      ((((y.drop 1).dropWhile isWordClass).drop 1).takeWhile isWordClass).length

/-- The match array of an attempt at position `pos` with the offsets `m`. -/
def capsOf (pos : Nat) (m : Nat × Nat × Nat) : List Nat :=
  [pos, pos + m.2.2, pos, pos + m.1, pos + m.2.1, pos + m.2.2]
/-- A pattern piece that cannot take a newline. -/
def Inst.skipsNewline : Inst → Prop
  | .lit x => x ≠ '\n'
  | .star p => p '\n' = false
  | .save _ => True

/-- The leftmost successful attempt in `s`: where it starts, and its offsets. -/
def MaskPattern.find (P : MaskPattern) : List Char → Option (Nat × Nat × Nat × Nat)
  | [] => (P.attempt []).map (fun m => (0, m))
  | c :: r =>
    match P.attempt (c :: r) with
    | some m => some (0, m)
    | none => (P.find r).map (fun x => (x.1 + 1, x.2))

/-- The replacement loop as a function of the unread input: copy up to the
end of group 1 of the leftmost match, write `****`, copy group 2 and go on
after the match.  The first argument bounds the number of matches. -/
def MaskPattern.replace (P : MaskPattern) : Nat → List Char → List Char
  | 0, s => s
  | fuel + 1, s =>
    match P.find s with
    | none => s
    | some (p, i, j, e) =>
      s.take (p + i) ++ "****".toList ++ (s.drop (p + j)).take (e - j)
        ++ P.replace fuel (s.drop (p + e))

/-- The replacement of every match in `s`. -/
def MaskPattern.run (P : MaskPattern) (s : List Char) : List Char := P.replace s.length s

/-- What makes a `MaskPattern` a description of a compiled pattern `re`. -/
structure MaskPattern.Models (P : MaskPattern) (re : List Inst) : Prop where
  closed : ∀ z pos, matchInsts re z pos [pos, 0, 0, 0, 0, 0] = (P.attempt z).map (capsOf pos)
  noNewline : ∀ i ∈ re, i.skipsNewline
  parseLen : ∀ z i, P.parseG1 z = some i → 1 ≤ i ∧ i ≤ z.length
  testLen : ∀ y, P.test y = true → 1 ≤ P.lenG2 y ∧ P.lenG2 y ≤ y.length

/-- Group 1 is found by reading forward: it does not depend on what follows
it, and a later start does not make it end earlier. -/
structure MaskPattern.Forward (P : MaskPattern) : Prop where
  stable : ∀ z i R, P.parseG1 z = some i → P.parseG1 (z.take i ++ R) = some i
  mono : ∀ x z i k, P.parseG1 z = some i → P.parseG1 (x ++ z) = some k → k ≤ x.length + i

/-- A text without a newline. -/
def oneLine (l : List Char) : Prop := ∀ c ∈ l, isAnyClass c = true

/-- A line that `ipv4Desensitize` leaves alone: fewer than two dots, or two
dots with `****` between them. -/
def Masked4 (x : List Char) : Prop :=
  x.count '.' < 2 ∨ ∃ A B, x = A ++ ".****.".toList ++ B ∧ '.' ∉ A ∧ '.' ∉ B

/-! # Theorems -/

/-! ## Bytes and addresses -/

theorem or_shl_eq_add (a b k : Nat) (h : a < 2 ^ k) : a ||| b <<< k = a + b * 2 ^ k := by
  rw [Nat.shiftLeft_eq, Nat.lor_comm, Nat.mul_comm b, ← Nat.mul_add_lt_is_or h]
  omega

theorem or_eq_add_of_dvd (k a b : Nat) (ha : 2 ^ k ∣ a) (hb : b < 2 ^ k) : a ||| b = a + b := by
  obtain ⟨c, rfl⟩ := ha
  rw [← Nat.mul_add_lt_is_or hb]

theorem byteAt_lt (b : List Byte) (i : Nat) : byteAt b i < 256 := (b.getD i 0).isLt

theorem beUint64_eq (b : List Byte) :
    beUint64 b = byteAt b 7 + byteAt b 6 * 2 ^ 8 + byteAt b 5 * 2 ^ 16 + byteAt b 4 * 2 ^ 24 +
      byteAt b 3 * 2 ^ 32 + byteAt b 2 * 2 ^ 40 + byteAt b 1 * 2 ^ 48 + byteAt b 0 * 2 ^ 56 := by
  have h0 := byteAt_lt b 0
  have h1 := byteAt_lt b 1
  have h2 := byteAt_lt b 2
  have h3 := byteAt_lt b 3
  have h4 := byteAt_lt b 4
  have h5 := byteAt_lt b 5
  have h6 := byteAt_lt b 6
  have h7 := byteAt_lt b 7
  unfold beUint64
  rw [or_shl_eq_add _ _ 8 (by omega), or_shl_eq_add _ _ 16 (by omega),
    or_shl_eq_add _ _ 24 (by omega), or_shl_eq_add _ _ 32 (by omega),
    or_shl_eq_add _ _ 40 (by omega), or_shl_eq_add _ _ 48 (by omega),
    or_shl_eq_add _ _ 56 (by omega)]

theorem beUint64_lt (b : List Byte) : beUint64 b < 2 ^ 64 := by
  have h0 := byteAt_lt b 0
  have h1 := byteAt_lt b 1
  have h2 := byteAt_lt b 2
  have h3 := byteAt_lt b 3
  have h4 := byteAt_lt b 4
  have h5 := byteAt_lt b 5
  have h6 := byteAt_lt b 6
  have h7 := byteAt_lt b 7
  rw [beUint64_eq]
  omega

theorem beUint64_bePutUint64 (v : Nat) (h : v < 2 ^ 64) : beUint64 (bePutUint64 v) = v := by
  rw [beUint64_eq]
  simp only [bePutUint64, byteAt, List.getD_cons_succ, List.getD_cons_zero, toByte,
    Nat.shiftRight_eq_div_pow]
  omega

theorem AddrFrom4_lo (f : List Byte) :
    (AddrFrom4 f).addr.lo = 0xffff00000000 + byteAt f 0 * 2 ^ 24 + byteAt f 1 * 2 ^ 16 +
      byteAt f 2 * 2 ^ 8 + byteAt f 3 := by
  have h0 := byteAt_lt f 0
  have h1 := byteAt_lt f 1
  have h2 := byteAt_lt f 2
  have h3 := byteAt_lt f 3
  simp only [AddrFrom4, Nat.shiftLeft_eq]
  rw [or_eq_add_of_dvd 32 _ (byteAt f 0 * 2 ^ 24) (by omega) (by omega),
    or_eq_add_of_dvd 24 _ (byteAt f 1 * 2 ^ 16) (by omega) (by omega),
    or_eq_add_of_dvd 16 _ (byteAt f 2 * 2 ^ 8) (by omega) (by omega),
    or_eq_add_of_dvd 8 _ (byteAt f 3) (by omega) (by omega)]

theorem AddrFrom4_WF (f : List Byte) : (AddrFrom4 f).WF := by
  have h0 := byteAt_lt f 0
  have h1 := byteAt_lt f 1
  have h2 := byteAt_lt f 2
  have h3 := byteAt_lt f 3
  have hlo := AddrFrom4_lo f
  refine ⟨?_, ?_, ?_, ?_, ?_⟩
  · simp [AddrFrom4]
  · rw [hlo]; omega
  · simp [AddrFrom4]
  · simp [AddrFrom4]
  · intro _
    refine ⟨rfl, ?_⟩
    rw [hlo, Nat.shiftRight_eq_div_pow]
    omega


theorem AddrFrom16_WF (b : List Byte) : (AddrFrom16 b).WF :=
  ⟨beUint64_lt _, beUint64_lt _, by simp [AddrFrom16], by simp [AddrFrom16],
    by simp [AddrFrom16]⟩

theorem IPv6Unspecified_WF : IPv6Unspecified.WF := by
  simp [Addr.WF, IPv6Unspecified]

theorem WithZone_WF (a : Addr) (zone : List Char) (h : a.WF) : (a.WithZone zone).WF := by
  obtain ⟨h1, h2, h3, h4, h5⟩ := h
  unfold Addr.WithZone
  split
  · exact ⟨h1, h2, h3, h4, h5⟩
  · split
    · exact ⟨h1, h2, by simp, by simp, by simp⟩
    · next hz =>
      refine ⟨h1, h2, by simp, ?_, by simp⟩
      intro e
      apply hz
      simp only [ZoneHandle.zone.injEq] at e
      simp [e]

theorem parseIPv4_WF (s : List Char) (a : Addr) (h : parseIPv4 s = .ok a) : a.WF := by
  unfold parseIPv4 at h
  split at h
  · cases h
  · cases h
    exact AddrFrom4_WF _

theorem parseIPv6_WF (s : List Char) (a : Addr) (h : parseIPv6 s = .ok a) : a.WF := by
  unfold parseIPv6 at h
  simp only at h
  repeat' split at h
  all_goals first
    | (cases h; done)
    | (cases h; exact WithZone_WF _ _ IPv6Unspecified_WF)
    | (cases h; exact WithZone_WF _ _ (AddrFrom16_WF _))

theorem ParseAddrLoop_WF (s : List Char) (a : Addr) :
    ∀ rest, ParseAddrLoop s rest = .ok a → a.WF := by
  intro rest
  induction rest with
  | nil => intro h; cases h
  | cons c rest ih =>
    intro h
    unfold ParseAddrLoop at h
    split at h
    · exact parseIPv4_WF s a h
    · split at h
      · exact parseIPv6_WF s a h
      · split at h
        · cases h
        · exact ih h

theorem ParseAddr_WF (s : List Char) (a : Addr) (h : ParseAddr s = .ok a) : a.WF :=
  ParseAddrLoop_WF s a s h

theorem AddrFrom16_As16 (a : Addr) (h : a.WF) :
    AddrFrom16 (copy16 a.As16) = { addr := a.addr, z := .z6noz } := by
  obtain ⟨h1, h2, -, -, -⟩ := h
  have e : copy16 a.As16 = bePutUint64 a.addr.hi ++ bePutUint64 a.addr.lo := by
    simp [copy16, Addr.As16, bePutUint64]
  rw [e]
  have t : (bePutUint64 a.addr.hi ++ bePutUint64 a.addr.lo).take 8 = bePutUint64 a.addr.hi := by
    simp [bePutUint64]
  have d : (bePutUint64 a.addr.hi ++ bePutUint64 a.addr.lo).drop 8 = bePutUint64 a.addr.lo := by
    simp [bePutUint64]
  simp only [AddrFrom16, t, d, beUint64_bePutUint64 _ h1, beUint64_bePutUint64 _ h2]

theorem Unmap_roundtrip (a : Addr) (h : a.WF) :
    ({ addr := a.addr, z := .z6noz } : Addr).Unmap = (a.WithZone []).Unmap := by
  obtain ⟨a128, z⟩ := a
  obtain ⟨h1, h2, h3, -, h4⟩ := h
  cases z with
  | z0 => exact absurd rfl h3
  | z4 =>
    obtain ⟨e1, e2⟩ := h4 rfl
    simp only at e1 e2
    simp [Addr.Unmap, Addr.WithZone, Addr.Is4In6, Addr.Is6, e1, e2]
  | z6noz => simp [Addr.WithZone, Addr.Is6]
  | zone name => simp [Addr.WithZone, Addr.Is6]



theorem WithZone_nil_of_Zone_nil (a : Addr) (h : a.WF) (hz : a.Zone = []) :
    a.WithZone [] = a := by
  obtain ⟨a128, z⟩ := a
  obtain ⟨-, -, h3, h4, -⟩ := h
  cases z with
  | z0 => exact absurd rfl h3
  | z4 => simp [Addr.WithZone, Addr.Is6]
  | z6noz => simp [Addr.WithZone, Addr.Is6]
  | zone name =>
    simp only [Addr.Zone] at hz
    subst hz
    exact absurd rfl h4

/-! ## The characters of a rendered address -/

theorem digitAt_mem (i : Nat) : digitAt i ∈ canonicalChars := by
  unfold digitAt
  by_cases h : i < 16
  · interval_cases i <;> decide
  · have : digits.length ≤ i := by
      have : digits.length = 16 := by decide
      omega
    rw [List.getD_eq_default _ _ this]
    decide

theorem appendDecimal_chars (b : List Char) (x : Nat) (hb : b ⊆ canonicalChars) :
    appendDecimal b x ⊆ canonicalChars := by
  unfold appendDecimal
  simp only
  repeat' split
  all_goals simp [List.append_subset, hb, digitAt_mem]

theorem appendHex_chars (b : List Char) (x : Nat) (hb : b ⊆ canonicalChars) :
    appendHex b x ⊆ canonicalChars := by
  unfold appendHex
  simp only
  repeat' split
  all_goals simp [List.append_subset, hb, digitAt_mem]

theorem appendTo4_chars (ip : Addr) (ret : List Char) (hr : ret ⊆ canonicalChars) :
    ip.appendTo4 ret ⊆ canonicalChars := by
  have hdot : ['.'] ⊆ canonicalChars := by decide
  unfold Addr.appendTo4
  simp only
  apply appendDecimal_chars
  apply List.append_subset.mpr ⟨?_, hdot⟩
  apply appendDecimal_chars
  apply List.append_subset.mpr ⟨?_, hdot⟩
  apply appendDecimal_chars
  apply List.append_subset.mpr ⟨?_, hdot⟩
  exact appendDecimal_chars _ _ hr

theorem writeGroups_chars (ip : Addr) (zeroStart zeroEnd : Nat) :
    ∀ (fuel i : Nat) (ret : List Char), ret ⊆ canonicalChars →
      writeGroups ip zeroStart zeroEnd fuel i ret ⊆ canonicalChars := by
  intro fuel
  induction fuel with
  | zero => intro i ret hr; exact hr
  | succ fuel ih =>
    intro i ret hr
    have hc1 : [':'] ⊆ canonicalChars := by decide
    have hc2 : [':', ':'] ⊆ canonicalChars := by decide
    unfold writeGroups
    simp only
    repeat' split
    all_goals first
      | exact hr
      | exact List.append_subset.mpr ⟨hr, hc2⟩
      | exact ih _ _ (appendHex_chars _ _ (List.append_subset.mpr ⟨hr, hc2⟩))
      | exact ih _ _ (appendHex_chars _ _ (List.append_subset.mpr ⟨hr, hc1⟩))
      | exact ih _ _ (appendHex_chars _ _ hr)

theorem BinaryToIPString_chars (b : List Byte) : BinaryToIPString b ⊆ canonicalChars := by
  have hnil : ([] : List Char) ⊆ canonicalChars := List.nil_subset _
  unfold BinaryToIPString
  simp only
  have hz : (AddrFrom16 (copy16 b)).z = .z6noz := rfl
  generalize AddrFrom16 (copy16 b) = a at hz
  obtain ⟨a128, z⟩ := a
  simp only at hz
  subst hz
  unfold Addr.Unmap
  split
  · exact appendTo4_chars _ _ hnil
  · next h46 =>
    simp only [Addr.String, h46]
    unfold Addr.string6 Addr.appendTo6
    simp only [bne_self_eq_false, Bool.false_eq_true, if_false]
    exact writeGroups_chars _ _ _ _ _ _ hnil

/-! ## C1: text to binary and back -/

/-- C1 as stated fails for an address with a zone: `fe80::1%eth0` is accepted
by `IPStringToBinary`, its canonical text is `fe80::1%eth0`, but the 16 bytes
do not hold the zone and `BinaryToIPString` gives `fe80::1`. -/
theorem C1_zone_counterexample :
    ParseAddr "fe80::1%eth0".toList
        = .ok ((AddrFrom16 [0xfe, 0x80, 0, 0, 0, 0, 0, 0, 0, 0, 0, 0, 0, 0, 0, 1]).WithZone
            "eth0".toList) ∧
      IPStringToBinary "fe80::1%eth0".toList
        = .ok [0xfe, 0x80, 0, 0, 0, 0, 0, 0, 0, 0, 0, 0, 0, 0, 0, 1] ∧
      BinaryToIPString [0xfe, 0x80, 0, 0, 0, 0, 0, 0, 0, 0, 0, 0, 0, 0, 0, 1]
        = "fe80::1".toList ∧
      canonicalForm ((AddrFrom16 [0xfe, 0x80, 0, 0, 0, 0, 0, 0, 0, 0, 0, 0, 0, 0, 0, 1]).WithZone
            "eth0".toList) = "fe80::1%eth0".toList ∧
      BinaryToIPString [0xfe, 0x80, 0, 0, 0, 0, 0, 0, 0, 0, 0, 0, 0, 0, 0, 1]
        ≠ canonicalForm ((AddrFrom16 [0xfe, 0x80, 0, 0, 0, 0, 0, 0, 0, 0, 0, 0, 0, 0, 0, 1]).WithZone
            "eth0".toList) := by
  decide

/-- C1 (amended): for every string `s` that `ParseAddr` accepts, with address
`a`, `IPStringToBinary s` succeeds with the 16 bytes of `a`, and
`BinaryToIPString` of these bytes is the canonical text of `a` with its zone
removed; when `s` has no zone this is the canonical text of `a` itself.  The
text has only digits, lowercase hexadecimal digits, colons and dots. -/
theorem C1_roundtrip_canonical (s : List Char) (a : Addr) (h : ParseAddr s = .ok a) :
    IPStringToBinary s = .ok a.As16 ∧
      BinaryToIPString a.As16 = canonicalForm (a.WithZone []) ∧
      (a.Zone = [] → BinaryToIPString a.As16 = canonicalForm a) ∧
      BinaryToIPString a.As16 ⊆ canonicalChars := by
  have wf := ParseAddr_WF s a h
  have key : BinaryToIPString a.As16 = canonicalForm (a.WithZone []) := by
    simp only [BinaryToIPString, canonicalForm, AddrFrom16_As16 a wf, Unmap_roundtrip a wf]
  refine ⟨by simp [IPStringToBinary, h], key, ?_, BinaryToIPString_chars _⟩
  intro hz
  rw [key, WithZone_nil_of_Zone_nil a wf hz]

/-- C1 at `2001:0DB8::1`, which comes back as `2001:db8::1`; the same holds at
`192.168.1.1`, `::1` and `::ffff:1.2.3.4` (given back as `1.2.3.4`). -/
theorem C1_roundtrip_canonical_witness :
    ParseAddr "2001:0DB8::1".toList
        = .ok (AddrFrom16 [0x20, 1, 0xd, 0xb8, 0, 0, 0, 0, 0, 0, 0, 0, 0, 0, 0, 1]) ∧
      (IPStringToBinary "2001:0DB8::1".toList
          = .ok (AddrFrom16 [0x20, 1, 0xd, 0xb8, 0, 0, 0, 0, 0, 0, 0, 0, 0, 0, 0, 1]).As16 ∧
        BinaryToIPString (AddrFrom16 [0x20, 1, 0xd, 0xb8, 0, 0, 0, 0, 0, 0, 0, 0, 0, 0, 0, 1]).As16
          = canonicalForm
              ((AddrFrom16 [0x20, 1, 0xd, 0xb8, 0, 0, 0, 0, 0, 0, 0, 0, 0, 0, 0, 1]).WithZone []) ∧
        ((AddrFrom16 [0x20, 1, 0xd, 0xb8, 0, 0, 0, 0, 0, 0, 0, 0, 0, 0, 0, 1]).Zone = [] →
          BinaryToIPString (AddrFrom16 [0x20, 1, 0xd, 0xb8, 0, 0, 0, 0, 0, 0, 0, 0, 0, 0, 0, 1]).As16
            = canonicalForm
                (AddrFrom16 [0x20, 1, 0xd, 0xb8, 0, 0, 0, 0, 0, 0, 0, 0, 0, 0, 0, 1])) ∧
        BinaryToIPString (AddrFrom16 [0x20, 1, 0xd, 0xb8, 0, 0, 0, 0, 0, 0, 0, 0, 0, 0, 0, 1]).As16
          ⊆ canonicalChars) :=
  ⟨by decide, C1_roundtrip_canonical _ _ (by decide)⟩

/-- The examples of C1 evaluated: the canonical outputs for `192.168.1.1`,
`::1`, `2001:0DB8::1` and the IPv4-mapped `::ffff:1.2.3.4`. -/
theorem roundtrip_examples :
    (IPStringToBinary "192.168.1.1".toList).map BinaryToIPString = .ok "192.168.1.1".toList ∧
      (IPStringToBinary "::1".toList).map BinaryToIPString = .ok "::1".toList ∧
      (IPStringToBinary "2001:0DB8::1".toList).map BinaryToIPString
        = .ok "2001:db8::1".toList ∧
      (IPStringToBinary "::ffff:1.2.3.4".toList).map BinaryToIPString
        = .ok "1.2.3.4".toList := by
  decide


/-! ## The regular expressions -/

theorem starLoop_some_suffix (p : Char → Bool) (k : List Char → Nat → List Nat → Option (List Nat))
    (cap r : List Nat) :
    ∀ (rest : List Char) (pos : Nat), starLoop p k rest pos cap = some r →
      ∃ rest' pos', rest' <:+ rest ∧ k rest' pos' cap = some r := by
  intro rest
  induction rest with
  | nil =>
    intro pos h
    exact ⟨[], pos, List.suffix_refl _, by simpa [starLoop] using h⟩
  | cons c rest ih =>
    intro pos h
    unfold starLoop at h
    split at h
    · split at h
      · next r' hr =>
        cases h
        obtain ⟨rest', pos', hs, hk⟩ := ih _ hr
        exact ⟨rest', pos', hs.trans (List.suffix_cons c rest), hk⟩
      · exact ⟨c :: rest, pos, List.suffix_refl _, h⟩
    · exact ⟨c :: rest, pos, List.suffix_refl _, h⟩

theorem litCount_le_of_match (x : Char) :
    ∀ (is : List Inst) (rest : List Char) (pos : Nat) (cap r : List Nat),
      matchInsts is rest pos cap = some r → litCount x is ≤ rest.count x := by
  intro is
  induction is with
  | nil => intro rest pos cap r _; simp [litCount]
  | cons i is ih =>
    intro rest pos cap r h
    cases i with
    | lit y =>
      cases rest with
      | nil => simp [matchInsts] at h
      | cons c rest' =>
        simp only [matchInsts] at h
        split at h
        · next hc =>
          subst hc
          have := ih _ _ _ _ h
          simp only [litCount, List.count_cons]
          split <;> first | omega | (simp_all; omega)
        · cases h
    | star p =>
      simp only [matchInsts] at h
      obtain ⟨rest', pos', hs, hk⟩ := starLoop_some_suffix p _ cap r rest pos h
      have h1 := ih _ _ _ _ hk
      have h2 : rest'.count x ≤ rest.count x := hs.sublist.count_le x
      simp only [litCount]
      omega
    | save n =>
      simp only [matchInsts] at h
      simpa [litCount] using ih _ _ _ _ h

theorem matchInsts_none_of_count (x : Char) (is : List Inst) (rest : List Char) (pos : Nat)
    (cap : List Nat) (h : rest.count x < litCount x is) : matchInsts is rest pos cap = none := by
  cases hm : matchInsts is rest pos cap with
  | none => rfl
  | some r =>
    have := litCount_le_of_match x is rest pos cap r hm
    omega

theorem searchFrom_none_of_count (x : Char) (re : List Inst) :
    ∀ (rest : List Char) (pos : Nat), rest.count x < litCount x re →
      searchFrom re rest pos = none := by
  intro rest
  induction rest with
  | nil =>
    intro pos h
    simp only [searchFrom]
    exact matchInsts_none_of_count x re [] pos _ h
  | cons c rest ih =>
    intro pos h
    simp only [searchFrom]
    rw [matchInsts_none_of_count x re (c :: rest) pos _ h]
    apply ih
    have : rest.count x ≤ (c :: rest).count x := (List.sublist_cons_self c rest).count_le x
    omega

theorem doExecute_none_of_count (x : Char) (re : List Inst) (src : List Char) (pos : Nat)
    (h : src.count x < litCount x re) : doExecute re src pos = none := by
  apply searchFrom_none_of_count x
  have : (src.drop pos).count x ≤ src.count x := (List.drop_sublist pos src).count_le x
  omega

theorem ReplaceAllString_of_no_match (re : List Inst) (src : List Char)
    (h : doExecute re src 0 = none) : ReplaceAllString re src = src := by
  simp [ReplaceAllString, replaceAllLoop, h]

theorem ReplaceAllString_of_count (x : Char) (re : List Inst) (src : List Char)
    (h : src.count x < litCount x re) : ReplaceAllString re src = src :=
  ReplaceAllString_of_no_match re src (doExecute_none_of_count x re src 0 h)

theorem ReplaceAllString_single (re : List Inst) (src : List Char) (a : List Nat)
    (hne : src ≠ []) (h0 : doExecute re src 0 = some a) (ha0 : a.getD 0 0 = 0)
    (ha1 : a.getD 1 0 = src.length) (hend : doExecute re src src.length = none) :
    ReplaceAllString re src = expandTemplate src a := by
  have hl : 0 < src.length := List.length_pos.mpr hne
  obtain ⟨n, hn⟩ : ∃ n, src.length = n + 1 := ⟨src.length - 1, by omega⟩
  have e1 : replaceAllLoop re src (src.length + 1) 0 0 []
      = replaceAllLoop re src src.length src.length src.length (expandTemplate src a) := by
    rw [replaceAllLoop]
    simp only [Nat.zero_le, if_true, h0, ha0, ha1, slice, List.take_zero, List.drop_nil,
      List.append_nil, or_true, List.nil_append, hl, Nat.zero_add]
    have : ¬ (1 > src.length) := by omega
    simp [this]
  have e2 : replaceAllLoop re src src.length src.length src.length (expandTemplate src a)
      = expandTemplate src a := by
    rw [hn, replaceAllLoop, ← hn]
    simp [hend]
  rw [ReplaceAllString, e1, e2]


theorem starLoop_append (p : Char → Bool) (k : List Char → Nat → List Nat → Option (List Nat))
    (cap r : List Nat) (y : List Char) :
    ∀ (x : List Char) (pos : Nat), (∀ c ∈ x, p c = true) →
      starLoop p k y (pos + x.length) cap = some r → starLoop p k (x ++ y) pos cap = some r := by
  intro x
  induction x with
  | nil => intro pos _ h; simpa using h
  | cons c x ih =>
    intro pos hx h
    have hc : p c = true := hx c (List.mem_cons_self c x)
    have := ih (pos + 1) (fun c' hc' => hx c' (List.mem_cons_of_mem c hc'))
      (by rw [← h]; congr 1; simp only [List.length_cons]; omega)
    simp only [List.cons_append, starLoop, hc, if_true, List.append_eq, this]

theorem starLoop_stop (p : Char → Bool) (k : List Char → Nat → List Nat → Option (List Nat))
    (c : Char) (rest : List Char) (pos : Nat) (cap : List Nat) (hc : p c = false) :
    starLoop p k (c :: rest) pos cap = k (c :: rest) pos cap := by
  simp [starLoop, hc]

theorem starLoop_none (p : Char → Bool) (k : List Char → Nat → List Nat → Option (List Nat))
    (cap : List Nat) :
    ∀ (z : List Char) (pos : Nat), (∀ z' pos', z' <:+ z → k z' pos' cap = none) →
      starLoop p k z pos cap = none := by
  intro z
  induction z with
  | nil => intro pos h; simpa [starLoop] using h [] pos (List.suffix_refl _)
  | cons c z ih =>
    intro pos h
    have h1 := ih (pos + 1) (fun z' pos' hs => h z' pos' (hs.trans (List.suffix_cons c z)))
    have h2 := h (c :: z) pos (List.suffix_refl _)
    simp [starLoop, h1, h2]

theorem starLoop_backtrack (p : Char → Bool) (k : List Char → Nat → List Nat → Option (List Nat))
    (c : Char) (z : List Char) (pos : Nat) (cap : List Nat)
    (h : ∀ z' pos', z' <:+ z → k z' pos' cap = none) :
    starLoop p k (c :: z) pos cap = k (c :: z) pos cap := by
  have h1 := starLoop_none p k cap z (pos + 1) h
  by_cases hc : p c = true
  · simp [starLoop, hc, h1]
  · simp [starLoop, hc]

theorem searchFrom_of_match (re : List Inst) (rest : List Char) (pos : Nat) (r : List Nat)
    (h : matchInsts re rest pos [pos, 0, 0, 0, 0, 0] = some r) : searchFrom re rest pos = some r := by
  cases rest with
  | nil => simpa [searchFrom] using h
  | cons c rest => simp [searchFrom, h]

theorem count_eq_zero_of_class (p : Char → Bool) (x : Char) (hx : p x = false) (d : List Char)
    (hd : ∀ c ∈ d, p c = true) : d.count x = 0 := by
  rw [List.count_eq_zero]
  intro hmem
  have := hd x hmem
  rw [hx] at this
  cases this

theorem matchInsts_save (n : Nat) (is : List Inst) (rest : List Char) (pos : Nat)
    (cap : List Nat) :
    matchInsts (.save n :: is) rest pos cap = matchInsts is rest pos (cap.set n pos) := rfl

theorem matchInsts_star (p : Char → Bool) (is : List Inst) (rest : List Char) (pos : Nat)
    (cap : List Nat) :
    matchInsts (.star p :: is) rest pos cap = starLoop p (matchInsts is) rest pos cap := rfl

theorem matchInsts_lit (x : Char) (is : List Inst) (rest : List Char) (pos : Nat)
    (cap : List Nat) :
    matchInsts (.lit x :: is) (x :: rest) pos cap = matchInsts is rest (pos + 1) cap := by
  simp [matchInsts]

theorem matchInsts_nil (rest : List Char) (pos : Nat) (cap : List Nat) :
    matchInsts [] rest pos cap = some (cap.set 1 pos) := rfl

theorem ipv4Re_match (a m d : List Char) (pos : Nat)
    (ha : ∀ c ∈ a, isDigitClass c = true) (hm : ∀ c ∈ m, isAnyClass c = true)
    (hd : ∀ c ∈ d, isDigitClass c = true) :
    matchInsts ipv4Re (a ++ '.' :: (m ++ '.' :: d)) pos [pos, 0, 0, 0, 0, 0]
      = some [pos, pos + a.length + 1 + m.length + 1 + d.length, pos, pos + a.length + 1,
          pos + a.length + 1 + m.length, pos + a.length + 1 + m.length + 1 + d.length] := by
  simp only [ipv4Re, matchInsts_save, matchInsts_star, List.set_cons_succ, List.set_cons_zero]
  apply starLoop_append _ _ _ _ _ a pos ha
  rw [starLoop_stop _ _ _ _ _ _ (by decide)]
  simp only [matchInsts_lit, matchInsts_save, matchInsts_star, List.set_cons_succ,
    List.set_cons_zero]
  apply starLoop_append _ _ _ _ _ m _ hm
  rw [starLoop_backtrack]
  · simp only [matchInsts_lit, matchInsts_save, matchInsts_star, List.set_cons_succ,
      List.set_cons_zero]
    have : starLoop isDigitClass (matchInsts [Inst.save 5]) (d ++ [])
        (pos + a.length + 1 + m.length + 1) [pos, 0, pos, pos + a.length + 1,
          pos + a.length + 1 + m.length, 0]
        = some [pos, pos + a.length + 1 + m.length + 1 + d.length, pos, pos + a.length + 1,
          pos + a.length + 1 + m.length, pos + a.length + 1 + m.length + 1 + d.length] := by
      apply starLoop_append _ _ _ _ _ d _ hd
      simp [starLoop, matchInsts]
    simpa using this
  · intro z' pos' hs
    apply matchInsts_none_of_count '.'
    have h0 : d.count '.' = 0 := count_eq_zero_of_class isDigitClass '.' (by decide) d hd
    have h1 : z'.count '.' ≤ d.count '.' := hs.sublist.count_le _
    simp only [litCount]
    simp
    omega


theorem ipv6Re_match (a1 a2 m a3 a4 : List Char) (pos : Nat)
    (h1 : ∀ c ∈ a1, isWordClass c = true) (h2 : ∀ c ∈ a2, isWordClass c = true)
    (hm : ∀ c ∈ m, isAnyClass c = true)
    (h3 : ∀ c ∈ a3, isWordClass c = true) (h4 : ∀ c ∈ a4, isWordClass c = true) :
    matchInsts ipv6Re (a1 ++ ':' :: (a2 ++ ':' :: (m ++ ':' :: (a3 ++ ':' :: a4)))) pos
        [pos, 0, 0, 0, 0, 0]
      = some [pos, pos + a1.length + 1 + a2.length + 1 + m.length + 1 + a3.length + 1 + a4.length,
          pos, pos + a1.length + 1 + a2.length + 1, pos + a1.length + 1 + a2.length + 1 + m.length,
          pos + a1.length + 1 + a2.length + 1 + m.length + 1 + a3.length + 1 + a4.length] := by
  simp only [ipv6Re, matchInsts_save, matchInsts_star, List.set_cons_succ, List.set_cons_zero]
  apply starLoop_append _ _ _ _ _ a1 pos h1
  rw [starLoop_stop _ _ _ _ _ _ (by decide)]
  simp only [matchInsts_lit, matchInsts_save, matchInsts_star, List.set_cons_succ,
    List.set_cons_zero]
  apply starLoop_append _ _ _ _ _ a2 _ h2
  rw [starLoop_stop _ _ _ _ _ _ (by decide)]
  simp only [matchInsts_lit, matchInsts_save, matchInsts_star, List.set_cons_succ,
    List.set_cons_zero]
  apply starLoop_append _ _ _ _ _ m _ hm
  rw [starLoop_backtrack]
  · simp only [matchInsts_lit, matchInsts_save, matchInsts_star, List.set_cons_succ,
      List.set_cons_zero]
    apply starLoop_append _ _ _ _ _ a3 _ h3
    rw [starLoop_stop _ _ _ _ _ _ (by decide)]
    simp only [matchInsts_lit, matchInsts_save, matchInsts_star, List.set_cons_succ,
      List.set_cons_zero]
    have : starLoop isWordClass (matchInsts [Inst.save 5]) (a4 ++ [])
        (pos + a1.length + 1 + a2.length + 1 + m.length + 1 + a3.length + 1)
        [pos, 0, pos, pos + a1.length + 1 + a2.length + 1,
          pos + a1.length + 1 + a2.length + 1 + m.length, 0]
        = some [pos,
          pos + a1.length + 1 + a2.length + 1 + m.length + 1 + a3.length + 1 + a4.length,
          pos, pos + a1.length + 1 + a2.length + 1, pos + a1.length + 1 + a2.length + 1 + m.length,
          pos + a1.length + 1 + a2.length + 1 + m.length + 1 + a3.length + 1 + a4.length] := by
      apply starLoop_append _ _ _ _ _ a4 _ h4
      simp [starLoop, matchInsts]
    simpa using this
  · intro z' pos' hs
    apply matchInsts_none_of_count ':'
    have e3 : a3.count ':' = 0 := count_eq_zero_of_class isWordClass ':' (by decide) a3 h3
    have e4 : a4.count ':' = 0 := count_eq_zero_of_class isWordClass ':' (by decide) a4 h4
    have hle : z'.count ':' ≤ (a3 ++ ':' :: a4).count ':' := hs.sublist.count_le _
    simp only [List.count_append, List.count_cons, e3, e4] at hle
    simp only [litCount]
    simp at hle ⊢
    omega

theorem doExecute_end_none (x : Char) (re : List Inst) (src : List Char)
    (h : 0 < litCount x re) : doExecute re src src.length = none := by
  unfold doExecute
  apply searchFrom_none_of_count x
  simpa using h

theorem ipv4Desensitize_shape (a m d : List Char)
    (ha : ∀ c ∈ a, isDigitClass c = true) (hm : ∀ c ∈ m, isAnyClass c = true)
    (hd : ∀ c ∈ d, isDigitClass c = true) :
    ipv4Desensitize (a ++ '.' :: (m ++ '.' :: d)) = a ++ '.' :: ("****".toList ++ '.' :: d) := by
  have hmatch := ipv4Re_match a m d 0 ha hm hd
  have hex : doExecute ipv4Re (a ++ '.' :: (m ++ '.' :: d)) 0 = _ :=
    searchFrom_of_match _ _ _ _ hmatch
  unfold ipv4Desensitize
  rw [ReplaceAllString_single ipv4Re _ _ (by simp) hex (by simp) (by simp; omega)
    (doExecute_end_none '.' _ _ (by decide))]
  simp only [expandTemplate, slice, List.getD_cons_succ, List.getD_cons_zero, List.drop_zero]
  have t1 : (a ++ '.' :: (m ++ '.' :: d)).take (0 + a.length + 1) = a ++ ['.'] := by
    rw [show 0 + a.length + 1 = (a ++ ['.']).length by simp,
      show a ++ '.' :: (m ++ '.' :: d) = (a ++ ['.']) ++ (m ++ '.' :: d) by simp]
    exact List.take_left' rfl
  have t2 : (a ++ '.' :: (m ++ '.' :: d)).take (0 + a.length + 1 + m.length + 1 + d.length)
      = a ++ '.' :: (m ++ '.' :: d) := by
    apply List.take_of_length_le
    simp; omega
  have t3 : (a ++ '.' :: (m ++ '.' :: d)).drop (0 + a.length + 1 + m.length) = '.' :: d := by
    rw [show 0 + a.length + 1 + m.length = (a ++ '.' :: m).length by simp; omega,
      show a ++ '.' :: (m ++ '.' :: d) = (a ++ '.' :: m) ++ ('.' :: d) by simp]
    exact List.drop_left' rfl
  rw [t1, t2, t3]
  simp

theorem ipv6Desensitize_shape (a1 a2 m a3 a4 : List Char)
    (h1 : ∀ c ∈ a1, isWordClass c = true) (h2 : ∀ c ∈ a2, isWordClass c = true)
    (hm : ∀ c ∈ m, isAnyClass c = true)
    (h3 : ∀ c ∈ a3, isWordClass c = true) (h4 : ∀ c ∈ a4, isWordClass c = true) :
    ipv6Desensitize (a1 ++ ':' :: (a2 ++ ':' :: (m ++ ':' :: (a3 ++ ':' :: a4))))
      = a1 ++ ':' :: (a2 ++ ':' :: ("****".toList ++ ':' :: (a3 ++ ':' :: a4))) := by
  have hmatch := ipv6Re_match a1 a2 m a3 a4 0 h1 h2 hm h3 h4
  have hex : doExecute ipv6Re (a1 ++ ':' :: (a2 ++ ':' :: (m ++ ':' :: (a3 ++ ':' :: a4)))) 0 = _ :=
    searchFrom_of_match _ _ _ _ hmatch
  unfold ipv6Desensitize
  rw [ReplaceAllString_single ipv6Re _ _ (by simp) hex (by simp) (by simp; omega)
    (doExecute_end_none ':' _ _ (by decide))]
  simp only [expandTemplate, slice, List.getD_cons_succ, List.getD_cons_zero, List.drop_zero]
  have t1 : (a1 ++ ':' :: (a2 ++ ':' :: (m ++ ':' :: (a3 ++ ':' :: a4)))).take
      (0 + a1.length + 1 + a2.length + 1) = a1 ++ ':' :: (a2 ++ [':']) := by
    rw [show 0 + a1.length + 1 + a2.length + 1 = (a1 ++ ':' :: (a2 ++ [':'])).length by
        simp; omega,
      show a1 ++ ':' :: (a2 ++ ':' :: (m ++ ':' :: (a3 ++ ':' :: a4)))
        = (a1 ++ ':' :: (a2 ++ [':'])) ++ (m ++ ':' :: (a3 ++ ':' :: a4)) by simp]
    exact List.take_left' rfl
  have t2 : (a1 ++ ':' :: (a2 ++ ':' :: (m ++ ':' :: (a3 ++ ':' :: a4)))).take
      (0 + a1.length + 1 + a2.length + 1 + m.length + 1 + a3.length + 1 + a4.length)
      = a1 ++ ':' :: (a2 ++ ':' :: (m ++ ':' :: (a3 ++ ':' :: a4))) := by
    apply List.take_of_length_le
    simp; omega
  have t3 : (a1 ++ ':' :: (a2 ++ ':' :: (m ++ ':' :: (a3 ++ ':' :: a4)))).drop
      (0 + a1.length + 1 + a2.length + 1 + m.length) = ':' :: (a3 ++ ':' :: a4) := by
    rw [show 0 + a1.length + 1 + a2.length + 1 + m.length
          = (a1 ++ ':' :: (a2 ++ ':' :: m)).length by simp; omega,
      show a1 ++ ':' :: (a2 ++ ':' :: (m ++ ':' :: (a3 ++ ':' :: a4)))
        = (a1 ++ ':' :: (a2 ++ ':' :: m)) ++ (':' :: (a3 ++ ':' :: a4)) by simp]
    exact List.drop_left' rfl
  rw [t1, t2, t3]
  simp


theorem isAnyClass_of_digit (c : Char) (h : isDigitClass c = true) : isAnyClass c = true := by
  by_contra hn
  have : c = '\n' := by simpa [isAnyClass] using hn
  subst this
  revert h
  decide

theorem isWordClass_of_hex (c : Char) (h : isHexDigitChar c = true) : isWordClass c = true := by
  simp only [isHexDigitChar, decide_eq_true_eq] at h
  simp only [isWordClass, decide_eq_true_eq]
  rcases h with ⟨h1, h2⟩ | ⟨h1, h2⟩ | ⟨h1, h2⟩
  · exact Or.inl ⟨h1, h2⟩
  · exact Or.inr (Or.inr (Or.inr ⟨h1, le_trans h2 (by decide)⟩))
  · exact Or.inr (Or.inl ⟨h1, le_trans h2 (by decide)⟩)

theorem isAnyClass_of_hex (c : Char) (h : isHexDigitChar c = true) : isAnyClass c = true := by
  by_contra hn
  have : c = '\n' := by simpa [isAnyClass] using hn
  subst this
  revert h
  decide

theorem IPDesensitize_dotted (a b c d : List Char)
    (ha : ∀ x ∈ a, isDigitClass x = true) (hb : ∀ x ∈ b, isDigitClass x = true)
    (hc : ∀ x ∈ c, isDigitClass x = true) (hd : ∀ x ∈ d, isDigitClass x = true) :
    IPDesensitize (a ++ ['.'] ++ b ++ ['.'] ++ c ++ ['.'] ++ d) = a ++ ".****.".toList ++ d := by
  have e : a ++ ['.'] ++ b ++ ['.'] ++ c ++ ['.'] ++ d = a ++ '.' :: ((b ++ '.' :: c) ++ '.' :: d) := by
    simp
  have hm : ∀ x ∈ b ++ '.' :: c, isAnyClass x = true := by
    intro x hx
    rcases List.mem_append.mp hx with h | h
    · exact isAnyClass_of_digit x (hb x h)
    · rcases List.mem_cons.mp h with h | h
      · subst h; decide
      · exact isAnyClass_of_digit x (hc x h)
  have ca : a.count ':' = 0 := count_eq_zero_of_class isDigitClass ':' (by decide) a ha
  have cd : d.count ':' = 0 := count_eq_zero_of_class isDigitClass ':' (by decide) d hd
  unfold IPDesensitize
  simp only
  rw [e, ipv4Desensitize_shape a _ d ha hm hd]
  unfold ipv6Desensitize
  rw [ReplaceAllString_of_count ':']
  · simp
  · have : litCount ':' ipv6Re = 4 := by decide
    rw [this]
    simp [List.count_append, List.count_cons, ca, cd]

theorem IPDesensitize_eight_groups (g1 g2 g3 g4 g5 g6 g7 g8 : List Char)
    (h1 : ∀ x ∈ g1, isHexDigitChar x = true) (h2 : ∀ x ∈ g2, isHexDigitChar x = true)
    (h3 : ∀ x ∈ g3, isHexDigitChar x = true) (h4 : ∀ x ∈ g4, isHexDigitChar x = true)
    (h5 : ∀ x ∈ g5, isHexDigitChar x = true) (h6 : ∀ x ∈ g6, isHexDigitChar x = true)
    (h7 : ∀ x ∈ g7, isHexDigitChar x = true) (h8 : ∀ x ∈ g8, isHexDigitChar x = true) :
    IPDesensitize (g1 ++ [':'] ++ g2 ++ [':'] ++ g3 ++ [':'] ++ g4 ++ [':'] ++ g5 ++ [':'] ++ g6
        ++ [':'] ++ g7 ++ [':'] ++ g8)
      = g1 ++ [':'] ++ g2 ++ ":****:".toList ++ g7 ++ [':'] ++ g8 := by
  have e : g1 ++ [':'] ++ g2 ++ [':'] ++ g3 ++ [':'] ++ g4 ++ [':'] ++ g5 ++ [':'] ++ g6
        ++ [':'] ++ g7 ++ [':'] ++ g8
      = g1 ++ ':' :: (g2 ++ ':' :: ((g3 ++ ':' :: (g4 ++ ':' :: (g5 ++ ':' :: g6)))
          ++ ':' :: (g7 ++ ':' :: g8))) := by
    simp
  have hm : ∀ x ∈ g3 ++ ':' :: (g4 ++ ':' :: (g5 ++ ':' :: g6)), isAnyClass x = true := by
    intro x hx
    simp only [List.mem_append, List.mem_cons] at hx
    rcases hx with h | h | h | h | h | h | h
    · exact isAnyClass_of_hex x (h3 x h)
    · subst h; decide
    · exact isAnyClass_of_hex x (h4 x h)
    · subst h; decide
    · exact isAnyClass_of_hex x (h5 x h)
    · subst h; decide
    · exact isAnyClass_of_hex x (h6 x h)
  have cnt : ∀ g : List Char, (∀ x ∈ g, isHexDigitChar x = true) → g.count '.' = 0 :=
    fun g hg => count_eq_zero_of_class isHexDigitChar '.' (by decide) g hg
  have w : ∀ g : List Char, (∀ x ∈ g, isHexDigitChar x = true) →
      ∀ x ∈ g, isWordClass x = true := fun g hg x hx => isWordClass_of_hex x (hg x hx)
  unfold IPDesensitize
  simp only
  have e4 : ipv4Desensitize (g1 ++ [':'] ++ g2 ++ [':'] ++ g3 ++ [':'] ++ g4 ++ [':'] ++ g5
      ++ [':'] ++ g6 ++ [':'] ++ g7 ++ [':'] ++ g8)
      = g1 ++ [':'] ++ g2 ++ [':'] ++ g3 ++ [':'] ++ g4 ++ [':'] ++ g5
      ++ [':'] ++ g6 ++ [':'] ++ g7 ++ [':'] ++ g8 := by
    unfold ipv4Desensitize
    apply ReplaceAllString_of_count '.'
    have : litCount '.' ipv4Re = 2 := by decide
    rw [this]
    simp [List.count_append, List.count_cons, cnt g1 h1, cnt g2 h2, cnt g3 h3, cnt g4 h4,
      cnt g5 h5, cnt g6 h6, cnt g7 h7, cnt g8 h8]
  rw [e4, e, ipv6Desensitize_shape g1 g2 _ g7 g8 (w g1 h1) (w g2 h2) hm (w g7 h7) (w g8 h8)]
  simp


/-! ## C2, C3: masking a dotted quad and a full IPv6 address -/

/-- C2: for every dotted quad `a.b.c.d` whose four groups are non-empty runs of
ASCII decimal digits, `IPDesensitize` returns exactly `a ++ ".****." ++ d`: the
first and last groups and their dots are kept, the two middle groups are
replaced by the mask. -/
theorem C2_dotted_quad_masked (a b c d : List Char)
    (_ha : a ≠ []) (_hb : b ≠ []) (_hc : c ≠ []) (_hd : d ≠ [])
    (da : ∀ x ∈ a, isDigitClass x = true) (db : ∀ x ∈ b, isDigitClass x = true)
    (dc : ∀ x ∈ c, isDigitClass x = true) (dd : ∀ x ∈ d, isDigitClass x = true) :
    IPDesensitize (a ++ ['.'] ++ b ++ ['.'] ++ c ++ ['.'] ++ d) = a ++ ".****.".toList ++ d :=
  IPDesensitize_dotted a b c d da db dc dd

/-- C2 at `192.168.1.100`, which is masked to `192.****.100`. -/
theorem C2_dotted_quad_masked_witness :
    IPDesensitize "192.168.1.100".toList = "192.****.100".toList :=
  C2_dotted_quad_masked "192".toList "168".toList "1".toList "100".toList (by decide) (by decide)
    (by decide) (by decide) (by decide) (by decide) (by decide) (by decide)

/-- C3: for every fully written IPv6 address `g1:g2:g3:g4:g5:g6:g7:g8` whose
groups are non-empty runs of hexadecimal digits, `IPDesensitize` returns exactly
`g1:g2:****:g7:g8`: the first two and the last two groups are kept and the
interior is replaced by the mask. -/
theorem C3_full_ipv6_masked (g1 g2 g3 g4 g5 g6 g7 g8 : List Char)
    (_n1 : g1 ≠ []) (_n2 : g2 ≠ []) (_n3 : g3 ≠ []) (_n4 : g4 ≠ [])
    (_n5 : g5 ≠ []) (_n6 : g6 ≠ []) (_n7 : g7 ≠ []) (_n8 : g8 ≠ [])
    (h1 : ∀ x ∈ g1, isHexDigitChar x = true) (h2 : ∀ x ∈ g2, isHexDigitChar x = true)
    (h3 : ∀ x ∈ g3, isHexDigitChar x = true) (h4 : ∀ x ∈ g4, isHexDigitChar x = true)
    (h5 : ∀ x ∈ g5, isHexDigitChar x = true) (h6 : ∀ x ∈ g6, isHexDigitChar x = true)
    (h7 : ∀ x ∈ g7, isHexDigitChar x = true) (h8 : ∀ x ∈ g8, isHexDigitChar x = true) :
    IPDesensitize (g1 ++ [':'] ++ g2 ++ [':'] ++ g3 ++ [':'] ++ g4 ++ [':'] ++ g5 ++ [':'] ++ g6
        ++ [':'] ++ g7 ++ [':'] ++ g8)
      = g1 ++ [':'] ++ g2 ++ ":****:".toList ++ g7 ++ [':'] ++ g8 :=
  IPDesensitize_eight_groups g1 g2 g3 g4 g5 g6 g7 g8 h1 h2 h3 h4 h5 h6 h7 h8

/-- C3 at `2001:0db8:85a3:0000:0000:8a2e:0370:7334`, which is masked to
`2001:0db8:****:0370:7334`. -/
theorem C3_full_ipv6_masked_witness :
    IPDesensitize "2001:0db8:85a3:0000:0000:8a2e:0370:7334".toList
      = "2001:0db8:****:0370:7334".toList :=
  C3_full_ipv6_masked "2001".toList "0db8".toList "85a3".toList "0000".toList "0000".toList
    "8a2e".toList "0370".toList "7334".toList (by decide) (by decide) (by decide) (by decide)
    (by decide) (by decide) (by decide) (by decide) (by decide) (by decide) (by decide)
    (by decide) (by decide) (by decide) (by decide) (by decide)


/-! ## `strings.Split` and `strings.TrimSpace` -/

theorem IndexByteString_of_not_mem (c : Char) :
    ∀ s : List Char, c ∉ s → IndexByteString s c = -1 := by
  intro s
  induction s with
  | nil => intro _; rfl
  | cons x s ih =>
    intro h
    have hx : x ≠ c := fun e => h (by simp [e])
    have hs : c ∉ s := fun e => h (List.mem_cons_of_mem x e)
    simp [IndexByteString, hx, ih hs]

theorem IndexByteString_ge (c : Char) : ∀ s : List Char, -1 ≤ IndexByteString s c := by
  intro s
  induction s with
  | nil => simp [IndexByteString]
  | cons x s ih =>
    simp only [IndexByteString]
    split
    · omega
    · split <;> omega

theorem splitAux_ne_nil (sep : Char) : ∀ s : List Char, splitAux sep s ≠ [] := by
  intro s
  cases s with
  | nil => simp [splitAux]
  | cons c rest =>
    simp only [splitAux]
    split
    · simp
    · split <;> simp

theorem genSplitLoop_eq_splitAux (sep : Char) :
    ∀ (s : List Char) (k : Nat), s.count sep ≤ k → genSplitLoop sep k s = splitAux sep s := by
  intro s
  induction s with
  | nil =>
    intro k _
    cases k <;> simp [genSplitLoop, splitAux, IndexByteString]
  | cons c rest ih =>
    intro k hk
    by_cases hc : c = sep
    · subst hc
      simp only [List.count_cons_self] at hk
      obtain ⟨k', rfl⟩ : ∃ k', k = k' + 1 := ⟨k - 1, by omega⟩
      have := ih k' (by omega)
      simp [genSplitLoop, splitAux, IndexByteString, this]
    · have hcnt : rest.count sep ≤ k := by
        rw [List.count_cons_of_ne (Ne.symm hc)] at hk
        exact hk
      have hge := IndexByteString_ge sep rest
      cases k with
      | zero =>
        have := ih 0 hcnt
        simp only [genSplitLoop] at this
        simp [genSplitLoop, splitAux, hc, ← this]
      | succ k' =>
        have := ih (k' + 1) hcnt
        simp only [genSplitLoop] at this
        simp only [genSplitLoop, IndexByteString, hc, if_false, splitAux, ← this]
        by_cases hr : IndexByteString rest sep < 0
        · simp [hr]
        · have e1 : (IndexByteString rest sep + 1).toNat = (IndexByteString rest sep).toNat + 1 := by
            omega
          have e2 : ¬ (IndexByteString rest sep + 1 < 0) := by omega
          simp [hr, e1, e2]

theorem Split_eq_splitAux (s : List Char) (sep : Char) : Split s sep = splitAux sep s :=
  genSplitLoop_eq_splitAux sep s _ (Nat.le_refl _)

theorem splitAux_of_not_mem (sep : Char) : ∀ s : List Char, sep ∉ s → splitAux sep s = [s] := by
  intro s
  induction s with
  | nil => intro _; rfl
  | cons x s ih =>
    intro h
    have hx : x ≠ sep := fun e => h (by simp [e])
    have hs : sep ∉ s := fun e => h (List.mem_cons_of_mem x e)
    simp [splitAux, hx, ih hs]

theorem splitAux_append_cons (sep : Char) (rest : List Char) :
    ∀ a : List Char, sep ∉ a → splitAux sep (a ++ sep :: rest) = a :: splitAux sep rest := by
  intro a
  induction a with
  | nil => intro _; simp [splitAux]
  | cons x a ih =>
    intro h
    have hx : x ≠ sep := fun e => h (by simp [e])
    have hs : sep ∉ a := fun e => h (List.mem_cons_of_mem x e)
    simp [splitAux, hx, ih hs]

theorem splitAux_last (sep : Char) (t : List Char) (ht : sep ∉ t) :
    ∀ h : List Char, ∃ x l, splitAux sep (h ++ sep :: t) = x :: (l ++ [t]) := by
  intro h
  induction h with
  | nil => exact ⟨[], [], by simp [splitAux, splitAux_of_not_mem sep t ht]⟩
  | cons c h ih =>
    obtain ⟨x, l, e⟩ := ih
    by_cases hc : c = sep
    · exact ⟨[], x :: l, by simp [splitAux, hc, e]⟩
    · exact ⟨c :: x, l, by simp [splitAux, hc, e]⟩

theorem Split_length_pos (s : List Char) (sep : Char) : 0 < (Split s sep).length := by
  rw [Split_eq_splitAux]
  exact List.length_pos.mpr (splitAux_ne_nil sep s)

theorem Split_last (sep : Char) (h t : List Char) (ht : sep ∉ t) :
    (Split (h ++ [sep] ++ t) sep).getD ((Split (h ++ [sep] ++ t) sep).length - 1) [] = t := by
  rw [Split_eq_splitAux]
  obtain ⟨x, l, e⟩ := splitAux_last sep t ht h
  have e' : h ++ [sep] ++ t = h ++ sep :: t := by simp
  rw [e', e]
  simp

theorem Split_single (sep : Char) (t : List Char) (ht : sep ∉ t) :
    (Split t sep).getD ((Split t sep).length - 1) [] = t := by
  rw [Split_eq_splitAux, splitAux_of_not_mem sep t ht]
  simp

theorem TrimSpace_pad (w1 t w2 : List Char) (h1 : ∀ c ∈ w1, IsSpace c = true)
    (h2 : ∀ c ∈ w2, IsSpace c = true) : TrimSpace (w1 ++ t ++ w2) = TrimSpace t := by
  unfold TrimSpace
  congr 1
  rw [List.append_assoc, List.dropWhile_append_of_pos h1, List.dropWhile_append]
  split
  · next he =>
    have e : t.dropWhile IsSpace = [] := by simpa using he
    rw [e, List.dropWhile_eq_nil_iff.mpr h2]
  · rw [List.reverse_append, List.dropWhile_append_of_pos (by simpa using h2)]


/-! ## What the parsers accept and which errors they give -/

theorem parseIPv4FieldsLoop_chars (input s : List Char) :
    ∀ (rest : List Char) (i val pos digLen : Nat) (fields : List Byte)
      (r : Nat × Nat × List Byte),
      parseIPv4FieldsLoop input s rest i val pos digLen fields = .ok r →
        ∀ c ∈ rest, isDigitClass c = true ∨ c = '.' := by
  intro rest
  induction rest with
  | nil => intro _ _ _ _ _ _ _ c hc; cases hc
  | cons x rest ih =>
    intro i val pos digLen fields r h c hc
    unfold parseIPv4FieldsLoop at h
    split at h
    · next hx =>
      split at h
      · cases h
      · simp only at h
        split at h
        · cases h
        · rcases List.mem_cons.mp hc with e | e
          · subst e
            exact Or.inl (by simpa [isDigitClass] using hx)
          · exact ih _ _ _ _ _ _ h c e
    · split at h
      · next hx =>
        split at h
        · cases h
        · split at h
          · cases h
          · rcases List.mem_cons.mp hc with e | e
            · subst e
              exact Or.inr hx
            · exact ih _ _ _ _ _ _ h c e
      · cases h

theorem parseIPv4FieldsLoop_error (input s : List Char) :
    ∀ (rest : List Char) (i val pos digLen : Nat) (fields : List Byte) (e : GoError),
      parseIPv4FieldsLoop input s rest i val pos digLen fields = .error e →
        e.isParseAddrError = true := by
  intro rest
  induction rest with
  | nil => intro _ _ _ _ _ _ h; cases h
  | cons x rest ih =>
    intro i val pos digLen fields e h
    unfold parseIPv4FieldsLoop at h
    simp only at h
    repeat' split at h
    all_goals first
      | (cases h; rfl)
      | exact ih _ _ _ _ _ _ h

theorem parseIPv4Fields_error (input : List Char) (off end_ : Nat) (fields : List Byte)
    (e : GoError) (h : parseIPv4Fields input off end_ fields = .error e) :
    e.isParseAddrError = true := by
  unfold parseIPv4Fields at h
  simp only at h
  split at h
  · next e' he =>
    cases h
    exact parseIPv4FieldsLoop_error _ _ _ _ _ _ _ _ _ he
  · split at h
    · cases h; rfl
    · cases h

theorem parseIPv4_chars (s : List Char) (a : Addr) (h : parseIPv4 s = .ok a) :
    ∀ c ∈ s, isDigitClass c = true ∨ c = '.' := by
  unfold parseIPv4 parseIPv4Fields at h
  simp only [List.take_length, List.drop_zero] at h
  split at h
  · cases h
  · next f hf =>
    split at hf
    · cases hf
    · next val pos fields hl =>
      exact parseIPv4FieldsLoop_chars _ _ _ _ _ _ _ _ _ hl

theorem parseIPv4_error (s : List Char) (e : GoError) (h : parseIPv4 s = .error e) :
    e.isParseAddrError = true := by
  unfold parseIPv4 at h
  split at h
  · next e' he =>
    cases h
    exact parseIPv4Fields_error _ _ _ _ _ he
  · cases h

theorem hexLoop_error (input s : List Char) :
    ∀ (rest : List Char) (off acc : Nat) (e : GoError),
      hexLoop input s rest off acc = .error e → e.isParseAddrError = true := by
  intro rest
  induction rest with
  | nil => intro _ _ _ h; cases h
  | cons x rest ih =>
    intro off acc e h
    unfold hexLoop at h
    simp only at h
    repeat' split at h
    all_goals first
      | (cases h <;> rfl)
      | exact ih _ _ _ h

theorem parseIPv6Step_error (input zone : List Char) (st : V6State) (e : GoError)
    (h : parseIPv6Step input zone st = .error e) : e.isParseAddrError = true := by
  unfold parseIPv6Step at h
  simp only at h
  split at h
  · next e' he =>
    cases h
    exact hexLoop_error _ _ _ _ _ _ he
  · repeat' split at h
    all_goals first
      | (cases h <;> rfl)
      | (cases h; exact parseIPv4Fields_error _ _ _ _ _ (by assumption))

theorem parseIPv6Loop_error (input zone : List Char) :
    ∀ (fuel : Nat) (st : V6State) (e : GoError),
      parseIPv6Loop input zone fuel st = .error e → e.isParseAddrError = true := by
  intro fuel
  induction fuel with
  | zero => intro _ _ h; cases h
  | succ fuel ih =>
    intro st e h
    unfold parseIPv6Loop at h
    split at h
    · split at h
      · next e' he =>
        cases h
        exact parseIPv6Step_error _ _ _ _ he
      · cases h
      · exact ih _ _ h
    · cases h

theorem parseIPv6_error (s : List Char) (e : GoError) (h : parseIPv6 s = .error e) :
    e.isParseAddrError = true := by
  unfold parseIPv6 at h
  simp only at h
  repeat' split at h
  all_goals first
    | (cases h <;> rfl)
    | (cases h; exact parseIPv6Loop_error _ _ _ _ _ (by assumption))

theorem ParseAddr_error (s : List Char) (e : GoError) (h : ParseAddr s = .error e) :
    e.isParseAddrError = true := by
  have key : ∀ rest, ParseAddrLoop s rest = .error e → e.isParseAddrError = true := by
    intro rest
    induction rest with
    | nil => intro h; cases h; rfl
    | cons c rest ih =>
      intro h
      unfold ParseAddrLoop at h
      split at h
      · exact parseIPv4_error s e h
      · split at h
        · exact parseIPv6_error s e h
        · split at h
          · cases h; rfl
          · exact ih h
  exact key s h

theorem WithZone_not_Is4 (a : Addr) (zone : List Char) (h : a.z = .z6noz) :
    (a.WithZone zone).Is4 = false := by
  unfold Addr.WithZone
  split
  · simp [Addr.Is4, h]
  · split <;> simp [Addr.Is4]

theorem parseIPv6_not_Is4 (s : List Char) (a : Addr) (h : parseIPv6 s = .ok a) :
    a.Is4 = false := by
  unfold parseIPv6 at h
  simp only at h
  repeat' split at h
  all_goals first
    | (cases h; done)
    | (cases h; exact WithZone_not_Is4 _ _ rfl)

theorem ParseAddr_Is4_chars (s : List Char) (a : Addr) (h : ParseAddr s = .ok a)
    (h4 : a.Is4 = true) : ∀ c ∈ s, isDigitClass c = true ∨ c = '.' := by
  have key : ∀ rest, ParseAddrLoop s rest = .ok a → parseIPv4 s = .ok a := by
    intro rest
    induction rest with
    | nil => intro h; cases h
    | cons c rest ih =>
      intro h
      unfold ParseAddrLoop at h
      split at h
      · exact h
      · split at h
        · have := parseIPv6_not_Is4 s a h
          rw [h4] at this
          cases this
        · split at h
          · cases h
          · exact ih h
  exact parseIPv4_chars s a (key s h)

theorem ParseUintLoop_digits (s0 : List Char) :
    ∀ (rest : List Char) (n r : Nat), ParseUintLoop s0 rest n = .ok r →
      ∀ c ∈ rest, isDigitClass c = true := by
  intro rest
  induction rest with
  | nil => intro _ _ _ c hc; cases hc
  | cons x rest ih =>
    intro n r h c hc
    unfold ParseUintLoop at h
    simp only at h
    split at h
    · cases h
    · next d hd =>
      split at h
      · cases h
      · next hlt =>
        split at h
        · cases h
        · split at h
          · cases h
          · rcases List.mem_cons.mp hc with e | e
            · subst e
              split at hd
              · next hx => simpa [isDigitClass] using hx
              · split at hd
                · simp only [Option.some.injEq] at hd
                  omega
                · cases hd
            · exact ih _ _ h c e

theorem ParseUint_digits (s : List Char) (r : Nat) (h : ParseUint s = .ok r) :
    s ≠ [] ∧ ∀ c ∈ s, isDigitClass c = true := by
  unfold ParseUint at h
  split at h
  · cases h
  · next hne => exact ⟨hne, ParseUintLoop_digits _ _ _ _ h⟩


theorem LastIndexByteString_of_not_mem (c : Char) :
    ∀ s : List Char, c ∉ s → LastIndexByteString s c = -1 := by
  intro s
  induction s with
  | nil => intro _; rfl
  | cons x s ih =>
    intro h
    have hx : x ≠ c := fun e => h (by simp [e])
    have hs : c ∉ s := fun e => h (List.mem_cons_of_mem x e)
    simp [LastIndexByteString, hx, ih hs]

theorem LastIndexByteString_append_cons (c : Char) (q : List Char) (hq : c ∉ q) :
    ∀ p : List Char, LastIndexByteString (p ++ c :: q) c = p.length := by
  intro p
  induction p with
  | nil => simp [LastIndexByteString, LastIndexByteString_of_not_mem c q hq]
  | cons x p ih =>
    have : (0 : Int) ≤ (p.length : Int) := Int.ofNat_nonneg _
    simp only [List.cons_append, LastIndexByteString, List.length_cons, List.append_eq]
    rw [ih]
    simp [this]

theorem not_mem_of_digits (x : Char) (hx : isDigitClass x = false) (d : List Char)
    (hd : ∀ c ∈ d, isDigitClass c = true) : x ∉ d := by
  intro hmem
  have := hd x hmem
  rw [hx] at this
  cases this

theorem GetIPFromHeader_eq (hdr : List Char) :
    GetIPFromHeader hdr =
      match ParseAddrPort (lastElement hdr) with
      | .error err => .error err
      | .ok ip => if !ip.IsValid then .error (.errorString "invalid ip") else .ok ip.Addr.String :=
  rfl

theorem splitAddrPort_plain (ip port : List Char) (hip : ip ≠ []) (hport : port ≠ [])
    (hc : ':' ∉ port) (hb : ip.getD 0 ' ' ≠ '[') :
    splitAddrPort (ip ++ [':'] ++ port) = .ok (ip, port, false) := by
  have e : ip ++ [':'] ++ port = ip ++ ':' :: port := by simp
  have hl := LastIndexByteString_append_cons ':' port hc ip
  have h1 : ip.length ≠ 0 := by simpa using hip
  have h2 : port.length ≠ 0 := by simpa using hport
  have h3 : ¬ ((ip.length : Int) = -1) := by omega
  unfold splitAddrPort
  rw [e]
  simp only [hl, h3, if_false, Int.toNat_ofNat]
  have t : (ip ++ ':' :: port).take ip.length = ip := List.take_left' rfl
  have d : (ip ++ ':' :: port).drop (ip.length + 1) = port := by
    rw [show ip ++ ':' :: port = (ip ++ [':']) ++ port by simp]
    exact List.drop_left' (by simp)
  simp only [t, d, h1, h2, if_false, hb]

theorem splitAddrPort_bracket (ip port : List Char) (hport : port ≠ []) (hc : ':' ∉ port) :
    splitAddrPort (['['] ++ ip ++ [']', ':'] ++ port) = .ok (ip, port, true) := by
  have e : ['['] ++ ip ++ [']', ':'] ++ port = ('[' :: (ip ++ [']'])) ++ ':' :: port := by simp
  have hl := LastIndexByteString_append_cons ':' port hc ('[' :: (ip ++ [']']))
  have h2 : port.length ≠ 0 := by simpa using hport
  have h3 : ¬ ((('[' :: (ip ++ [']'])).length : Int) = -1) := by omega
  unfold splitAddrPort
  rw [e]
  simp only [hl, h3, if_false, Int.toNat_ofNat]
  have t : (('[' :: (ip ++ [']'])) ++ ':' :: port).take ('[' :: (ip ++ [']'])).length
      = '[' :: (ip ++ [']']) := List.take_left' rfl
  have d : (('[' :: (ip ++ [']'])) ++ ':' :: port).drop (('[' :: (ip ++ [']'])).length + 1)
      = port := by
    rw [show ('[' :: (ip ++ [']'])) ++ ':' :: port = (('[' :: (ip ++ [']'])) ++ [':']) ++ port by
      simp]
    exact List.drop_left' (by simp)
  rw [t, d]
  simp [h2]


theorem parseIPv6Loop_bracket (input zone tail : List Char) (fuel : Nat) (ip : List Byte)
    (ellipsis : Int) :
    parseIPv6Loop input zone (fuel + 1) { s := '[' :: tail, i := 0, ip := ip, ellipsis := ellipsis }
      = .error (.parseAddrError input
          "each colon-separated field must have at least one digit" ('[' :: tail)) := by
  have hd : hexDigitValue '[' = none := by decide
  simp [parseIPv6Loop, parseIPv6Step, hexLoop, hd]

theorem parseIPv6_bracket (rest : List Char) (a : Addr) : parseIPv6 ('[' :: rest) ≠ .ok a := by
  intro h
  have hge := IndexByteString_ge '%' rest
  have hi : IndexByteString ('[' :: rest) '%'
      = if IndexByteString rest '%' < 0 then -1 else IndexByteString rest '%' + 1 := by
    simp [IndexByteString]
  unfold parseIPv6 at h
  rw [hi] at h
  by_cases hr : IndexByteString rest '%' < 0
  · simp [hr, parseIPv6Loop_bracket] at h
  · have e1 : (IndexByteString rest '%' + 1).toNat = (IndexByteString rest '%').toNat + 1 := by
      omega
    have e2 : ¬ (IndexByteString rest '%' + 1 = -1) := by omega
    simp [hr, e1, e2, parseIPv6Loop_bracket] at h
    split at h <;> cases h

theorem ParseAddr_bracket (rest : List Char) (a : Addr) : ParseAddr ('[' :: rest) ≠ .ok a := by
  intro h
  have key : ∀ r, ParseAddrLoop ('[' :: rest) r ≠ .ok a := by
    intro r
    induction r with
    | nil => intro h; cases h
    | cons c r ih =>
      intro h
      unfold ParseAddrLoop at h
      split at h
      · have := parseIPv4_chars _ _ h '[' (List.mem_cons_self _ _)
        revert this
        decide
      · split at h
        · exact parseIPv6_bracket rest a h
        · split at h
          · cases h
          · exact ih h
  exact key _ h

theorem ParseAddr_head (ip : List Char) (a : Addr) (h : ParseAddr ip = .ok a) :
    ip ≠ [] ∧ ip.getD 0 ' ' ≠ '[' := by
  cases ip with
  | nil => cases h
  | cons c rest =>
    refine ⟨by simp, ?_⟩
    intro e
    have : c = '[' := by simpa using e
    subst this
    exact ParseAddr_bracket rest a h


theorem LastIndexByteString_ge (c : Char) : ∀ s : List Char, -1 ≤ LastIndexByteString s c := by
  intro s
  induction s with
  | nil => simp [LastIndexByteString]
  | cons x s ih =>
    simp only [LastIndexByteString]
    split
    · omega
    · split <;> omega

theorem LastIndexByteString_split (c : Char) :
    ∀ s : List Char, 0 ≤ LastIndexByteString s c →
      s = s.take (LastIndexByteString s c).toNat ++ c ::
        s.drop ((LastIndexByteString s c).toNat + 1) := by
  intro s
  induction s with
  | nil => intro h; simp [LastIndexByteString] at h
  | cons x s ih =>
    intro h
    simp only [LastIndexByteString] at h ⊢
    by_cases hr : LastIndexByteString s c ≥ 0
    · have e1 : (LastIndexByteString s c + 1).toNat = (LastIndexByteString s c).toNat + 1 := by
        omega
      simp only [hr, if_true, e1, List.take_succ_cons, List.drop_succ_cons, List.cons_append]
      congr 1
      exact ih hr
    · simp only [hr, if_false] at h ⊢
      by_cases hx : x = c
      · simp [hx]
      · simp [hx] at h

theorem ParseAddrLoop_Is4_append (s s' : List Char) (a : Addr) (h4 : a.Is4 = true)
    (q : List Char) :
    ∀ rest, ParseAddrLoop s rest = .ok a → ParseAddrLoop s' (rest ++ q) = parseIPv4 s' := by
  intro rest
  induction rest with
  | nil => intro h; cases h
  | cons c rest ih =>
    intro h
    unfold ParseAddrLoop at h
    simp only [List.cons_append]
    unfold ParseAddrLoop
    split at h
    · next hc => simp [hc]
    · next hc =>
      split at h
      · have := parseIPv6_not_Is4 s a h
        rw [h4] at this
        cases this
      · next hc2 =>
        split at h
        · cases h
        · next hc3 => simp [hc, hc2, hc3, ih h]

theorem Is4_of_not_Is6 (a : Addr) (hv : a.WF) (h6 : a.Is6 = false) : a.Is4 = true := by
  obtain ⟨a128, z⟩ := a
  obtain ⟨-, -, h3, -, -⟩ := hv
  cases z <;> simp_all [Addr.Is6, Addr.Is4]

theorem Is6_of_Is4 (a : Addr) (h4 : a.Is4 = true) : a.Is6 = false := by
  obtain ⟨a128, z⟩ := a
  cases z <;> simp_all [Addr.Is6, Addr.Is4]

theorem Is4_of_Is6 (a : Addr) (h6 : a.Is6 = true) : a.Is4 = false := by
  obtain ⟨a128, z⟩ := a
  cases z <;> simp_all [Addr.Is6, Addr.Is4]

theorem IsValid_of_WF (a : Addr) (hv : a.WF) : a.IsValid = true := by
  obtain ⟨-, -, h3, -, -⟩ := hv
  simpa [Addr.IsValid] using h3

theorem ParseAddrPort_valid (s : List Char) (p : AddrPort) (h : ParseAddrPort s = .ok p) :
    p.IsValid = true := by
  unfold ParseAddrPort at h
  repeat' split at h
  all_goals first
    | (cases h; done)
    | (cases h; exact IsValid_of_WF _ (ParseAddr_WF _ _ (by assumption)))

theorem ParseAddrPort_bare (s : List Char) (a : Addr) (h : ParseAddr s = .ok a) :
    ∃ e, ParseAddrPort s = .error e := by
  obtain ⟨hne, hb⟩ := ParseAddr_head s a h
  have hge := LastIndexByteString_ge ':' s
  unfold ParseAddrPort splitAddrPort
  simp only
  by_cases hi : LastIndexByteString s ':' = -1
  · simp only [hi, if_true]
    exact ⟨_, rfl⟩
  · have hsplit := LastIndexByteString_split ':' s (by omega)
    generalize hip : s.take (LastIndexByteString s ':').toNat = ip at hsplit
    generalize hport : s.drop ((LastIndexByteString s ':').toNat + 1) = port at hsplit
    simp only [hi, if_false]
    by_cases h1 : ip.length = 0
    · simp only [h1, if_true]
      exact ⟨_, rfl⟩
    · by_cases h2 : port.length = 0
      · simp only [h1, h2, if_true, if_false]
        exact ⟨_, rfl⟩
      · have h3 : ip.getD 0 ' ' ≠ '[' := by
          intro e
          apply hb
          cases ip with
          | nil => simp at h1
          | cons c ip' =>
            rw [hsplit]
            simpa using e
        simp only [h1, h2, if_false, h3]
        cases hu : ParseUint port with
        | error e => exact ⟨_, rfl⟩
        | ok n =>
          cases hp : ParseAddr ip with
          | error e => exact ⟨_, rfl⟩
          | ok a' =>
            simp only [Bool.false_eq_true, false_and, if_false, not_false_eq_true, true_and]
            by_cases h6 : a'.Is6 = true
            · simp only [h6, if_true]
              exact ⟨_, rfl⟩
            · exfalso
              have h4 : a'.Is4 = true :=
                Is4_of_not_Is6 a' (ParseAddr_WF ip a' hp) (by simpa using h6)
              have := ParseAddrLoop_Is4_append ip s a' h4 (':' :: port) ip hp
              rw [← hsplit] at this
              have h' : parseIPv4 s = .ok a := by rw [← this]; exact h
              have hc := parseIPv4_chars s a h' ':' (by rw [hsplit]; simp)
              revert hc
              decide


theorem ParseAddrPort_plain4 (ip port : List Char) (a : Addr) (n : Nat)
    (hip : ParseAddr ip = .ok a) (hport : ParseUint port = .ok n) (h4 : a.Is4 = true) :
    ParseAddrPort (ip ++ [':'] ++ port) = .ok { ip := a, port := n } := by
  obtain ⟨hne, hb⟩ := ParseAddr_head ip a hip
  obtain ⟨hpne, hd⟩ := ParseUint_digits port n hport
  have hc : ':' ∉ port := not_mem_of_digits ':' (by decide) port hd
  unfold ParseAddrPort
  rw [splitAddrPort_plain ip port hne hpne hc hb]
  simp [hport, hip, Is6_of_Is4 a h4]

theorem ParseAddrPort_plain6 (ip port : List Char) (a : Addr) (n : Nat)
    (hip : ParseAddr ip = .ok a) (hport : ParseUint port = .ok n) (h6 : a.Is6 = true) :
    ParseAddrPort (ip ++ [':'] ++ port) = .error (.v6NeedsBrackets (ip ++ [':'] ++ port)) := by
  obtain ⟨hne, hb⟩ := ParseAddr_head ip a hip
  obtain ⟨hpne, hd⟩ := ParseUint_digits port n hport
  have hc : ':' ∉ port := not_mem_of_digits ':' (by decide) port hd
  unfold ParseAddrPort
  rw [splitAddrPort_plain ip port hne hpne hc hb]
  simp [hport, hip, h6]

theorem ParseAddrPort_bracket6 (ip port : List Char) (a : Addr) (n : Nat)
    (hip : ParseAddr ip = .ok a) (hport : ParseUint port = .ok n) (h6 : a.Is6 = true) :
    ParseAddrPort (['['] ++ ip ++ [']', ':'] ++ port) = .ok { ip := a, port := n } := by
  obtain ⟨hpne, hd⟩ := ParseUint_digits port n hport
  have hc : ':' ∉ port := not_mem_of_digits ':' (by decide) port hd
  unfold ParseAddrPort
  rw [splitAddrPort_bracket ip port hpne hc]
  simp [hport, hip, Is4_of_Is6 a h6]

theorem ParseAddrPort_no_colon (s : List Char) (h : ':' ∉ s) :
    ParseAddrPort s = .error (.errorString "not an ip:port") := by
  simp [ParseAddrPort, splitAddrPort, LastIndexByteString_of_not_mem ':' s h]

theorem GetIPFromHeader_of_ok (hdr : List Char) (a : Addr) (n : Nat) (hv : a.WF)
    (h : ParseAddrPort (lastElement hdr) = .ok { ip := a, port := n }) :
    GetIPFromHeader hdr = .ok a.String := by
  rw [GetIPFromHeader_eq, h]
  simp [AddrPort.IsValid, AddrPort.Addr, IsValid_of_WF a hv]

theorem GetIPFromHeader_of_error (hdr : List Char) (e : GoError)
    (h : ParseAddrPort (lastElement hdr) = .error e) : GetIPFromHeader hdr = .error e := by
  rw [GetIPFromHeader_eq, h]

theorem splitAddrPort_error_ne (s : List Char) (e : GoError) (h : splitAddrPort s = .error e) :
    e ≠ .errorString "invalid ip" := by
  unfold splitAddrPort at h
  simp only at h
  repeat' split at h
  all_goals first
    | (cases h <;> decide)

theorem ParseAddrPort_error_ne (s : List Char) (e : GoError) (h : ParseAddrPort s = .error e) :
    e ≠ .errorString "invalid ip" := by
  unfold ParseAddrPort at h
  split at h
  · next e' he =>
    cases h
    exact splitAddrPort_error_ne s _ he
  · split at h
    · cases h
      intro hh
      cases hh
    · split at h
      · next e' he =>
        cases h
        have := ParseAddr_error _ _ he
        intro hh
        rw [hh] at this
        cases this
      · split at h
        · cases h
          intro hh
          cases hh
        · split at h
          · cases h
            intro hh
            cases hh
          · cases h

/-! ## C4, C5, C6: the client address of a forwarding header -/

/-- C4: the last entry wins.  For every header value `h` and every `t` without
a comma, `GetIPFromHeader (h ++ "," ++ t)` is exactly the result (address or
error) of `GetIPFromHeader t`, also when `t` is surrounded by white space; and
for every header the index `len(a)-1` of the last element is in range. -/
theorem C4_last_entry_wins (h t w1 w2 : List Char) (ht : ',' ∉ t)
    (h1 : ∀ c ∈ w1, IsSpace c = true) (h2 : ∀ c ∈ w2, IsSpace c = true) :
    GetIPFromHeader (h ++ [','] ++ t) = GetIPFromHeader t ∧
      GetIPFromHeader (h ++ [','] ++ (w1 ++ t ++ w2)) = GetIPFromHeader t ∧
      GetIPFromHeader (w1 ++ t ++ w2) = GetIPFromHeader t ∧
      (∀ hdr, (Split hdr ',').length - 1 < (Split hdr ',').length) := by
  have hw : ',' ∉ w1 ++ t ++ w2 := by
    intro hm
    simp only [List.mem_append] at hm
    rcases hm with (hm | hm) | hm
    · have := h1 _ hm
      revert this
      decide
    · exact ht hm
    · have := h2 _ hm
      revert this
      decide
  have e0 : lastElement t = TrimSpace t := by
    unfold lastElement
    rw [Split_single ',' t ht]
  have e1 : lastElement (h ++ [','] ++ t) = TrimSpace t := by
    unfold lastElement
    rw [Split_last ',' h t ht]
  have e2 : lastElement (h ++ [','] ++ (w1 ++ t ++ w2)) = TrimSpace t := by
    unfold lastElement
    rw [Split_last ',' h _ hw, TrimSpace_pad w1 t w2 h1 h2]
  have e3 : lastElement (w1 ++ t ++ w2) = TrimSpace t := by
    unfold lastElement
    rw [Split_single ',' _ hw, TrimSpace_pad w1 t w2 h1 h2]
  refine ⟨?_, ?_, ?_, ?_⟩
  · rw [GetIPFromHeader_eq, GetIPFromHeader_eq, e0, e1]
  · rw [GetIPFromHeader_eq, GetIPFromHeader_eq, e0, e2]
  · rw [GetIPFromHeader_eq, GetIPFromHeader_eq, e0, e3]
  · intro hdr
    have := Split_length_pos hdr ','
    omega

/-- C4 at the header `10.0.0.1:1234, 203.0.113.5:80`, which gives the address
`203.0.113.5` of its last entry and no error. -/
theorem C4_last_entry_wins_witness :
    GetIPFromHeader "10.0.0.1:1234, 203.0.113.5:80".toList = .ok "203.0.113.5".toList ∧
      GetIPFromHeader "10.0.0.1:1234, 203.0.113.5:80".toList
        = GetIPFromHeader "203.0.113.5:80".toList :=
  ⟨by decide,
    (C4_last_entry_wins "10.0.0.1:1234".toList "203.0.113.5:80".toList " ".toList []
      (by decide) (by decide) (by decide)).2.1⟩

/-- C5 as stated fails: the bare address `203.0.113.5` is a valid IP address
(`ParseAddr` accepts it), yet `GetIPFromHeader` rejects it, because
`netip.ParseAddrPort` requires a port; and the IPv6 address `::1` followed by
`:80` is rejected because it is not in square brackets. -/
theorem C5_port_optional_counterexample :
    ParseAddr "203.0.113.5".toList = .ok (AddrFrom4 [203, 0, 113, 5]) ∧
      GetIPFromHeader "203.0.113.5".toList = .error (.errorString "not an ip:port") ∧
      GetIPFromHeader "::1:80".toList = .error (.v6NeedsBrackets "::1:80".toList) := by
  decide

/-- C5 (amended): the port is required.  Let `ip` be a valid IP address and
`port` a decimal port number.  When the last element of the header, trimmed, is
an IPv4 `ip` followed by `:port`, or an IPv6 `ip` in square brackets followed by
`:port`, `GetIPFromHeader` succeeds and returns only the address, in canonical
text; an IPv6 `ip` followed by `:port` without brackets is rejected; and when
the last element is `ip` alone, with no port, `GetIPFromHeader` fails (for an
IPv4 address with the error `not an ip:port`). -/
theorem C5_port_required (hdr ip port : List Char) (a : Addr) (n : Nat)
    (hip : ParseAddr ip = .ok a) (hport : ParseUint port = .ok n) :
    (a.Is4 = true → lastElement hdr = ip ++ [':'] ++ port →
        GetIPFromHeader hdr = .ok a.String) ∧
      (a.Is6 = true → lastElement hdr = ['['] ++ ip ++ [']', ':'] ++ port →
        GetIPFromHeader hdr = .ok a.String) ∧
      (a.Is6 = true → lastElement hdr = ip ++ [':'] ++ port →
        GetIPFromHeader hdr = .error (.v6NeedsBrackets (ip ++ [':'] ++ port))) ∧
      (lastElement hdr = ip → ∃ e, GetIPFromHeader hdr = .error e) ∧
      (a.Is4 = true → lastElement hdr = ip →
        GetIPFromHeader hdr = .error (.errorString "not an ip:port")) := by
  have hv := ParseAddr_WF ip a hip
  refine ⟨?_, ?_, ?_, ?_, ?_⟩
  · intro h4 hl
    apply GetIPFromHeader_of_ok hdr a n hv
    rw [hl]
    exact ParseAddrPort_plain4 ip port a n hip hport h4
  · intro h6 hl
    apply GetIPFromHeader_of_ok hdr a n hv
    rw [hl]
    exact ParseAddrPort_bracket6 ip port a n hip hport h6
  · intro h6 hl
    apply GetIPFromHeader_of_error
    rw [hl]
    exact ParseAddrPort_plain6 ip port a n hip hport h6
  · intro hl
    obtain ⟨e, he⟩ := ParseAddrPort_bare ip a hip
    exact ⟨e, GetIPFromHeader_of_error hdr e (by rw [hl]; exact he)⟩
  · intro h4 hl
    apply GetIPFromHeader_of_error
    rw [hl]
    apply ParseAddrPort_no_colon
    intro hm
    have := ParseAddr_Is4_chars ip a hip h4 ':' hm
    revert this
    decide

/-- C5 at the header `203.0.113.5:80`, which gives `203.0.113.5`. -/
theorem C5_port_required_witness :
    ParseAddr "203.0.113.5".toList = .ok (AddrFrom4 [203, 0, 113, 5]) ∧
      ParseUint "80".toList = .ok 80 ∧
      GetIPFromHeader "203.0.113.5:80".toList = .ok "203.0.113.5".toList :=
  ⟨by decide, by decide,
    ((C5_port_required "203.0.113.5:80".toList "203.0.113.5".toList "80".toList
      (AddrFrom4 [203, 0, 113, 5]) 80 (by decide) (by decide)).1 (by decide) (by decide)).trans
      (by decide)⟩

/-- C6 as stated fails: the unspecified addresses are valid for netip, so
`0.0.0.0:80` and `[::]:80` are accepted and the zero address is returned. -/
theorem C6_unspecified_counterexample :
    GetIPFromHeader "0.0.0.0:80".toList = .ok "0.0.0.0".toList ∧
      GetIPFromHeader "[::]:80".toList = .ok "::".toList := by
  decide

/-- C6 (amended): `GetIPFromHeader` never fails with the error `invalid ip`.
Every `AddrPort` that `ParseAddrPort` returns is valid, so for every header the
result is the parse error of the last element or the text of its address. -/
theorem C6_invalid_ip_unreachable (hdr : List Char) :
    GetIPFromHeader hdr ≠ .error (.errorString "invalid ip") ∧
      (∀ e, ParseAddrPort (lastElement hdr) = .error e → GetIPFromHeader hdr = .error e) ∧
      (∀ p, ParseAddrPort (lastElement hdr) = .ok p →
        p.IsValid = true ∧ GetIPFromHeader hdr = .ok p.Addr.String) := by
  refine ⟨?_, ?_, ?_⟩
  · rw [GetIPFromHeader_eq]
    cases hp : ParseAddrPort (lastElement hdr) with
    | error e =>
      intro hh
      simp only [Except.error.injEq] at hh
      exact ParseAddrPort_error_ne _ e hp hh
    | ok p => simp [ParseAddrPort_valid _ p hp]
  · intro e he
    exact GetIPFromHeader_of_error hdr e he
  · intro p hp
    have hv := ParseAddrPort_valid _ p hp
    refine ⟨hv, ?_⟩
    rw [GetIPFromHeader_eq, hp]
    simp [hv]


/-! ## C7, C8: splitting a dual-stack bundle -/

theorem splitAux_head (sep : Char) :
    ∀ s : List Char, ∃ l, splitAux sep s = s.takeWhile (· != sep) :: l := by
  intro s
  induction s with
  | nil => exact ⟨[], rfl⟩
  | cons c s ih =>
    obtain ⟨l, e⟩ := ih
    by_cases hc : c = sep
    · exact ⟨splitAux sep s, by simp [splitAux, hc]⟩
    · exact ⟨l, by simp [splitAux, hc, e]⟩

theorem split_at_first (sep : Char) (s : List Char) (h : sep ∈ s) :
    s = s.takeWhile (· != sep) ++ sep :: (s.dropWhile (· != sep)).drop 1 := by
  induction s with
  | nil => cases h
  | cons c s ih =>
    by_cases hc : c = sep
    · simp [hc]
    · have hs : sep ∈ s := by
        rcases List.mem_cons.mp h with e | e
        · exact absurd e.symm hc
        · exact e
      have := ih hs
      simp only [List.takeWhile_cons, List.dropWhile_cons, bne_iff_ne, ne_eq, hc,
        not_false_eq_true, decide_True, if_true, List.cons_append]
      congr 1

theorem not_mem_takeWhile (sep : Char) (s : List Char) : sep ∉ s.takeWhile (· != sep) := by
  intro h
  have := List.mem_takeWhile_imp h
  simp at this

theorem SplitIPAddr_two (a s1 : List Char) (ha : '/' ∉ a) :
    SplitIPAddr (a ++ '/' :: s1) = (a, beforeSlash s1, a) := by
  obtain ⟨l, e⟩ := splitAux_head '/' s1
  unfold SplitIPAddr
  rw [Split_eq_splitAux, splitAux_append_cons '/' s1 a ha, e]
  simp [beforeSlash]

theorem IndexByteString_of_mem (c : Char) : ∀ s : List Char, c ∈ s → 0 ≤ IndexByteString s c := by
  intro s
  induction s with
  | nil => intro h; cases h
  | cons x s ih =>
    intro h
    simp only [IndexByteString]
    split
    · omega
    · next hx =>
      have hs : c ∈ s := by
        rcases List.mem_cons.mp h with e | e
        · exact absurd e.symm hx
        · exact e
      have := ih hs
      split <;> omega

theorem Contains_iff (s : List Char) (c : Char) : Contains s c = true ↔ c ∈ s := by
  unfold Contains
  constructor
  · intro h
    by_contra hn
    have := IndexByteString_of_not_mem c s hn
    simp [this] at h
  · intro h
    have := IndexByteString_of_mem c s h
    simpa using this

/-- C7: for every bundle that contains a `/`, `SplitIPAddr` returns as `ipv4`
the text before the first `/`, as `ipv6` the text between the first `/` and the
second (or the end of the string), and `ipv4` again as the preferred address;
what follows a second `/` is ignored. -/
theorem C7_bundle_with_slash (s : List Char) (h : '/' ∈ s) :
    SplitIPAddr s = (beforeSlash s, beforeSlash (afterSlash s), beforeSlash s) ∧
      (∀ a b r : List Char, '/' ∉ a → '/' ∉ b →
        SplitIPAddr (a ++ ['/'] ++ b) = (a, b, a) ∧
        SplitIPAddr (a ++ ['/'] ++ b ++ ['/'] ++ r) = (a, b, a)) := by
  constructor
  · have e := split_at_first '/' s h
    have := SplitIPAddr_two (s.takeWhile (· != '/')) ((s.dropWhile (· != '/')).drop 1)
      (not_mem_takeWhile '/' s)
    rw [← e] at this
    exact this
  · intro a b r ha hb
    constructor
    · have := SplitIPAddr_two a b ha
      have e : beforeSlash b = b := by
        unfold beforeSlash
        rw [List.takeWhile_eq_self_iff]
        intro x hx
        simp only [bne_iff_ne, ne_eq]
        intro hh
        exact hb (hh ▸ hx)
      rw [e] at this
      simpa using this
    · have := SplitIPAddr_two a (b ++ '/' :: r) ha
      have e : beforeSlash (b ++ '/' :: r) = b := by
        unfold beforeSlash
        rw [List.takeWhile_append_of_pos]
        · simp
        · intro x hx
          simp only [bne_iff_ne, ne_eq, decide_eq_true_eq]
          intro hh
          exact hb (hh ▸ hx)
      rw [e] at this
      simpa using this

/-- C7 at `10.0.0.1/::1`, which gives (`10.0.0.1`, `::1`, `10.0.0.1`). -/
theorem C7_bundle_with_slash_witness :
    SplitIPAddr "10.0.0.1/::1".toList
      = ("10.0.0.1".toList, "::1".toList, "10.0.0.1".toList) :=
  (C7_bundle_with_slash "10.0.0.1/::1".toList (by decide)).1.trans (by decide)

/-- C8: for every bundle `s` without a `/`, `SplitIPAddr s` is `("", s, s)` when
`s` contains a `:` and `(s, "", s)` otherwise; the empty string gives three
empty strings and `::1` gives `("", "::1", "::1")`. -/
theorem C8_bundle_without_slash (s : List Char) (h : '/' ∉ s) :
    (':' ∈ s → SplitIPAddr s = ([], s, s)) ∧
      (':' ∉ s → SplitIPAddr s = (s, [], s)) ∧
      SplitIPAddr [] = ([], [], []) ∧
      SplitIPAddr "::1".toList = ([], "::1".toList, "::1".toList) := by
  have e : Split s '/' = [s] := by rw [Split_eq_splitAux, splitAux_of_not_mem '/' s h]
  refine ⟨?_, ?_, by decide, by decide⟩
  · intro hc
    have := (Contains_iff s ':').mpr hc
    simp [SplitIPAddr, e, this]
  · intro hc
    have : Contains s ':' = false := by
      cases hk : Contains s ':' with
      | false => rfl
      | true => exact absurd ((Contains_iff s ':').mp hk) hc
    simp [SplitIPAddr, e, this]

/-- C8 at `10.0.0.1`, an IPv4-only bundle. -/
theorem C8_bundle_without_slash_witness :
    SplitIPAddr "10.0.0.1".toList = ("10.0.0.1".toList, [], "10.0.0.1".toList) :=
  (C8_bundle_without_slash "10.0.0.1".toList (by decide)).2.1 (by decide)


/-! ## C9, C10: random tokens -/

theorem letters_length : letters.length = 62 := by decide

theorem letters_nodup : letters.Nodup := by decide

theorem take_succ_set (x : Char) :
    ∀ (ret : List Char) (i : Nat), i < ret.length →
      (ret.set i x).take (i + 1) = ret.take i ++ [x] := by
  intro ret
  induction ret with
  | nil => intro i h; simp at h
  | cons c ret ih =>
    intro i h
    cases i with
    | zero => simp
    | succ i =>
      have := ih i (by simpa using h)
      simp [this]

theorem GenerateRandomStringLoop_ok (src : RandSource) (d : Nat → Nat) :
    ∀ (k i : Nat) (ret : List Char), ret.length = i + k →
      (∀ j, i ≤ j → j < i + k → src j = .ok (d j) ∧ d j < 62) →
      GenerateRandomStringLoop src k i ret
        = { outcome := .ret (ret.take i ++ (List.range' i k).map
              (fun j => letters.getD (d j) ' '), none),
            draws := i + k } := by
  intro k
  induction k with
  | zero =>
    intro i ret hl _
    have ht : ret.take i = ret := List.take_of_length_le (by omega)
    simp [GenerateRandomStringLoop, ht]
  | succ k ih =>
    intro i ret hl hd
    obtain ⟨h1, h2⟩ := hd i (Nat.le_refl _) (by omega)
    have h3 : d i < letters.length := by rw [letters_length]; exact h2
    have := ih (i + 1) (ret.set i (letters.getD (d i) ' ')) (by simp; omega)
      (fun j hj1 hj2 => hd j (by omega) (by omega))
    simp only [GenerateRandomStringLoop, h1, h3, if_true, this,
      take_succ_set _ ret i (by omega), List.range'_succ, List.map_cons, List.append_assoc,
      List.singleton_append]
    congr 1
    omega

theorem getD_letters_inj (a b : Nat) (ha : a < 62) (hb : b < 62)
    (h : letters.getD a ' ' = letters.getD b ' ') : a = b := by
  have ha' : a < letters.length := by rw [letters_length]; exact ha
  have hb' : b < letters.length := by rw [letters_length]; exact hb
  rw [List.getD_eq_getElem _ _ ha', List.getD_eq_getElem _ _ hb'] at h
  exact (List.Nodup.getElem_inj_iff letters_nodup).mp h

theorem getD_letters_mem (a : Nat) (ha : a < 62) : letters.getD a ' ' ∈ letters := by
  have ha' : a < letters.length := by rw [letters_length]; exact ha
  rw [List.getD_eq_getElem _ _ ha']
  exact List.getElem_mem _

theorem makeBytes_ok (pf : GoPlatform) (n : Int) (h0 : 0 ≤ n) (h1 : n ≤ pf.maxAlloc) :
    makeBytes pf n = .ret (List.replicate n.toNat (Char.ofNat 0)) := by
  have : ¬ (n < 0 ∨ (pf.maxAlloc : Int) < n) := by omega
  simp only [makeBytes, this, if_false]

theorem makeBytes_panic (pf : GoPlatform) (n : Int) (h : n < 0 ∨ (pf.maxAlloc : Int) < n) :
    makeBytes pf n = .panic "makeslice: len out of range" := by
  simp only [makeBytes, h, if_true]

theorem GenerateRandomString_panic (pf : GoPlatform) (src : RandSource) (n : Int)
    (h : n < 0 ∨ (pf.maxAlloc : Int) < n) :
    GenerateRandomString pf src n
      = { outcome := .panic "makeslice: len out of range", draws := 0 } := by
  simp only [GenerateRandomString, makeBytes_panic pf n h]

theorem GenerateRandomString_loop (pf : GoPlatform) (src : RandSource) (n : Int)
    (h0 : 0 ≤ n) (h1 : n ≤ pf.maxAlloc) :
    GenerateRandomString pf src n
      = GenerateRandomStringLoop src n.toNat 0 (List.replicate n.toNat (Char.ofNat 0)) := by
  simp only [GenerateRandomString, makeBytes_ok pf n h0 h1]

/-- C9 as stated fails for a length above the allocation limit: on linux/amd64
with the length `math.MaxInt` and a source whose draws all succeed,
`make([]byte, n)` panics before any draw and no token is returned. -/
theorem C9_huge_length_counterexample :
    (0 : Int) < 2 ^ 63 - 1 ∧ linuxAmd64.isInt (2 ^ 63 - 1) ∧
      GenerateRandomString linuxAmd64 (fun _ => .ok 0) (2 ^ 63 - 1)
        = { outcome := .panic "makeslice: len out of range", draws := 0 } ∧
      ∀ s e, (GenerateRandomString linuxAmd64 (fun _ => .ok 0) (2 ^ 63 - 1)).outcome
        ≠ .ret (s, e) := by
  have h : GenerateRandomString linuxAmd64 (fun _ => .ok 0) (2 ^ 63 - 1)
      = { outcome := .panic "makeslice: len out of range", draws := 0 } :=
    GenerateRandomString_panic _ _ _ (Or.inr (by decide))
  refine ⟨by decide, ⟨by decide, by decide⟩, h, ?_⟩
  intro s e he
  rw [h] at he
  cases he

/-- C9 (amended): for every `int` length `n > 0` and every random source whose
first `n` draws succeed with values `d 0`, ..., `d (n-1)` below 62: when `n`
is at most the allocation limit `maxAlloc` of the platform,
`GenerateRandomString n` returns no error, after exactly `n` draws, and the
token `tokenOf d n`; when `n` is above the limit, `make([]byte, n)` panics
before any draw.  The token has `n` characters, its `i`-th character is the
`d i`-th character of `letters`, every character is in the alphabet, and two
draw sequences that give the same token are equal. -/
theorem C9_token_from_draws (pf : GoPlatform) (src : RandSource) (n : Int) (d : Nat → Nat)
    (hn : n > 0) (_hint : pf.isInt n)
    (hd : ∀ i, i < n.toNat → src i = .ok (d i) ∧ d i < 62) :
    (n ≤ pf.maxAlloc → GenerateRandomString pf src n
        = { outcome := .ret (tokenOf d n.toNat, none), draws := n.toNat }) ∧
      ((pf.maxAlloc : Int) < n → GenerateRandomString pf src n
        = { outcome := .panic "makeslice: len out of range", draws := 0 }) ∧
      (tokenOf d n.toNat).length = n.toNat ∧
      (∀ i, i < n.toNat → (tokenOf d n.toNat).getD i ' ' = letters.getD (d i) ' ') ∧
      (∀ c ∈ tokenOf d n.toNat, c ∈ letters) ∧
      (∀ d' : Nat → Nat, (∀ i, i < n.toNat → d' i < 62) →
        tokenOf d' n.toNat = tokenOf d n.toNat → ∀ i, i < n.toNat → d' i = d i) := by
  refine ⟨?_, ?_, ?_, ?_, ?_, ?_⟩
  · intro halloc
    have := GenerateRandomStringLoop_ok src d n.toNat 0
      (List.replicate n.toNat (Char.ofNat 0)) (by simp)
      (fun j _ hj => hd j (by omega))
    simp only [GenerateRandomString_loop pf src n (by omega) halloc, this, List.take_zero,
      List.nil_append, Nat.zero_add, tokenOf, List.range_eq_range']
  · intro hbig
    exact GenerateRandomString_panic pf src n (Or.inr hbig)
  · simp [tokenOf]
  · intro i hi
    simp [tokenOf, hi]
  · intro c hc
    simp only [tokenOf, List.mem_map, List.mem_range] at hc
    obtain ⟨i, hi, rfl⟩ := hc
    exact getD_letters_mem _ (hd i hi).2
  · intro d' hd' heq i hi
    have e1 : (tokenOf d' n.toNat).getD i ' ' = letters.getD (d' i) ' ' := by
      simp [tokenOf, hi]
    have e2 : (tokenOf d n.toNat).getD i ' ' = letters.getD (d i) ' ' := by
      simp [tokenOf, hi]
    rw [heq, e2] at e1
    exact getD_letters_inj _ _ (hd' i hi) (hd i hi).2 e1.symm

/-- C9 at length 3 with the draws 10, 0, 61, which give the token `A0z`. -/
theorem C9_token_from_draws_witness :
    GenerateRandomString linuxAmd64 (fun i => .ok ([10, 0, 61].getD i 0)) 3
        = { outcome := .ret ("A0z".toList, none), draws := 3 } :=
  (C9_token_from_draws linuxAmd64 (fun i => .ok ([10, 0, 61].getD i 0)) 3
    (fun i => [10, 0, 61].getD i 0) (by decide) ⟨by decide, by decide⟩ (by decide)).1 (by decide)

/-- C10 as stated fails for a negative length: `make([]byte, n)` panics, so
`GenerateRandomString(-1)` does not return the empty string. -/
theorem C10_negative_length_counterexample :
    (GenerateRandomString linuxAmd64 (fun _ => .ok 0) (-1)).outcome
        = .panic "makeslice: len out of range" ∧
      (GenerateRandomString linuxAmd64 (fun _ => .ok 0) (-1)).outcome ≠ .ret ([], none) := by
  decide

/-- C10 (amended): for the length 0, `GenerateRandomString` returns the empty
string with no error and without drawing from the random source; for every
negative length the allocation `make([]byte, n)` panics before any draw. -/
theorem C10_nonpositive_length (pf : GoPlatform) (src : RandSource) (n : Int) (hn : n ≤ 0) :
    (n = 0 → GenerateRandomString pf src n = { outcome := .ret ([], none), draws := 0 }) ∧
      (n < 0 → GenerateRandomString pf src n
        = { outcome := .panic "makeslice: len out of range", draws := 0 }) := by
  constructor
  · intro h
    subst h
    rw [GenerateRandomString_loop pf src 0 (Int.le_refl _) (Int.ofNat_nonneg _)]
    rfl
  · intro h
    exact GenerateRandomString_panic pf src n (Or.inl h)

/-- C10 at the length 0 with a source whose draws all fail: the empty string
comes back with no error, the source is not consulted. -/
theorem C10_nonpositive_length_witness :
    GenerateRandomString linuxAmd64 (fun _ => .error (.randError 1)) 0
      = { outcome := .ret ([], none), draws := 0 } :=
  (C10_nonpositive_length linuxAmd64 (fun _ => .error (.randError 1)) 0 (by decide)).1 rfl


/-- C6 at the header `0.0.0.0:80`: the result is not the error `invalid ip`. -/
theorem C6_invalid_ip_unreachable_witness :
    GetIPFromHeader "0.0.0.0:80".toList ≠ .error (.errorString "invalid ip") :=
  (C6_invalid_ip_unreachable "0.0.0.0:80".toList).1


/-! ## The iteration bounds are enough

Each loop that is driven by a bound on its iterations gives the same result
with a larger bound: the bound is never what ends the loop. -/

theorem parseIPv6Step_cont_i (input zone : List Char) (st st' : V6State)
    (h : parseIPv6Step input zone st = .ok (.cont st')) : st'.i = st.i + 2 := by
  unfold parseIPv6Step at h
  simp only at h
  repeat' split at h
  all_goals first
    | (cases h; done)
    | (cases h; rfl)

theorem parseIPv6Loop_bound (input zone : List Char) :
    ∀ (fuel : Nat) (st : V6State), 16 ≤ st.i + 2 * fuel →
      parseIPv6Loop input zone (fuel + 1) st = parseIPv6Loop input zone fuel st := by
  intro fuel
  induction fuel with
  | zero =>
    intro st h
    have : ¬ st.i < 16 := by omega
    simp [parseIPv6Loop, this]
  | succ fuel ih =>
    intro st h
    rw [parseIPv6Loop, parseIPv6Loop]
    split
    · cases hs : parseIPv6Step input zone st with
      | error e => rfl
      | ok r =>
        cases r with
        | brk st' => rfl
        | cont st' =>
          have := parseIPv6Step_cont_i input zone st st' hs
          exact ih st' (by omega)
    · rfl

theorem expandLoop_bound (n : Nat) (ellipsis : Int) :
    ∀ (fuel : Nat) (j : Int) (ip : List Byte), j - ellipsis + 1 ≤ fuel →
      expandLoop n ellipsis (fuel + 1) j ip = expandLoop n ellipsis fuel j ip := by
  intro fuel
  induction fuel with
  | zero =>
    intro j ip h
    have : ¬ j ≥ ellipsis := by omega
    simp [expandLoop, this]
  | succ fuel ih =>
    intro j ip h
    conv_lhs => rw [expandLoop]
    conv_rhs => rw [expandLoop]
    split
    · exact ih _ _ (by omega)
    · rfl

theorem zeroRunEnd_bound (ip : Addr) :
    ∀ (fuel j : Nat), 8 ≤ j + fuel → zeroRunEnd ip (fuel + 1) j = zeroRunEnd ip fuel j := by
  intro fuel
  induction fuel with
  | zero =>
    intro j h
    have : ¬ j < 8 := by omega
    simp [zeroRunEnd, this]
  | succ fuel ih =>
    intro j h
    conv_lhs => rw [zeroRunEnd]
    conv_rhs => rw [zeroRunEnd]
    split
    · exact ih _ (by omega)
    · rfl

theorem findZeroRun_bound (ip : Addr) :
    ∀ (fuel i zs ze : Nat), 8 ≤ i + fuel →
      findZeroRun ip (fuel + 1) i zs ze = findZeroRun ip fuel i zs ze := by
  intro fuel
  induction fuel with
  | zero =>
    intro i zs ze h
    have : ¬ i < 8 := by omega
    simp [findZeroRun, this]
  | succ fuel ih =>
    intro i zs ze h
    conv_lhs => rw [findZeroRun]
    conv_rhs => rw [findZeroRun]
    split
    · simp only
      split
      · exact ih _ _ _ (by omega)
      · exact ih _ _ _ (by omega)
    · rfl

theorem writeGroups_bound (ip : Addr) (zs ze : Nat) (hz : zs < ze ∨ 8 ≤ zs) :
    ∀ (fuel i : Nat) (ret : List Char), 8 ≤ i + fuel →
      writeGroups ip zs ze (fuel + 1) i ret = writeGroups ip zs ze fuel i ret := by
  intro fuel
  induction fuel with
  | zero =>
    intro i ret h
    have : ¬ i < 8 := by omega
    simp [writeGroups, this]
  | succ fuel ih =>
    intro i ret h
    conv_lhs => rw [writeGroups]
    conv_rhs => rw [writeGroups]
    split
    · split
      · simp only
        split
        · rfl
        · exact ih _ _ (by omega)
      · exact ih _ _ (by omega)
    · rfl

theorem zeroRunEnd_ge (ip : Addr) : ∀ (fuel j : Nat), j ≤ zeroRunEnd ip fuel j := by
  intro fuel
  induction fuel with
  | zero => intro j; simp [zeroRunEnd]
  | succ fuel ih =>
    intro j
    rw [zeroRunEnd]
    split
    · have := ih (j + 1)
      omega
    · exact Nat.le_refl _

theorem findZeroRun_shape (ip : Addr) :
    ∀ (fuel i zs ze : Nat), (zs < ze ∨ 8 ≤ zs) →
      (findZeroRun ip fuel i zs ze).1 < (findZeroRun ip fuel i zs ze).2 ∨
        8 ≤ (findZeroRun ip fuel i zs ze).1 := by
  intro fuel
  induction fuel with
  | zero => intro i zs ze h; simpa [findZeroRun] using h
  | succ fuel ih =>
    intro i zs ze h
    rw [findZeroRun]
    split
    · simp only
      split
      · next hl =>
        apply ih
        left
        omega
      · exact ih _ _ _ h
    · exact h


theorem starLoop_some_pos (p : Char → Bool) (k : List Char → Nat → List Nat → Option (List Nat))
    (cap r : List Nat) :
    ∀ (rest : List Char) (pos : Nat), starLoop p k rest pos cap = some r →
      ∃ rest' pos', pos ≤ pos' ∧ k rest' pos' cap = some r := by
  intro rest
  induction rest with
  | nil =>
    intro pos h
    exact ⟨[], pos, Nat.le_refl _, by simpa [starLoop] using h⟩
  | cons c rest ih =>
    intro pos h
    unfold starLoop at h
    split at h
    · split at h
      · next r' hr =>
        cases h
        obtain ⟨rest', pos', hs, hk⟩ := ih _ hr
        exact ⟨rest', pos', by omega, hk⟩
      · exact ⟨c :: rest, pos, Nat.le_refl _, h⟩
    · exact ⟨c :: rest, pos, Nat.le_refl _, h⟩

theorem matchInsts_end_ge :
    ∀ (is : List Inst) (rest : List Char) (pos : Nat) (cap r : List Nat), 2 ≤ cap.length →
      matchInsts is rest pos cap = some r → pos ≤ r.getD 1 0 := by
  intro is
  induction is with
  | nil =>
    intro rest pos cap r hl h
    simp only [matchInsts, Option.some.injEq] at h
    subst h
    have : 1 < cap.length := by omega
    simp [List.getD_eq_getElem?_getD, List.getElem?_set, this]
  | cons i is ih =>
    intro rest pos cap r hl h
    cases i with
    | lit y =>
      cases rest with
      | nil => simp [matchInsts] at h
      | cons c rest' =>
        simp only [matchInsts] at h
        split at h
        · have := ih _ _ _ _ hl h
          omega
        · cases h
    | star p =>
      simp only [matchInsts] at h
      obtain ⟨rest', pos', hp, hk⟩ := starLoop_some_pos p _ cap r rest pos h
      have := ih _ _ _ _ hl hk
      omega
    | save n =>
      simp only [matchInsts] at h
      exact ih _ _ _ _ (by simpa using hl) h

theorem searchFrom_end_ge (re : List Inst) :
    ∀ (rest : List Char) (pos : Nat) (r : List Nat),
      searchFrom re rest pos = some r → pos ≤ r.getD 1 0 := by
  intro rest
  induction rest with
  | nil =>
    intro pos r h
    simp only [searchFrom] at h
    exact matchInsts_end_ge re [] pos _ r (by simp) h
  | cons c rest ih =>
    intro pos r h
    simp only [searchFrom] at h
    split at h
    · next r' hr =>
      cases h
      exact matchInsts_end_ge re _ pos _ _ (by simp) hr
    · have := ih _ _ h
      omega

theorem replaceAllLoop_bound (re : List Inst) (src : List Char) :
    ∀ (fuel lastMatchEnd searchPos : Nat) (buf : List Char),
      src.length + 1 ≤ searchPos + fuel →
      replaceAllLoop re src (fuel + 1) lastMatchEnd searchPos buf
        = replaceAllLoop re src fuel lastMatchEnd searchPos buf := by
  intro fuel
  induction fuel with
  | zero =>
    intro lme sp buf h
    have : ¬ sp ≤ src.length := by omega
    simp [replaceAllLoop, this]
  | succ fuel ih =>
    intro lme sp buf h
    conv_lhs => rw [replaceAllLoop]
    conv_rhs => rw [replaceAllLoop]
    split
    · cases hx : doExecute re src sp with
      | none => rfl
      | some a =>
        have hge : sp ≤ a.getD 1 0 := searchFrom_end_ge re _ sp a hx
        simp only
        apply ih
        split <;> split <;> (try split) <;> omega
    · rfl


theorem parseIPv6Loop_more (input zone : List Char) (st : V6State) (hi : st.i = 0) :
    ∀ k, parseIPv6Loop input zone (8 + k) st = parseIPv6Loop input zone 8 st := by
  intro k
  induction k with
  | zero => rfl
  | succ k ih =>
    rw [← ih, ← Nat.add_assoc]
    exact parseIPv6Loop_bound input zone (8 + k) st (by omega)

theorem expandLoop_more (n : Nat) (ellipsis : Int) (i : Nat) (ip : List Byte)
    (hi : i < 16) (he : 0 ≤ ellipsis) :
    ∀ k, expandLoop n ellipsis (16 + k) ((i : Int) - 1) ip
      = expandLoop n ellipsis 16 ((i : Int) - 1) ip := by
  intro k
  induction k with
  | zero => rfl
  | succ k ih =>
    rw [← ih, ← Nat.add_assoc]
    exact expandLoop_bound n ellipsis (16 + k) _ ip (by omega)

theorem appendTo6_more (ip : Addr) (ret : List Char) :
    ∀ k, writeGroups ip (findZeroRun ip (8 + k) 0 255 255).1 (findZeroRun ip (8 + k) 0 255 255).2
        (8 + k) 0 ret
      = writeGroups ip (findZeroRun ip 8 0 255 255).1 (findZeroRun ip 8 0 255 255).2 8 0 ret := by
  intro k
  induction k with
  | zero => rfl
  | succ k ih =>
    rw [← ih, ← Nat.add_assoc, findZeroRun_bound ip (8 + k) 0 255 255 (by omega)]
    exact writeGroups_bound ip _ _ (findZeroRun_shape ip _ _ _ _ (Or.inr (by omega)))
      (8 + k) 0 ret (by omega)

theorem ReplaceAllString_more (re : List Inst) (src : List Char) :
    ∀ k, replaceAllLoop re src (src.length + 1 + k) 0 0 [] = ReplaceAllString re src := by
  intro k
  induction k with
  | zero => rfl
  | succ k ih =>
    rw [← ih, ← Nat.add_assoc]
    exact replaceAllLoop_bound re src _ 0 0 [] (by omega)

/-! ## C11: failure of the random source -/

theorem GenerateRandomStringLoop_fail (src : RandSource) (j : Nat) (e : GoError)
    (hj : src j = .error e) :
    ∀ (k i : Nat) (ret : List Char), i ≤ j → j < i + k →
      (∀ m, i ≤ m → m < j → ∃ v, src m = .ok v ∧ v < 62) →
      GenerateRandomStringLoop src k i ret = { outcome := .ret ([], some e), draws := j + 1 } := by
  intro k
  induction k with
  | zero => intro i ret h1 h2; omega
  | succ k ih =>
    intro i ret h1 h2 hok
    by_cases hij : i = j
    · subst hij
      simp [GenerateRandomStringLoop, hj]
    · obtain ⟨v, hv, hlt⟩ := hok i (Nat.le_refl _) (by omega)
      have h3 : v < letters.length := by rw [letters_length]; exact hlt
      simp only [GenerateRandomStringLoop, hv, h3, if_true]
      exact ih (i + 1) _ (by omega) (by omega) (fun m hm1 hm2 => hok m (by omega) hm2)

theorem GenerateRandomString_all_ok (pf : GoPlatform) (src : RandSource) (n : Int)
    (d : Nat → Nat) (hn : n > 0) (halloc : n ≤ pf.maxAlloc)
    (hd : ∀ i, i < n.toNat → src i = .ok (d i) ∧ d i < 62) :
    GenerateRandomString pf src n
      = { outcome := .ret (tokenOf d n.toNat, none), draws := n.toNat } := by
  have := GenerateRandomStringLoop_ok src d n.toNat 0
    (List.replicate n.toNat (Char.ofNat 0)) (by simp)
    (fun j _ hj => hd j (by omega))
  simp only [GenerateRandomString_loop pf src n (by omega) halloc, this, List.take_zero,
    List.nil_append, Nat.zero_add, tokenOf, List.range_eq_range']

/-- C11 as stated fails for a length above the allocation limit: on linux/amd64
with the length `math.MaxInt` and a source whose draws all fail, the first of
the `n` draws would fail, yet no error is returned: `make([]byte, n)` panics
before any draw. -/
theorem C11_huge_length_counterexample :
    (0 : Int) < 2 ^ 63 - 1 ∧ linuxAmd64.isInt (2 ^ 63 - 1) ∧
      (∃ i, i < ((2 : Int) ^ 63 - 1).toNat ∧
        ∃ e, (fun _ => .error (.randError 1) : RandSource) i = .error e) ∧
      GenerateRandomString linuxAmd64 (fun _ => .error (.randError 1)) (2 ^ 63 - 1)
        = { outcome := .panic "makeslice: len out of range", draws := 0 } ∧
      ¬ ∃ s e, (GenerateRandomString linuxAmd64 (fun _ => .error (.randError 1))
        (2 ^ 63 - 1)).outcome = .ret (s, some e) := by
  have h : GenerateRandomString linuxAmd64 (fun _ => .error (.randError 1)) (2 ^ 63 - 1)
      = { outcome := .panic "makeslice: len out of range", draws := 0 } :=
    GenerateRandomString_panic _ _ _ (Or.inr (by decide))
  refine ⟨by decide, ⟨by decide, by decide⟩, ⟨0, by decide, _, rfl⟩, h, ?_⟩
  rintro ⟨s, e, he⟩
  rw [h] at he
  cases he

/-- C11 (amended): for every `int` length `n > 0`, with a random source whose
successful draws are below 62 (the contract of `rand.Int`): when `n` is at
most the allocation limit `maxAlloc` of the platform, `GenerateRandomString n`
returns an error if and only if one of the first `n` draws fails; it then
returns the empty string, never a partial token, together with exactly the
error of the first failing draw, and it has made no draw after that one.  When
`n` is above the limit, `make([]byte, n)` panics before any draw, whatever the
source would give. -/
theorem C11_error_iff_draw_fails (pf : GoPlatform) (src : RandSource) (n : Int) (hn : n > 0)
    (_hint : pf.isInt n) (hc : ∀ i v, src i = .ok v → v < 62) :
    (n ≤ pf.maxAlloc →
      ((∃ s e, (GenerateRandomString pf src n).outcome = .ret (s, some e)) ↔
          ∃ i, i < n.toNat ∧ ∃ e, src i = .error e) ∧
        (∀ s e, (GenerateRandomString pf src n).outcome = .ret (s, some e) → s = []) ∧
        (∀ k e, k < n.toNat → src k = .error e → (∀ j, j < k → ∃ v, src j = .ok v) →
          GenerateRandomString pf src n = { outcome := .ret ([], some e), draws := k + 1 })) ∧
      ((pf.maxAlloc : Int) < n → GenerateRandomString pf src n
        = { outcome := .panic "makeslice: len out of range", draws := 0 }) := by
  refine ⟨?_, fun hbig => GenerateRandomString_panic pf src n (Or.inr hbig)⟩
  intro halloc
  have first : ∀ k e, k < n.toNat → src k = .error e → (∀ j, j < k → ∃ v, src j = .ok v) →
      GenerateRandomString pf src n = { outcome := .ret ([], some e), draws := k + 1 } := by
    intro k e hk he hbefore
    rw [GenerateRandomString_loop pf src n (by omega) halloc]
    apply GenerateRandomStringLoop_fail src k e he _ 0 _ (Nat.zero_le _) (by omega)
    intro m _ hm
    obtain ⟨v, hv⟩ := hbefore m hm
    exact ⟨v, hv, hc m v hv⟩
  have dich : (∃ i, i < n.toNat ∧ ∃ e, src i = .error e) →
      ∃ k e, GenerateRandomString pf src n
        = { outcome := .ret ([], some e), draws := k + 1 } := by
    intro hex
    classical
    have hex' : ∃ i, i < n.toNat ∧ ∃ e, src i = .error e := hex
    let k := Nat.find hex'
    obtain ⟨hk, e, he⟩ := Nat.find_spec hex'
    refine ⟨k, e, first k e hk he ?_⟩
    intro j hj
    have hmin := Nat.find_min hex' hj
    cases hs : src j with
    | ok v => exact ⟨v, rfl⟩
    | error e' => exact absurd ⟨by omega, e', hs⟩ hmin
  have allok : (¬ ∃ i, i < n.toNat ∧ ∃ e, src i = .error e) →
      ∃ d, GenerateRandomString pf src n
        = { outcome := .ret (tokenOf d n.toNat, none), draws := n.toNat } := by
    intro hno
    let d : Nat → Nat := fun i => match src i with | .ok v => v | .error _ => 0
    refine ⟨d, GenerateRandomString_all_ok pf src n d hn halloc ?_⟩
    intro i hi
    cases hs : src i with
    | ok v =>
      have : d i = v := by simp [d, hs]
      rw [this]
      exact ⟨rfl, hc i v hs⟩
    | error e => exact absurd ⟨i, hi, e, hs⟩ hno
  refine ⟨⟨?_, ?_⟩, ?_, first⟩
  · rintro ⟨s, e, hse⟩
    by_contra hno
    obtain ⟨d, hd⟩ := allok hno
    rw [hd] at hse
    simp at hse
  · intro hex
    obtain ⟨k, e, hke⟩ := dich hex
    exact ⟨[], e, by rw [hke]⟩
  · intro s e hse
    by_cases hex : ∃ i, i < n.toNat ∧ ∃ e, src i = .error e
    · obtain ⟨k, e', hke⟩ := dich hex
      rw [hke] at hse
      simp only [Outcome.ret.injEq, Prod.mk.injEq] at hse
      exact hse.1.symm
    · obtain ⟨d, hd⟩ := allok hex
      rw [hd] at hse
      simp at hse

/-- C11 at length 3 with a source whose second draw fails: the empty string
and that error come back after two draws. -/
theorem C11_error_iff_draw_fails_witness :
    GenerateRandomString linuxAmd64 (fun i => if i = 1 then .error (.randError 7) else .ok 5) 3
      = { outcome := .ret ([], some (.randError 7)), draws := 2 } :=
  ((C11_error_iff_draw_fails linuxAmd64
    (fun i => if i = 1 then .error (.randError 7) else .ok 5) 3
    (by decide) ⟨by decide, by decide⟩
    (by intro i v h; simp only at h; split at h <;> cases h; decide)).1 (by decide)).2.2
    1 (.randError 7) (by decide) (by simp) (by intro j hj; exact ⟨5, by simp; omega⟩)

/-! ## C12: unsigned minus signed -/

/-- C12: for every `uint64` `a` and `int64` `b`, `Uint64SubInt64 a b` is
`(a + |b|) mod 2^64` when `b < 0` (also for `b = -2^63`), `0` when `b ≥ 0` and
`b > a`, and `a - b` otherwise; so whenever the mathematical `a - b` lies in
`[0, 2^64)` the result is exactly `a - b`. -/
theorem C12_saturating_sub (a : Nat) (b : Int) (ha : a < 2 ^ 64)
    (hb1 : -2 ^ 63 ≤ b) (hb2 : b < 2 ^ 63) :
    (b < 0 → Uint64SubInt64 a b = (a + b.natAbs) % 2 ^ 64) ∧
      (0 ≤ b → (a : Int) < b → Uint64SubInt64 a b = 0) ∧
      (0 ≤ b → b ≤ (a : Int) → (Uint64SubInt64 a b : Int) = (a : Int) - b) ∧
      (0 ≤ (a : Int) - b → (a : Int) - b < 2 ^ 64 →
        (Uint64SubInt64 a b : Int) = (a : Int) - b) := by
  have hneg : b < 0 → Uint64SubInt64 a b = (a + b.natAbs) % 2 ^ 64 := by
    intro h
    have e : toUint64 (wrapInt64 (-b)) = b.natAbs := by
      unfold toUint64 wrapInt64
      omega
    simp [Uint64SubInt64, h, e]
  have hpos1 : 0 ≤ b → (a : Int) < b → Uint64SubInt64 a b = 0 := by
    intro h1 h2
    have e : toUint64 b = b.toNat := by
      unfold toUint64
      omega
    have h3 : a < b.toNat := by omega
    have h4 : ¬ b < 0 := by omega
    simp [Uint64SubInt64, h4, e, h3]
  have hpos2 : 0 ≤ b → b ≤ (a : Int) → (Uint64SubInt64 a b : Int) = (a : Int) - b := by
    intro h1 h2
    have e : toUint64 b = b.toNat := by
      unfold toUint64
      omega
    have h3 : ¬ a < b.toNat := by omega
    have h4 : ¬ b < 0 := by omega
    simp only [Uint64SubInt64, h4, e, h3, if_false]
    omega
  refine ⟨hneg, hpos1, hpos2, ?_⟩
  intro h1 h2
  by_cases hb : b < 0
  · rw [hneg hb]
    omega
  · exact hpos2 (by omega) (by omega)

/-- C12 at the three examples: (5, 10) gives 0, (5, -10) gives 15 and (10, 3)
gives 7. -/
theorem C12_saturating_sub_witness :
    Uint64SubInt64 5 10 = 0 ∧ Uint64SubInt64 5 (-10) = 15 ∧ (Uint64SubInt64 10 3 : Int) = 7 :=
  ⟨(C12_saturating_sub 5 10 (by decide) (by decide) (by decide)).2.1 (by decide) (by decide),
    (C12_saturating_sub 5 (-10) (by decide) (by decide) (by decide)).1 (by decide),
    (C12_saturating_sub 10 3 (by decide) (by decide) (by decide)).2.2.1 (by decide) (by decide)⟩

/-! ## C15: lazy selection -/

/-- C15: `IfOrFn c f g` runs exactly the selected thunk, once: called in a
state `s` it gives the result and the final state of `f s` when `c` is true and
of `g s` when `c` is false, so the other thunk has no effect at all; with
thunks that count their calls the counter of the other thunk stays at zero.
For thunks that just return `x` and `y` it agrees with `IfOr c x y`. -/
theorem C15_exactly_one_branch {σ T : Type} (c : Bool) (f g : Thunk σ T) (s : σ) (x y : T) :
    (c = true → IfOrFn c f g s = f s) ∧
      (c = false → IfOrFn c f g s = g s) ∧
      IfOrFn c (fun (n : Nat × Nat) => (x, (n.1 + 1, n.2))) (fun n => (y, (n.1, n.2 + 1))) (0, 0)
        = (if c then (x, (1, 0)) else (y, (0, 1))) ∧
      (IfOrFn c (fun t => (x, t)) (fun t => (y, t)) s).1 = IfOr c x y ∧
      (IfOrFn c (fun t => (x, t)) (fun t => (y, t)) s).2 = s ∧
      IfOr c x y = (if c then x else y) := by
  cases c <;> simp [IfOrFn, IfOr]

/-! ## C13, C14, C19: three-way comparison -/

theorem isNaN_iff {T K : Type} [LinearOrder K] (o : GoOrdered T K) (x : T) :
    isNaN o x = true ↔ o.key x = none := by
  unfold isNaN GoOrdered.ne
  cases h : o.key x <;> simp

theorem Compare_of_keys {T K : Type} [LinearOrder K] (o : GoOrdered T K) (x y : T) (a b : K)
    (hx : o.key x = some a) (hy : o.key y = some b) :
    Compare o x y = if a < b then -1 else if a > b then 1 else 0 := by
  simp [Compare, isNaN, GoOrdered.ne, GoOrdered.lt, GoOrdered.gt, hx, hy]

theorem Compare_nan_left {T K : Type} [LinearOrder K] (o : GoOrdered T K) (x y : T)
    (hx : o.key x = none) : Compare o x y = if o.key y = none then 0 else -1 := by
  cases hy : o.key y <;> simp [Compare, isNaN, GoOrdered.ne, hx, hy]

theorem Compare_nan_right {T K : Type} [LinearOrder K] (o : GoOrdered T K) (x y : T) (a : K)
    (hx : o.key x = some a) (hy : o.key y = none) : Compare o x y = 1 := by
  simp [Compare, isNaN, GoOrdered.ne, hx, hy]

/-- C13: in an ordered type with NaN values, `Compare` returns 0 when both
arguments are NaN, -1 when only the first is and +1 when only the second is;
two values that are not NaN and denote the same number compare as 0, so for
floats `Compare (-0.0) 0.0 = 0`. -/
theorem C13_nan_and_zero {T K : Type} [LinearOrder K] (o : GoOrdered T K) (x y : T) :
    (isNaN o x = true → isNaN o y = true → Compare o x y = 0) ∧
      (isNaN o x = true → isNaN o y = false → Compare o x y = -1) ∧
      (isNaN o x = false → isNaN o y = true → Compare o x y = 1) ∧
      (isNaN o x = false → o.key x = o.key y → Compare o x y = 0) ∧
      Compare GoOrdered.float .negZero (.num 0) = 0 ∧
      isNaN GoOrdered.float .nan = true ∧
      (∀ v : GoFloat, isNaN GoOrdered.float v = true → v = .nan) := by
  refine ⟨?_, ?_, ?_, ?_, ?_, ?_, ?_⟩
  · intro hx hy
    simp [Compare, hx, hy]
  · intro hx hy
    simp [Compare, hx, hy]
  · intro hx hy
    simp [Compare, hx, hy]
  · intro hx hk
    cases h : o.key x with
    | none => rw [(isNaN_iff o x).mpr h] at hx; cases hx
    | some a =>
      rw [Compare_of_keys o x y a a h (hk ▸ h)]
      simp
  · rw [Compare_of_keys GoOrdered.float .negZero (.num 0) _ _ rfl rfl]
    simp
  · rfl
  · intro v hv
    have := (isNaN_iff GoOrdered.float v).mp hv
    cases v <;> simp [GoOrdered.float, GoFloat.key] at this
    rfl

/-- C13 on floats: `Compare(NaN, NaN) = 0`, `Compare(NaN, 1.0) = -1`,
`Compare(1.0, NaN) = +1` and `Compare(-0.0, 0.0) = 0`. -/
theorem C13_nan_and_zero_witness :
    Compare GoOrdered.float .nan .nan = 0 ∧
      Compare GoOrdered.float .nan (.num 1) = -1 ∧
      Compare GoOrdered.float (.num 1) .nan = 1 ∧
      Compare GoOrdered.float .negZero (.num 0) = 0 :=
  ⟨(C13_nan_and_zero GoOrdered.float .nan .nan).1 rfl rfl,
    (C13_nan_and_zero GoOrdered.float .nan (.num 1)).2.1 rfl rfl,
    (C13_nan_and_zero GoOrdered.float (.num 1) .nan).2.2.1 rfl rfl,
    (C13_nan_and_zero GoOrdered.float .negZero (.num 0)).2.2.2.2.1⟩

/-- C14: for a totally ordered type without NaN (integers, strings) `isNaN` is
false on every value and `Compare` is the ordinary three-way comparison: it is
-1 exactly when `x < y`, 0 exactly when `x = y`, +1 exactly when `x > y`, and
never anything else. -/
theorem C14_total_order {T : Type} [LinearOrder T] (x y : T) :
    isNaN (GoOrdered.total T) x = false ∧ isNaN (GoOrdered.total T) y = false ∧
      (Compare (GoOrdered.total T) x y = -1 ↔ x < y) ∧
      (Compare (GoOrdered.total T) x y = 0 ↔ x = y) ∧
      (Compare (GoOrdered.total T) x y = 1 ↔ x > y) ∧
      (Compare (GoOrdered.total T) x y = -1 ∨ Compare (GoOrdered.total T) x y = 0 ∨
        Compare (GoOrdered.total T) x y = 1) := by
  have hc := Compare_of_keys (GoOrdered.total T) x y x y rfl rfl
  have hn : ∀ v : T, isNaN (GoOrdered.total T) v = false := by
    intro v
    simp [isNaN, GoOrdered.ne, GoOrdered.total]
  refine ⟨hn x, hn y, ?_⟩
  rw [hc]
  rcases lt_trichotomy x y with h | h | h
  · have h1 : ¬ y < x := not_lt.mpr h.le
    have h2 : x ≠ y := ne_of_lt h
    simp [h, h1, h2]
  · subst h
    simp
  · have h1 : ¬ x < y := not_lt.mpr h.le
    have h2 : x ≠ y := (ne_of_lt h).symm
    simp [h, h1, h2]

/-- C19: `Compare` is a consistent comparator on every ordered type, NaN
included: `Compare x y = -Compare y x`, `Compare x x = 0`, and `Compare x y ≤ 0`
with `Compare y z ≤ 0` gives `Compare x z ≤ 0`. -/
theorem C19_comparator_laws {T K : Type} [LinearOrder K] (o : GoOrdered T K) (x y z : T) :
    Compare o x y = -Compare o y x ∧ Compare o x x = 0 ∧
      (Compare o x y ≤ 0 → Compare o y z ≤ 0 → Compare o x z ≤ 0) := by
  have nn : ∀ u v : T, o.key u = none → o.key v = none → Compare o u v = 0 := by
    intro u v hu hv
    rw [Compare_nan_left o u v hu]
    simp [hv]
  have ns : ∀ (u v : T) (b : K), o.key u = none → o.key v = some b → Compare o u v = -1 := by
    intro u v b hu hv
    rw [Compare_nan_left o u v hu]
    simp [hv]
  have sn : ∀ (u v : T) (a : K), o.key u = some a → o.key v = none → Compare o u v = 1 :=
    fun u v a hu hv => Compare_nan_right o u v a hu hv
  have ss := Compare_of_keys o
  cases hx : o.key x with
  | none =>
    cases hy : o.key y with
    | none =>
      cases hz : o.key z with
      | none => simp [nn x y hx hy, nn y x hy hx, nn x x hx hx, nn x z hx hz]
      | some c => simp [nn x y hx hy, nn y x hy hx, nn x x hx hx, ns x z c hx hz]
    | some b =>
      cases hz : o.key z with
      | none => simp [ns x y b hx hy, sn y x b hy hx, nn x x hx hx, nn x z hx hz]
      | some c => simp [ns x y b hx hy, sn y x b hy hx, nn x x hx hx, ns x z c hx hz]
  | some a =>
    cases hy : o.key y with
    | none =>
      cases hz : o.key z with
      | none => simp [sn x y a hx hy, ns y x a hy hx, ss x x a a hx hx]
      | some c => simp [sn x y a hx hy, ns y x a hy hx, ss x x a a hx hx]
    | some b =>
      have anti : Compare o x y = -Compare o y x := by
        rw [ss x y a b hx hy, ss y x b a hy hx]
        rcases lt_trichotomy a b with h | h | h
        · simp [h, not_lt.mpr h.le]
        · simp [h]
        · simp [h, not_lt.mpr h.le]
      cases hz : o.key z with
      | none =>
        refine ⟨anti, by simp [ss x x a a hx hx], ?_⟩
        intro _ h2
        rw [sn y z b hy hz] at h2
        omega
      | some c =>
        refine ⟨anti, by simp [ss x x a a hx hx], ?_⟩
        rw [ss x y a b hx hy, ss y z b c hy hz, ss x z a c hx hz]
        intro h1 h2
        have hab : a ≤ b := by
          by_contra hn
          have : b < a := not_le.mp hn
          simp [this, not_lt.mpr this.le] at h1
        have hbc : b ≤ c := by
          by_contra hn
          have : c < b := not_le.mp hn
          simp [this, not_lt.mpr this.le] at h2
        have hac : a ≤ c := le_trans hab hbc
        rcases lt_or_eq_of_le hac with h | h
        · simp [h]
        · simp [h]

/-! ## C16: formatting an integer -/

theorem dchar_toNat : ∀ d, d < 10 → (Char.ofNat (48 + d)).toNat - 48 = d := by decide

theorem dchar_ne : ∀ d, d < 10 → Char.ofNat (48 + d) ≠ '-' ∧ (d ≠ 0 → Char.ofNat (48 + d) ≠ '0') := by
  decide

theorem small_lt_ten : ∀ k, k < 10 → small k = [Char.ofNat (48 + k)] := by decide

set_option maxRecDepth 4000 in
theorem small_two : ∀ k, k < 100 → 10 ≤ k →
    small k = [Char.ofNat (48 + k / 10), Char.ofNat (48 + k % 10)] := by
  decide

set_option maxRecDepth 4000 in
theorem smallsString_getD : ∀ k, k < 100 →
    smallsString.getD (k * 2 + 0) '0' = Char.ofNat (48 + k / 10) ∧
      smallsString.getD (k * 2 + 1) '0' = Char.ofNat (48 + k % 10) ∧
      smallsString.getD (k * 2) '0' = Char.ofNat (48 + k / 10) := by
  decide


theorem decimalString_small (n : Nat) (h0 : 0 < n) (h : n < 10) :
    decimalString n = [Char.ofNat (48 + n)] := by
  have hn : n ≠ 0 := by omega
  simp [decimalString, hn, Nat.digits_of_lt 10 n hn h]

theorem decimalString_step (n : Nat) (h : 10 ≤ n) :
    decimalString n = decimalString (n / 10) ++ [Char.ofNat (48 + n % 10)] := by
  have hn : n ≠ 0 := by omega
  have hd : n / 10 ≠ 0 := by omega
  have := Nat.digits_def' (by decide : 1 < 10) (by omega : 0 < n)
  simp [decimalString, hn, hd, this]

theorem decimalString_two (n : Nat) (h : 10 ≤ n) (h2 : n < 100) :
    decimalString n = [Char.ofNat (48 + n / 10), Char.ofNat (48 + n % 10)] := by
  rw [decimalString_step n h, decimalString_small (n / 10) (by omega) (by omega)]
  rfl

theorem decimalString_step2 (n : Nat) (h : 100 ≤ n) :
    decimalString n = decimalString (n / 100) ++
      [Char.ofNat (48 + n % 100 / 10), Char.ofNat (48 + n % 100 % 10)] := by
  rw [decimalString_step n (by omega), decimalString_step (n / 10) (by omega)]
  have e1 : n / 10 / 10 = n / 100 := by omega
  have e2 : n / 10 % 10 = n % 100 / 10 := by omega
  have e3 : n % 10 = n % 100 % 10 := by omega
  rw [e1, e2, e3]
  simp

theorem formatBitsLoop_spec :
    ∀ (fuel us : Nat) (a : List Char), 0 < us → us < 100 ^ (fuel + 1) →
      0 < (formatBitsLoop fuel us a).1 ∧ (formatBitsLoop fuel us a).1 < 100 ∧
        decimalString (formatBitsLoop fuel us a).1 ++ (formatBitsLoop fuel us a).2
          = decimalString us ++ a := by
  intro fuel
  induction fuel with
  | zero =>
    intro us a h0 h
    simp only [formatBitsLoop]
    exact ⟨h0, by simpa using h, trivial⟩
  | succ fuel ih =>
    intro us a h0 h
    rw [formatBitsLoop]
    split
    · next h100 =>
      have hlt : us % 100 < 100 := Nat.mod_lt _ (by decide)
      obtain ⟨t1, t2, -⟩ := smallsString_getD (us % 100) hlt
      have hb : us / 100 < 100 ^ (fuel + 1) := by
        rw [Nat.div_lt_iff_lt_mul (by decide)]
        calc us < 100 ^ (fuel + 1 + 1) := h
          _ = 100 ^ (fuel + 1) * 100 := by ring
      obtain ⟨r1, r2, r3⟩ := ih (us / 100) _ (Nat.div_pos h100 (by decide)) hb
      refine ⟨r1, r2, ?_⟩
      simp only at r3 ⊢
      rw [r3, decimalString_step2 us h100, t1, t2]
      simp
    · next h100 => exact ⟨h0, by omega, rfl⟩

theorem formatBits_pos (u : Nat) (h0 : 0 < u) (h : u < 2 ^ 64) :
    formatBits u false = decimalString u := by
  have hb : u < 100 ^ (10 + 1) := by
    calc u < 2 ^ 64 := h
      _ ≤ 100 ^ (10 + 1) := by decide
  obtain ⟨r1, r2, r3⟩ := formatBitsLoop_spec 10 u [] h0 hb
  unfold formatBits
  simp only [Bool.false_eq_true, if_false]
  generalize formatBitsLoop 10 u [] = p at r1 r2 r3
  obtain ⟨us, a⟩ := p
  simp only at r1 r2 r3 ⊢
  obtain ⟨-, t2, t3⟩ := smallsString_getD us r2
  rw [List.append_nil] at r3
  rw [← r3]
  by_cases h10 : us ≥ 10
  · simp only [h10, if_true, t2, t3, decimalString_two us h10 r2]
    rfl
  · have : us < 10 := by omega
    have e : us % 10 = us := Nat.mod_eq_of_lt this
    simp only [h10, if_false, t2, decimalString_small us r1 this, e]
    rfl

theorem FormatUint_eq (u : Nat) (h : u < 2 ^ 64) : FormatUint u = decimalString u := by
  unfold FormatUint
  split
  · next hs =>
    by_cases h10 : u < 10
    · rw [small_lt_ten u h10]
      by_cases h0 : u = 0
      · subst h0; rfl
      · rw [decimalString_small u (by omega) h10]
    · rw [small_two u hs (by omega), decimalString_two u (by omega) hs]
  · exact formatBits_pos u (by omega) h

theorem formatBits_neg (u : Nat) (h0 : 0 < u) (h : u < 2 ^ 64) :
    formatBits u true = '-' :: decimalString ((2 ^ 64 - u) % 2 ^ 64) := by
  have hv : 0 < (2 ^ 64 - u) % 2 ^ 64 := by omega
  have hl : (2 ^ 64 - u) % 2 ^ 64 < 2 ^ 64 := Nat.mod_lt _ (by decide)
  have := formatBits_pos ((2 ^ 64 - u) % 2 ^ 64) hv hl
  unfold formatBits at this ⊢
  simp only [Bool.false_eq_true, if_false, if_true] at this ⊢
  rw [this]

theorem FormatInt_eq (i : Int) (h1 : -2 ^ 63 ≤ i) (h2 : i < 2 ^ 63) :
    FormatInt i = renderInt i := by
  unfold FormatInt renderInt
  split
  · next hs =>
    have hneg : ¬ i < 0 := by omega
    have e : i.toNat = i.natAbs := by omega
    rw [if_neg hneg, e, ← FormatUint_eq i.natAbs (by omega)]
    simp [FormatUint, show i.natAbs < 100 by omega]
  · next hs =>
    by_cases hneg : i < 0
    · have e : toUint64 i = 2 ^ 64 - i.natAbs := by
        unfold toUint64
        omega
      have e2 : (2 ^ 64 - (2 ^ 64 - i.natAbs)) % 2 ^ 64 = i.natAbs := by omega
      simp only [hneg, decide_True, if_true]
      rw [e, formatBits_neg _ (by omega) (by omega), e2]
    · have e : toUint64 i = i.natAbs := by
        unfold toUint64
        omega
      simp only [hneg, decide_False, if_false]
      rw [e]
      exact formatBits_pos _ (by omega) (by omega)


theorem decimalValue_append (xs : List Char) (c : Char) :
    decimalValue (xs ++ [c]) = decimalValue xs * 10 + (c.toNat - 48) := by
  simp [decimalValue, List.foldl_append]

theorem decimalValue_decimalString (n : Nat) : decimalValue (decimalString n) = n := by
  induction n using Nat.strong_induction_on with
  | _ n ih =>
    by_cases h10 : 10 ≤ n
    · rw [decimalString_step n h10, decimalValue_append, ih (n / 10) (by omega),
        dchar_toNat (n % 10) (Nat.mod_lt _ (by decide))]
      omega
    · by_cases h0 : n = 0
      · subst h0
        rfl
      · rw [decimalString_small n (by omega) (by omega)]
        have := dchar_toNat n (by omega)
        simpa [decimalValue] using this

theorem decimalString_head (n : Nat) (hn : n ≠ 0) :
    ∃ d r, d < 10 ∧ d ≠ 0 ∧ decimalString n = Char.ofNat (48 + d) :: r := by
  induction n using Nat.strong_induction_on with
  | _ n ih =>
    by_cases h10 : 10 ≤ n
    · obtain ⟨d, r, h1, h2, h3⟩ := ih (n / 10) (by omega) (by omega)
      exact ⟨d, r ++ [Char.ofNat (48 + n % 10)], h1, h2, by
        rw [decimalString_step n h10, h3]; rfl⟩
    · exact ⟨n, [], by omega, hn, decimalString_small n (by omega) (by omega)⟩

theorem decimalString_head_ne_minus (n : Nat) : ∀ r, decimalString n ≠ '-' :: r := by
  intro r h
  by_cases hn : n = 0
  · subst hn
    simp [decimalString] at h
  · obtain ⟨d, r', h1, -, h3⟩ := decimalString_head n hn
    rw [h3] at h
    simp only [List.cons.injEq] at h
    exact (dchar_ne d h1).1 h.1

theorem parseInt_renderInt (i : Int) : parseInt (renderInt i) = i := by
  unfold renderInt
  split
  · simp only [parseInt, decimalValue_decimalString]
    omega
  · next hneg =>
    have hv := decimalValue_decimalString i.natAbs
    have hne := decimalString_head_ne_minus i.natAbs
    generalize decimalString i.natAbs = s at hv hne
    unfold parseInt
    split
    · next r => exact absurd rfl (hne r)
    · rw [hv]
      omega

theorem Itoa_recognized (t : GoIntType) (i : Int) (hr : t.recognized = true)
    (hi : t.kind.inRange i) : Itoa t i = renderInt i := by
  obtain ⟨k, named⟩ := t
  cases named with
  | true => simp [GoIntType.recognized] at hr
  | false =>
    cases k
    case uintptr => simp [GoIntType.recognized] at hr
    all_goals
      simp only [GoIntKind.inRange] at hi
      obtain ⟨h1, h2⟩ := hi
      simp only [Itoa, Bool.false_eq_true, if_false]
    all_goals first
      | (have e : wrapInt64 i = i := by
          unfold wrapInt64
          omega
         rw [e]
         exact FormatInt_eq i (by omega) (by omega))
      | (have e : toUint64 i = i.natAbs := by
          unfold toUint64
          omega
         have hneg : ¬ i < 0 := by omega
         rw [e, FormatUint_eq _ (by omega)]
         simp [renderInt, hneg])

/-- C16 as stated fails: `uintptr` and every defined integer type such as
`type ID int` satisfy the constraint of `Itoa`, but the type switch does not
list them, so `Itoa` returns the empty string and not the rendering of 5. -/
theorem C16_unlisted_type_counterexample :
    GoIntKind.uintptr.inRange 5 ∧ Itoa { kind := .uintptr, named := false } 5 = [] ∧
      Itoa { kind := .int, named := true } 5 = [] ∧ renderInt 5 = ['5'] := by
  refine ⟨by simp [GoIntKind.inRange], by decide, by decide, ?_⟩
  simp [renderInt, decimalString]

/-- C16 (amended): for every value `i` of one of the ten types that the type
switch lists (`int`, `int8`, ..., `int64`, `uint`, `uint8`, ..., `uint64`), `Itoa`
returns the base-10 rendering of `i`: a `-` before a negative value, no leading
zero, never the empty string, and parsing it back gives `i`.  For every other
admitted type (`uintptr`, a defined integer type) it returns the empty string. -/
theorem C16_itoa_listed_types (t : GoIntType) (i : Int) (hi : t.kind.inRange i) :
    (t.recognized = true →
        Itoa t i = renderInt i ∧ parseInt (Itoa t i) = i ∧ Itoa t i ≠ [] ∧
        (i < 0 → Itoa t i = '-' :: decimalString i.natAbs) ∧
        (0 ≤ i → Itoa t i = decimalString i.natAbs) ∧
        (i ≠ 0 → (decimalString i.natAbs).head? ≠ some '0')) ∧
      (t.recognized = false → Itoa t i = []) := by
  constructor
  · intro hr
    have e := Itoa_recognized t i hr hi
    refine ⟨e, by rw [e]; exact parseInt_renderInt i, ?_, ?_, ?_, ?_⟩
    · rw [e]
      intro h
      have := parseInt_renderInt i
      unfold renderInt at h
      split at h
      · cases h
      · by_cases h0 : i.natAbs = 0
        · simp [decimalString, h0] at h
        · obtain ⟨d, r, -, -, h3⟩ := decimalString_head _ h0
          rw [h3] at h
          cases h
    · intro hneg
      rw [e]
      simp [renderInt, hneg]
    · intro hpos
      have : ¬ i < 0 := by omega
      rw [e]
      simp [renderInt, this]
    · intro h0
      obtain ⟨d, r, h1, h2, h3⟩ := decimalString_head i.natAbs (by omega)
      rw [h3]
      simp only [List.head?_cons, ne_eq, Option.some.injEq]
      exact (dchar_ne d h1).2 h2
  · intro hr
    obtain ⟨k, named⟩ := t
    cases named with
    | true => simp [Itoa]
    | false =>
      cases k <;> simp [GoIntType.recognized] at hr
      simp [Itoa]

/-- C16 at the `int` value -42 and the `uint8` value 255. -/
theorem C16_itoa_listed_types_witness :
    Itoa { kind := .int, named := false } (-42) = "-42".toList ∧
      Itoa { kind := .uint8, named := false } 255 = "255".toList ∧
      parseInt (Itoa { kind := .int, named := false } (-42)) = -42 :=
  ⟨by decide, by decide,
    ((C16_itoa_listed_types { kind := .int, named := false } (-42)
      (by simp [GoIntKind.inRange])).1 rfl).2.1⟩

/-! ## C17: a buffer shorter than 16 bytes -/

/-- C17 as stated fails: the four bytes 1, 2, 3, 4 are copied to the start of
the 16-byte array, so the zero bytes come after them; the result is
`102:304::`, while the buffer padded on the left gives `::102:304`. -/
theorem C17_left_padding_counterexample :
    BinaryToIPString [1, 2, 3, 4] = "102:304::".toList ∧
      BinaryToIPString (List.replicate 12 0 ++ [1, 2, 3, 4]) = "::102:304".toList ∧
      BinaryToIPString [1, 2, 3, 4] ≠ BinaryToIPString (List.replicate 12 0 ++ [1, 2, 3, 4]) := by
  decide

/-- C17 (amended): for every byte buffer `b` shorter than 16 bytes,
`BinaryToIPString b` is `BinaryToIPString` of the 16-byte buffer obtained by
padding `b` with zero bytes on the right (the bytes of `b` followed by
`16 - len(b)` zero bytes); and for a buffer of any length the function returns
an address text, made of digits, lowercase hexadecimal digits, colons and dots,
never the text `invalid IP`. -/
theorem C17_right_padding (b : List Byte) (h : b.length < 16) :
    BinaryToIPString b = BinaryToIPString (b ++ List.replicate (16 - b.length) 0) ∧
      (∀ b' : List Byte, BinaryToIPString b' ⊆ canonicalChars ∧
        BinaryToIPString b' ≠ "invalid IP".toList) := by
  constructor
  · have e : copy16 (b ++ List.replicate (16 - b.length) 0) = copy16 b := by
      have hl : (b ++ List.replicate (16 - b.length) 0).length = 16 := by
        simp
        omega
      unfold copy16
      rw [hl, List.take_of_length_le (Nat.le_of_eq hl), List.take_of_length_le (by omega)]
      simp
    unfold BinaryToIPString
    rw [e]
  · intro b'
    refine ⟨BinaryToIPString_chars b', ?_⟩
    intro hbad
    have hsub := BinaryToIPString_chars b'
    rw [hbad] at hsub
    have : 'i' ∈ canonicalChars := hsub (by decide)
    revert this
    decide

/-- C17 at the buffer 1, 2, 3, 4. -/
theorem C17_right_padding_witness :
    BinaryToIPString [1, 2, 3, 4] = BinaryToIPString ([1, 2, 3, 4] ++ List.replicate 12 0) :=
  (C17_right_padding [1, 2, 3, 4] (by decide)).1

/-! ## C18: strings that no pattern matches -/

/-- C18: if neither pattern matches, `IPDesensitize` returns its input
unchanged; in particular for every string with at most one `.` and at most
three `:`, which neither pattern can match. -/
theorem C18_unchanged_without_match (s : List Char) :
    (doExecute ipv4Re s 0 = none → doExecute ipv6Re s 0 = none → IPDesensitize s = s) ∧
      (s.count '.' ≤ 1 → s.count ':' ≤ 3 →
        doExecute ipv4Re s 0 = none ∧ doExecute ipv6Re s 0 = none ∧ IPDesensitize s = s) := by
  have key : doExecute ipv4Re s 0 = none → doExecute ipv6Re s 0 = none →
      IPDesensitize s = s := by
    intro h4 h6
    have e4 : ipv4Desensitize s = s := ReplaceAllString_of_no_match ipv4Re s h4
    have e6 : ipv6Desensitize s = s := ReplaceAllString_of_no_match ipv6Re s h6
    simp only [IPDesensitize, e4, e6]
  refine ⟨key, ?_⟩
  intro h1 h2
  have h4 : doExecute ipv4Re s 0 = none :=
    doExecute_none_of_count '.' ipv4Re s 0 (by
      have : litCount '.' ipv4Re = 2 := by decide
      omega)
  have h6 : doExecute ipv6Re s 0 = none :=
    doExecute_none_of_count ':' ipv6Re s 0 (by
      have : litCount ':' ipv6Re = 4 := by decide
      omega)
  exact ⟨h4, h6, key h4 h6⟩

/-- C18 at `not an ip`, the empty string and `::1`. -/
theorem C18_unchanged_without_match_witness :
    IPDesensitize "not an ip".toList = "not an ip".toList ∧
      IPDesensitize [] = [] ∧ IPDesensitize "::1".toList = "::1".toList :=
  ⟨((C18_unchanged_without_match "not an ip".toList).2 (by decide) (by decide)).2.2,
    ((C18_unchanged_without_match []).2 (by decide) (by decide)).2.2,
    ((C18_unchanged_without_match "::1".toList).2 (by decide) (by decide)).2.2⟩

/-! ## C14, C15, C19 at concrete values -/

/-- C14 at the integers 3 and 7. -/
theorem C14_total_order_witness :
    Compare (GoOrdered.total Int) 3 7 = -1 ∧ Compare (GoOrdered.total Int) 7 3 = 1 ∧
      Compare (GoOrdered.total Int) 7 7 = 0 :=
  ⟨(C14_total_order (3 : Int) 7).2.2.1.mpr (by decide),
    (C14_total_order (7 : Int) 3).2.2.2.2.1.mpr (by decide),
    (C14_total_order (7 : Int) 7).2.2.2.1.mpr rfl⟩

/-- C15 with two thunks that count their calls, started with both counters at
zero: with a true condition only the first counter moves. -/
theorem C15_exactly_one_branch_witness :
    IfOrFn true (fun (n : Nat × Nat) => ("x", (n.1 + 1, n.2)))
        (fun n => ("y", (n.1, n.2 + 1))) (0, 0) = ("x", (1, 0)) :=
  (C15_exactly_one_branch true (fun (n : Nat × Nat) => ("x", (n.1 + 1, n.2)))
    (fun n => ("y", (n.1, n.2 + 1))) (0, 0) "x" "y").2.2.1

/-- C19 on floats with a NaN: exchanging the arguments changes the sign. -/
theorem C19_comparator_laws_witness :
    Compare GoOrdered.float .nan (.num 1) = -Compare GoOrdered.float (.num 1) .nan ∧
      Compare GoOrdered.float .nan .nan = 0 :=
  ⟨(C19_comparator_laws GoOrdered.float .nan (.num 1) .nan).1,
    (C19_comparator_laws GoOrdered.float .nan .nan .nan).2.1⟩

/-! ## C20: the patterns as functions on the input -/

theorem starLoop_det (p : Char → Bool) (k : List Char → Nat → List Nat → Option (List Nat))
    (cap : List Nat) (hk : ∀ c r pos, p c = true → k (c :: r) pos cap = none) :
    ∀ (z : List Char) (pos : Nat),
      starLoop p k z pos cap = k (z.dropWhile p) (pos + (z.takeWhile p).length) cap := by
  intro z
  induction z with
  | nil => intro pos; simp [starLoop]
  | cons c r ih =>
    intro pos
    by_cases hc : p c = true
    · have e : pos + 1 + (List.takeWhile p r).length
          = pos + ((List.takeWhile p r).length + 1) := by omega
      simp only [starLoop, hc, if_true, ih (pos + 1), hk c r pos hc, List.dropWhile_cons_of_pos hc,
        List.takeWhile_cons_of_pos hc, List.length_cons, e]
      cases k (List.dropWhile p r) (pos + ((List.takeWhile p r).length + 1)) cap <;> rfl
    · simp [starLoop, hc]

theorem starLoop_total (p : Char → Bool) (k : List Char → Nat → List Nat → Option (List Nat))
    (cap : List Nat) (hk : ∀ y pos, (k y pos cap).isSome = true) :
    ∀ (z : List Char) (pos : Nat),
      starLoop p k z pos cap = k (z.dropWhile p) (pos + (z.takeWhile p).length) cap := by
  intro z
  induction z with
  | nil => intro pos; simp [starLoop]
  | cons c r ih =>
    intro pos
    by_cases hc : p c = true
    · have e : pos + 1 + (List.takeWhile p r).length
          = pos + ((List.takeWhile p r).length + 1) := by omega
      have hs := hk (List.dropWhile p r) (pos + ((List.takeWhile p r).length + 1))
      simp only [starLoop, hc, if_true, ih (pos + 1), List.dropWhile_cons_of_pos hc,
        List.takeWhile_cons_of_pos hc, List.length_cons, e]
      cases hv : k (List.dropWhile p r) (pos + ((List.takeWhile p r).length + 1)) cap with
      | none => rw [hv] at hs; cases hs
      | some v => rfl
    · simp [starLoop, hc]

theorem lastTest_test (p : Char → Bool) (test : List Char → Bool) :
    ∀ (w : List Char) (j : Nat), lastTest p test w = some j → test (w.drop j) = true := by
  intro w
  induction w with
  | nil =>
    intro j h
    simp only [lastTest] at h
    split at h
    · cases h; simpa using ‹test [] = true›
    · cases h
  | cons c r ih =>
    intro j h
    simp only [lastTest] at h
    split at h
    · split at h
      · next j0 hj0 => cases h; simpa using ih j0 hj0
      · split at h
        · cases h; simpa using ‹test (c :: r) = true›
        · cases h
    · split at h
      · cases h; simpa using ‹test (c :: r) = true›
      · cases h

theorem starLoop_lastTest (p : Char → Bool) (test : List Char → Bool)
    (k : List Char → Nat → List Nat → Option (List Nat)) (cap : List Nat)
    (hk : ∀ y pos, (k y pos cap).isSome = test y) :
    ∀ (w : List Char) (pos : Nat),
      starLoop p k w pos cap
        = (lastTest p test w).bind (fun j => k (w.drop j) (pos + j) cap) := by
  have hnone : ∀ y pos, test y = false → k y pos cap = none := by
    intro y pos ht
    have := hk y pos
    rw [ht] at this
    cases hv : k y pos cap with
    | none => rfl
    | some v => rw [hv] at this; cases this
  intro w
  induction w with
  | nil =>
    intro pos
    by_cases ht : test [] = true
    · simp [starLoop, lastTest, ht]
    · have ht' : test [] = false := by simpa using ht
      simp [starLoop, lastTest, ht', hnone [] pos ht']
  | cons c r ih =>
    intro pos
    by_cases hc : p c = true
    · simp only [starLoop, lastTest, hc, if_true, ih (pos + 1)]
      cases hl : lastTest p test r with
      | some j =>
        have e : pos + 1 + j = pos + (j + 1) := by omega
        have hsome : (k (List.drop j r) (pos + (j + 1)) cap).isSome = true := by
          rw [hk]
          exact lastTest_test p test r j hl
        simp only [Option.some_bind, e, List.drop_succ_cons]
        cases hv : k (List.drop j r) (pos + (j + 1)) cap with
        | none => rw [hv] at hsome; cases hsome
        | some v => rfl
      | none =>
        simp only [Option.none_bind]
        by_cases ht : test (c :: r) = true
        · simp [ht]
        · have ht' : test (c :: r) = false := by simpa using ht
          simp [ht', hnone (c :: r) pos ht']
    · simp only [starLoop, lastTest, hc, Bool.false_eq_true, if_false]
      by_cases ht : test (c :: r) = true
      · simp [ht]
      · have ht' : test (c :: r) = false := by simpa using ht
        simp [ht', hnone (c :: r) pos ht']

/-! ## C20: one attempt of each pattern in closed form -/

theorem matchInsts_lit_cons (x c : Char) (is : List Inst) (rest : List Char) (pos : Nat)
    (cap : List Nat) :
    matchInsts (.lit x :: is) (c :: rest) pos cap
      = if c = x then matchInsts is rest (pos + 1) cap else none := rfl

theorem matchInsts_lit_nil (x : Char) (is : List Inst) (pos : Nat) (cap : List Nat) :
    matchInsts (.lit x :: is) [] pos cap = none := rfl

theorem dropWhile_cases (p : Char → Bool) (z : List Char) :
    z.dropWhile p = [] ∨ ∃ c r, z.dropWhile p = c :: r ∧ p c = false := by
  induction z with
  | nil => left; rfl
  | cons c r ih =>
    by_cases hc : p c = true
    · simpa [List.dropWhile_cons_of_pos hc] using ih
    · right
      exact ⟨c, r, by simp [List.dropWhile_cons, hc], by simpa using hc⟩

theorem drop_length_takeWhile (p : Char → Bool) (z : List Char) :
    z.drop (z.takeWhile p).length = z.dropWhile p := by
  induction z with
  | nil => rfl
  | cons c r ih =>
    by_cases hc : p c = true
    · simp [List.takeWhile_cons_of_pos hc, List.dropWhile_cons_of_pos hc, ih]
    · simp [List.takeWhile_cons, List.dropWhile_cons, hc]

theorem ipv4Re_tail (y : List Char) (pos a0 a1 a2 a3 a4 a5 : Nat) :
    matchInsts [.save 4, .lit '.', .star isDigitClass, .save 5] y pos [a0, a1, a2, a3, a4, a5]
      = if mask4.test y = true then
          some [a0, pos + mask4.lenG2 y, a2, a3, pos, pos + mask4.lenG2 y]
        else none := by
  rw [matchInsts_save]
  cases y with
  | nil => simp [matchInsts, mask4]
  | cons c y' =>
    by_cases hc : c = '.'
    · subst hc
      rw [matchInsts_lit]
      simp only [if_true, matchInsts_star]
      rw [starLoop_total]
      · simp [matchInsts, mask4, List.set, Nat.add_assoc]
      · intro y pos
        simp [matchInsts]
    · have ht : mask4.test (c :: y') = false := by
        simp only [mask4]
        split
        · next h => cases h; exact absurd rfl hc
        · rfl
      rw [matchInsts_lit_cons]
      simp [hc, ht]

theorem ipv4Re_closed (z : List Char) (pos : Nat) :
    matchInsts ipv4Re z pos [pos, 0, 0, 0, 0, 0] = (mask4.attempt z).map (capsOf pos) := by
  simp only [ipv4Re, matchInsts_save, matchInsts_star, List.set_cons_succ, List.set_cons_zero]
  rw [starLoop_det]
  · rcases dropWhile_cases isDigitClass z with h | ⟨c, r, h, hc⟩
    · simp [MaskPattern.attempt, mask4, h, matchInsts_lit_nil]
    · by_cases hd : c = '.'
      · subst hd
        rw [h, matchInsts_lit, matchInsts_save, matchInsts_star]
        simp only [List.set_cons_succ, List.set_cons_zero]
        rw [starLoop_lastTest isAnyClass mask4.test]
        · have hp : mask4.parseG1 z = some ((z.takeWhile isDigitClass).length + 1) := by
            simp only [mask4, h]
          have hdrop : ∀ j, z.drop ((z.takeWhile isDigitClass).length + 1 + j) = r.drop j := by
            intro j
            have e : (z.takeWhile isDigitClass).length + 1 + j
                = (z.takeWhile isDigitClass).length + (j + 1) := by omega
            rw [e, ← List.drop_drop, drop_length_takeWhile, h]
            rfl
          have hdrop0 := hdrop 0
          simp only [Nat.add_zero, List.drop_zero] at hdrop0
          simp only [MaskPattern.attempt, hp, hdrop0]
          cases hl : lastTest isAnyClass mask4.test r with
          | none => rfl
          | some j =>
            have ht := lastTest_test _ _ _ _ hl
            simp only [Option.some_bind, ipv4Re_tail, ht, if_true, Option.map_some', capsOf,
              hdrop]
            simp only [Nat.add_assoc]
        · intro y pos'
          rw [ipv4Re_tail]
          split <;> simp_all
      · have : mask4.parseG1 z = none := by
          simp only [mask4, h]
          split
          · next h' => cases h'; exact absurd rfl hd
          · rfl
        rw [h, matchInsts_lit_cons]
        simp [hd, MaskPattern.attempt, this]
  · intro c r pos' hc
    rw [matchInsts_lit_cons]
    have : c ≠ '.' := by rintro rfl; revert hc; decide
    simp [this]
theorem ipv6Re_tail (y : List Char) (pos a0 a1 a2 a3 a4 a5 : Nat) :
    matchInsts [.save 4, .lit ':', .star isWordClass, .lit ':', .star isWordClass, .save 5] y pos
        [a0, a1, a2, a3, a4, a5]
      = if mask6.test y = true then
          some [a0, pos + mask6.lenG2 y, a2, a3, pos, pos + mask6.lenG2 y]
        else none := by
  rw [matchInsts_save]
  cases y with
  | nil => simp [matchInsts, mask6]
  | cons c y' =>
    by_cases hc : c = ':'
    · subst hc
      rw [matchInsts_lit, matchInsts_star, starLoop_det]
      · rcases dropWhile_cases isWordClass y' with h | ⟨c, r, h, hc⟩
        · simp [mask6, h, matchInsts_lit_nil]
        · by_cases hd : c = ':'
          · subst hd
            rw [h, matchInsts_lit, matchInsts_star, starLoop_total]
            · simp [matchInsts, mask6, h, List.set, Nat.add_assoc]
            · intro y pos
              simp [matchInsts]
          · have : mask6.test (':' :: y') = false := by
              simp only [mask6, h]
              split
              · next h' => cases h'; exact absurd rfl hd
              · rfl
            rw [h, matchInsts_lit_cons]
            simp [hd, this]
      · intro c r pos' hc
        rw [matchInsts_lit_cons]
        have : c ≠ ':' := by rintro rfl; revert hc; decide
        simp [this]
    · have ht : mask6.test (c :: y') = false := by
        simp only [mask6]
        split
        · next h => cases h; exact absurd rfl hc
        · rfl
      rw [matchInsts_lit_cons]
      simp [hc, ht]

theorem ipv6Re_closed (z : List Char) (pos : Nat) :
    matchInsts ipv6Re z pos [pos, 0, 0, 0, 0, 0] = (mask6.attempt z).map (capsOf pos) := by
  simp only [ipv6Re, matchInsts_save, matchInsts_star, List.set_cons_succ, List.set_cons_zero]
  have hlit : ∀ (is : List Inst) (cap : List Nat) (c : Char) (r : List Char) (pos' : Nat),
      isWordClass c = true → matchInsts (.lit ':' :: is) (c :: r) pos' cap = none := by
    intro is cap c r pos' hc
    rw [matchInsts_lit_cons]
    have : c ≠ ':' := by rintro rfl; revert hc; decide
    simp [this]
  rw [starLoop_det _ _ _ (hlit _ _)]
  rcases dropWhile_cases isWordClass z with h | ⟨c, z2, h, hc⟩
  · simp [MaskPattern.attempt, mask6, h, matchInsts_lit_nil]
  · by_cases hd : c = ':'
    · subst hd
      rw [h, matchInsts_lit, matchInsts_star, starLoop_det _ _ _ (hlit _ _)]
      rcases dropWhile_cases isWordClass z2 with h2 | ⟨c, r, h2, hc2⟩
      · simp [MaskPattern.attempt, mask6, h, h2, matchInsts_lit_nil]
      · by_cases hd2 : c = ':'
        · subst hd2
          rw [h2, matchInsts_lit, matchInsts_save, matchInsts_star]
          simp only [List.set_cons_succ, List.set_cons_zero]
          rw [starLoop_lastTest isAnyClass mask6.test]
          · have hp : mask6.parseG1 z = some ((z.takeWhile isWordClass).length + 1
                + (z2.takeWhile isWordClass).length + 1) := by
              simp only [mask6, h, h2]
            have hdrop : ∀ j, z.drop ((z.takeWhile isWordClass).length + 1
                + (z2.takeWhile isWordClass).length + 1 + j) = r.drop j := by
              intro j
              have e : (z.takeWhile isWordClass).length + 1
                  + (z2.takeWhile isWordClass).length + 1 + j
                  = (z.takeWhile isWordClass).length
                    + (1 + ((z2.takeWhile isWordClass).length + (j + 1))) := by omega
              rw [e, ← List.drop_drop, drop_length_takeWhile, h, Nat.add_comm 1,
                List.drop_succ_cons, ← List.drop_drop, drop_length_takeWhile, h2]
              rfl
            have hdrop0 := hdrop 0
            simp only [Nat.add_zero, List.drop_zero] at hdrop0
            simp only [MaskPattern.attempt, hp, hdrop0]
            cases hl : lastTest isAnyClass mask6.test r with
            | none => rfl
            | some j =>
              have ht := lastTest_test _ _ _ _ hl
              simp only [Option.some_bind, ipv6Re_tail, ht, if_true, Option.map_some', capsOf,
                hdrop]
              simp only [Nat.add_assoc]
          · intro y pos'
            rw [ipv6Re_tail]
            split <;> simp_all
        · have : mask6.parseG1 z = none := by
            simp only [mask6, h, h2]
            split
            · next h' => cases h'; exact absurd rfl hd2
            · rfl
          rw [h2, matchInsts_lit_cons]
          simp [hd2, MaskPattern.attempt, this]
    · have : mask6.parseG1 z = none := by
        simp only [mask6, h]
        split
        · next h' => cases h'; exact absurd rfl hd
        · rfl
      rw [h, matchInsts_lit_cons]
      simp [hd, MaskPattern.attempt, this]

/-! ## C20: attempts, the leftmost match and the loop -/

theorem starLoop_newline (p : Char → Bool) (k : List Char → Nat → List Nat → Option (List Nat))
    (hp : p '\n' = false) (cap : List Nat)
    (hk : ∀ a b pos, k (a ++ '\n' :: b) pos cap = k a pos cap) :
    ∀ (a b : List Char) (pos : Nat),
      starLoop p k (a ++ '\n' :: b) pos cap = starLoop p k a pos cap := by
  intro a
  induction a with
  | nil =>
    intro b pos
    have := hk [] b pos
    simp only [List.nil_append] at this
    simp [starLoop, hp, this]
  | cons c a ih =>
    intro b pos
    have := hk (c :: a) b pos
    simp only [List.cons_append] at this
    simp only [List.cons_append, starLoop, List.append_eq, ih, this]

theorem matchInsts_newline :
    ∀ (re : List Inst), (∀ i ∈ re, i.skipsNewline) → ∀ (a b : List Char) (pos : Nat)
      (cap : List Nat), matchInsts re (a ++ '\n' :: b) pos cap = matchInsts re a pos cap := by
  intro re
  induction re with
  | nil => intro _ a b pos cap; rfl
  | cons i is ih =>
    intro h a b pos cap
    have his : ∀ i ∈ is, i.skipsNewline := fun i hi => h i (List.mem_cons_of_mem _ hi)
    have hi : i.skipsNewline := h i (List.mem_cons_self _ _)
    cases i with
    | lit x =>
      have hx : ¬ '\n' = x := fun e => hi e.symm
      cases a with
      | nil => simp [matchInsts_lit_cons, matchInsts_lit_nil, hx]
      | cons c a => simp only [List.cons_append, matchInsts_lit_cons, ih his]
    | star p =>
      simp only [matchInsts_star]
      exact starLoop_newline p _ hi cap (fun a b pos => ih his a b pos cap) a b pos
    | save n =>
      simp only [matchInsts_save]
      exact ih his a b pos _

theorem capsOf_injective (pos : Nat) : Function.Injective (capsOf pos) := by
  rintro ⟨i, j, e⟩ ⟨i', j', e'⟩ h
  simp only [capsOf, List.cons.injEq, Nat.add_left_cancel_iff, and_true, true_and] at h
  obtain ⟨h1, h2, h3, h4⟩ := h
  subst h2 h3 h4
  rfl

theorem MaskPattern.Models.attempt_newline {P : MaskPattern} {re : List Inst} (h : P.Models re)
    (a b : List Char) : P.attempt (a ++ '\n' :: b) = P.attempt a := by
  have h1 := h.closed (a ++ '\n' :: b) 0
  rw [matchInsts_newline re h.noNewline, h.closed a 0] at h1
  exact (Option.map_injective (capsOf_injective 0) h1).symm

theorem lastTest_le (p : Char → Bool) (test : List Char → Bool) :
    ∀ (w : List Char) (j : Nat), lastTest p test w = some j → j ≤ w.length := by
  intro w
  induction w with
  | nil =>
    intro j h
    simp only [lastTest] at h
    split at h <;> cases h
    exact Nat.le_refl _
  | cons c r ih =>
    intro j h
    simp only [lastTest] at h
    split at h
    · split at h
      · next j0 hj0 =>
        cases h
        have := ih j0 hj0
        simp only [List.length_cons]
        omega
      · split at h <;> cases h
        exact Nat.zero_le _
    · split at h <;> cases h
      exact Nat.zero_le _

theorem MaskPattern.attempt_some_iff (P : MaskPattern) (z : List Char) (m : Nat × Nat × Nat) :
    P.attempt z = some m ↔ ∃ i j0, P.parseG1 z = some i ∧
      lastTest isAnyClass P.test (z.drop i) = some j0 ∧
      m = (i, i + j0, i + j0 + P.lenG2 (z.drop (i + j0))) := by
  unfold MaskPattern.attempt
  constructor
  · intro h
    split at h
    · cases h
    · next i hi =>
      split at h
      · cases h
      · next j hj =>
        cases h
        exact ⟨i, j, hi, hj, rfl⟩
  · rintro ⟨i, j0, hi, hj, rfl⟩
    simp only [hi, hj]

theorem MaskPattern.Models.attempt_bounds {P : MaskPattern} {re : List Inst} (h : P.Models re)
    (z : List Char) (i j e : Nat) (ha : P.attempt z = some (i, j, e)) :
    1 ≤ i ∧ i ≤ j ∧ j < e ∧ e ≤ z.length := by
  obtain ⟨i', j0, hi, hj, hm⟩ := (P.attempt_some_iff z _).mp ha
  simp only [Prod.mk.injEq] at hm
  obtain ⟨rfl, rfl, rfl⟩ := hm
  have h1 := h.parseLen z i hi
  have h2 := lastTest_le _ _ _ _ hj
  have h3 := h.testLen _ (lastTest_test _ _ _ _ hj)
  simp only [List.length_drop, List.drop_drop] at h2 h3
  omega

theorem MaskPattern.Models.attempt_nil {P : MaskPattern} {re : List Inst} (h : P.Models re) :
    P.attempt [] = none := by
  cases ha : P.attempt [] with
  | none => rfl
  | some m =>
    obtain ⟨i, j, e⟩ := m
    have := h.attempt_bounds [] i j e ha
    simp only [List.length_nil] at this
    omega

theorem MaskPattern.find_some (P : MaskPattern) :
    ∀ (s : List Char) (p : Nat) (m : Nat × Nat × Nat), P.find s = some (p, m) →
      p ≤ s.length ∧ P.attempt (s.drop p) = some m ∧ ∀ q, q < p → P.attempt (s.drop q) = none := by
  intro s
  induction s with
  | nil =>
    intro p m h
    simp only [MaskPattern.find, Option.map_eq_some', Prod.mk.injEq] at h
    obtain ⟨a, ha, rfl, rfl⟩ := h
    exact ⟨Nat.le_refl _, ha, fun q hq => absurd hq (Nat.not_lt_zero _)⟩
  | cons c r ih =>
    intro p m h
    simp only [MaskPattern.find] at h
    split at h
    · next m' hm' =>
      simp only [Option.some.injEq, Prod.mk.injEq] at h
      obtain ⟨rfl, rfl⟩ := h
      exact ⟨Nat.zero_le _, hm', fun q hq => absurd hq (Nat.not_lt_zero _)⟩
    · next hnone =>
      simp only [Option.map_eq_some'] at h
      obtain ⟨⟨p', m'⟩, hf, he⟩ := h
      simp only [Prod.mk.injEq] at he
      obtain ⟨rfl, rfl⟩ := he
      obtain ⟨h1, h2, h3⟩ := ih p' m' hf
      refine ⟨by simp only [List.length_cons]; omega, by simpa using h2, ?_⟩
      intro q hq
      cases q with
      | zero => simpa using hnone
      | succ q => simpa using h3 q (by omega)

theorem MaskPattern.find_of (P : MaskPattern) :
    ∀ (s : List Char) (p : Nat) (m : Nat × Nat × Nat), p ≤ s.length →
      P.attempt (s.drop p) = some m → (∀ q, q < p → P.attempt (s.drop q) = none) →
      P.find s = some (p, m) := by
  intro s
  induction s with
  | nil =>
    intro p m hp ha _
    have : p = 0 := by simpa using hp
    subst this
    simp only [List.drop_nil] at ha
    simp [MaskPattern.find, ha]
  | cons c r ih =>
    intro p m hp ha hq
    cases p with
    | zero =>
      simp only [List.drop_zero] at ha
      simp [MaskPattern.find, ha]
    | succ p =>
      have h0 := hq 0 (by omega)
      simp only [List.drop_zero] at h0
      simp only [List.drop_succ_cons] at ha
      have := ih p m (by simpa using hp) ha (fun q hq' => by simpa using hq (q + 1) (by omega))
      simp [MaskPattern.find, h0, this]

theorem MaskPattern.find_none (P : MaskPattern) :
    ∀ (s : List Char), P.find s = none → ∀ q, q ≤ s.length → P.attempt (s.drop q) = none := by
  intro s
  induction s with
  | nil =>
    intro h q _
    simp only [MaskPattern.find, Option.map_eq_none'] at h
    simpa using h
  | cons c r ih =>
    intro h q hq
    simp only [MaskPattern.find] at h
    split at h
    · cases h
    · next hnone =>
      simp only [Option.map_eq_none'] at h
      cases q with
      | zero => simpa using hnone
      | succ q => simpa using ih h q (by simpa using hq)

theorem MaskPattern.Models.find_bounds {P : MaskPattern} {re : List Inst} (h : P.Models re)
    (s : List Char) (p i j e : Nat) (hf : P.find s = some (p, i, j, e)) :
    1 ≤ i ∧ i ≤ j ∧ j < e ∧ p + e ≤ s.length := by
  obtain ⟨h1, h2, _⟩ := P.find_some s p _ hf
  have := h.attempt_bounds _ i j e h2
  simp only [List.length_drop] at this
  omega

theorem MaskPattern.Models.searchFrom_find {P : MaskPattern} {re : List Inst} (h : P.Models re) :
    ∀ (z : List Char) (pos : Nat),
      searchFrom re z pos = (P.find z).map (fun x => capsOf (pos + x.1) x.2) := by
  intro z
  induction z with
  | nil =>
    intro pos
    simp [searchFrom, MaskPattern.find, h.closed, Option.map_map, Function.comp_def]
  | cons c r ih =>
    intro pos
    simp only [searchFrom, MaskPattern.find, h.closed]
    cases ha : P.attempt (c :: r) with
    | some m => simp
    | none =>
      simp only [Option.map_none', ih, Option.map_map, Function.comp_def]
      congr 1
      funext x
      congr 1
      omega

/-! ## C20: the loop as a function of the unread input -/

theorem slice_drop (src : List Char) (k a b : Nat) :
    slice src (k + a) (k + b) = ((src.drop k).drop a).take (b - a) := by
  simp only [slice, List.drop_take, List.drop_drop]
  congr 1
  omega

theorem MaskPattern.Models.replaceAllLoop_replace {P : MaskPattern} {re : List Inst}
    (h : P.Models re) (src : List Char) :
    ∀ (fuel k : Nat) (buf : List Char), k ≤ src.length →
      replaceAllLoop re src fuel k k buf = buf ++ P.replace fuel (src.drop k) := by
  intro fuel
  induction fuel with
  | zero => intro k buf _; rfl
  | succ fuel ih =>
    intro k buf hk
    rw [replaceAllLoop, MaskPattern.replace]
    simp only [hk, if_true, doExecute, h.searchFrom_find]
    cases hf : P.find (src.drop k) with
    | none => rfl
    | some x =>
      obtain ⟨p, i, j, e⟩ := x
      have hb := h.find_bounds _ p i j e hf
      simp only [List.length_drop] at hb
      have h1 : k + p + e > k := by omega
      have h2 : ¬ (k + (if k < src.length then 1 else 0) > k + p + e) := by split <;> omega
      have h3 : ¬ (k + 1 > k + p + e) := by omega
      simp only [Option.map_some', capsOf, List.getD_cons_zero, List.getD_cons_succ, h1, true_or,
        if_true, h2, h3, if_false, expandTemplate]
      rw [ih (k + p + e) _ (by omega)]
      have e1 : slice src k (k + p) = ((src.drop k).drop 0).take (p - 0) := slice_drop src k 0 p
      have e2 : slice src (k + p) (k + p + i) = ((src.drop k).drop p).take (p + i - p) := by
        rw [Nat.add_assoc]; exact slice_drop src k p (p + i)
      have e3 : slice src (k + p + j) (k + p + e)
          = ((src.drop k).drop (p + j)).take (p + e - (p + j)) := by
        rw [Nat.add_assoc, Nat.add_assoc]; exact slice_drop src k (p + j) (p + e)
      have e4 : (src.drop k).take (p + i)
          = (src.drop k).take p ++ ((src.drop k).drop p).take i := by
        rw [List.take_add]
      have e5 : src.drop (k + p + e) = (src.drop k).drop (p + e) := by
        rw [List.drop_drop, Nat.add_assoc]
      rw [e1, e2, e3, e4, e5]
      simp only [List.drop_zero, Nat.sub_zero, Nat.add_sub_cancel_left, List.append_assoc,
        Nat.add_sub_add_left]

theorem MaskPattern.Models.find_nil {P : MaskPattern} {re : List Inst} (h : P.Models re) :
    P.find [] = none := by
  simp [MaskPattern.find, h.attempt_nil]

theorem MaskPattern.Models.replace_fuel {P : MaskPattern} {re : List Inst} (h : P.Models re) :
    ∀ (f1 f2 : Nat) (s : List Char), s.length ≤ f1 → s.length ≤ f2 →
      P.replace f1 s = P.replace f2 s := by
  intro f1
  induction f1 with
  | zero =>
    intro f2 s h1 _
    have : s = [] := List.eq_nil_of_length_eq_zero (by omega)
    subst this
    cases f2 with
    | zero => rfl
    | succ f2 => simp [MaskPattern.replace, h.find_nil]
  | succ f1 ih =>
    intro f2 s h1 h2
    cases f2 with
    | zero =>
      have : s = [] := List.eq_nil_of_length_eq_zero (by omega)
      subst this
      simp [MaskPattern.replace, h.find_nil]
    | succ f2 =>
      simp only [MaskPattern.replace]
      cases hf : P.find s with
      | none => rfl
      | some x =>
        obtain ⟨p, i, j, e⟩ := x
        have hb := h.find_bounds _ p i j e hf
        simp only
        rw [ih f2 (s.drop (p + e)) (by simp only [List.length_drop]; omega)
          (by simp only [List.length_drop]; omega)]

theorem MaskPattern.Models.ReplaceAllString_run {P : MaskPattern} {re : List Inst}
    (h : P.Models re) (s : List Char) : ReplaceAllString re s = P.run s := by
  rw [ReplaceAllString, h.replaceAllLoop_replace s _ 0 [] (Nat.zero_le _)]
  simp only [List.nil_append, List.drop_zero, MaskPattern.run]
  exact h.replace_fuel _ _ s (by omega) (Nat.le_refl _)

theorem MaskPattern.Models.run_none {P : MaskPattern} {re : List Inst} (h : P.Models re)
    (s : List Char) (hf : P.find s = none) : P.run s = s := by
  rw [MaskPattern.run, h.replace_fuel _ (s.length + 1) s (Nat.le_refl _) (by omega),
    MaskPattern.replace, hf]

theorem MaskPattern.Models.run_some {P : MaskPattern} {re : List Inst} (h : P.Models re)
    (s : List Char) (p i j e : Nat) (hf : P.find s = some (p, i, j, e)) :
    P.run s = s.take (p + i) ++ "****".toList ++ (s.drop (p + j)).take (e - j)
      ++ P.run (s.drop (p + e)) := by
  have hb := h.find_bounds _ p i j e hf
  rw [MaskPattern.run, h.replace_fuel _ (s.length + 1) s (Nat.le_refl _) (by omega),
    MaskPattern.replace, hf]
  simp only [MaskPattern.run]
  rw [h.replace_fuel s.length (s.drop (p + e)).length _ (by simp only [List.length_drop]; omega)
    (Nat.le_refl _)]

/-! ## C20: line by line -/

theorem MaskPattern.find_cons (P : MaskPattern) (c : Char) (r : List Char) :
    P.find (c :: r) = match P.attempt (c :: r) with
      | some m => some (0, m)
      | none => (P.find r).map (fun x => (x.1 + 1, x.2)) := rfl

theorem MaskPattern.Models.find_append_newline {P : MaskPattern} {re : List Inst}
    (h : P.Models re) :
    ∀ (x y : List Char), P.find (x ++ '\n' :: y)
      = match P.find x with
        | some r => some r
        | none => (P.find y).map (fun r => (x.length + 1 + r.1, r.2)) := by
  intro x
  induction x with
  | nil =>
    intro y
    have h0 : P.attempt ('\n' :: y) = none := by
      have := h.attempt_newline [] y
      simpa [h.attempt_nil] using this
    simp only [List.nil_append, MaskPattern.find, h0, h.attempt_nil, Option.map_none',
      List.length_nil, Nat.zero_add]
    congr 1
    funext r
    rw [Nat.add_comm]
  | cons c x ih =>
    intro y
    have h0 := h.attempt_newline (c :: x) y
    simp only [List.cons_append] at h0
    simp only [List.cons_append, MaskPattern.find_cons, h0]
    cases ha : P.attempt (c :: x) with
    | some m => rfl
    | none =>
      simp only [ih y]
      cases hx : P.find x with
      | some r => rfl
      | none =>
        simp only [Option.map_none', Option.map_map, Function.comp_def, List.length_cons]
        congr 1
        funext r
        congr 1
        omega

theorem take_line (x y : List Char) (c : Char) (k : Nat) :
    (x ++ c :: y).take (x.length + 1 + k) = x ++ c :: y.take k := by
  rw [Nat.add_assoc, List.take_append, Nat.add_comm 1 k, List.take_succ_cons]

theorem drop_line (x y : List Char) (c : Char) (k : Nat) :
    (x ++ c :: y).drop (x.length + 1 + k) = y.drop k := by
  rw [Nat.add_assoc, List.drop_append, Nat.add_comm 1 k, List.drop_succ_cons]

theorem MaskPattern.Models.run_append_newline_aux {P : MaskPattern} {re : List Inst}
    (h : P.Models re) :
    ∀ (n : Nat) (x y : List Char), x.length ≤ n →
      P.run (x ++ '\n' :: y) = P.run x ++ '\n' :: P.run y := by
  intro n
  induction n with
  | zero =>
    intro x y hx
    have : x = [] := List.eq_nil_of_length_eq_zero (by omega)
    subst this
    have hfx : P.find [] = none := h.find_nil
    have hfa := h.find_append_newline [] y
    rw [hfx] at hfa
    rw [h.run_none [] hfx]
    cases hy : P.find y with
    | none =>
      rw [hy] at hfa
      rw [h.run_none _ hfa, h.run_none _ hy]
    | some r =>
      obtain ⟨p, i, j, e⟩ := r
      rw [hy] at hfa
      simp only [Option.map_some'] at hfa
      rw [h.run_some _ _ _ _ _ hfa, h.run_some _ _ _ _ _ hy]
      have e1 : ([] : List Char).length + 1 + p + i = ([] : List Char).length + 1 + (p + i) := by
        omega
      have e2 : ([] : List Char).length + 1 + p + j = ([] : List Char).length + 1 + (p + j) := by
        omega
      have e3 : ([] : List Char).length + 1 + p + e = ([] : List Char).length + 1 + (p + e) := by
        omega
      rw [e1, e2, e3, take_line, drop_line, drop_line]
      simp only [List.nil_append, List.cons_append, List.append_assoc]
  | succ n ih =>
    intro x y hx
    have hfa := h.find_append_newline x y
    cases hfx : P.find x with
    | none =>
      rw [hfx] at hfa
      rw [h.run_none x hfx]
      cases hy : P.find y with
      | none =>
        rw [hy] at hfa
        rw [h.run_none _ hfa, h.run_none _ hy]
      | some r =>
        obtain ⟨p, i, j, e⟩ := r
        rw [hy] at hfa
        simp only [Option.map_some'] at hfa
        rw [h.run_some _ _ _ _ _ hfa, h.run_some _ _ _ _ _ hy]
        have e1 : x.length + 1 + p + i = x.length + 1 + (p + i) := by omega
        have e2 : x.length + 1 + p + j = x.length + 1 + (p + j) := by omega
        have e3 : x.length + 1 + p + e = x.length + 1 + (p + e) := by omega
        rw [e1, e2, e3, take_line, drop_line, drop_line]
        simp only [List.cons_append, List.append_assoc]
    | some r =>
      obtain ⟨p, i, j, e⟩ := r
      rw [hfx] at hfa
      simp only at hfa
      have hb := h.find_bounds _ p i j e hfx
      rw [h.run_some _ _ _ _ _ hfa, h.run_some _ _ _ _ _ hfx]
      rw [List.take_append_of_le_length (by omega), List.drop_append_of_le_length (by omega),
        List.drop_append_of_le_length (by omega),
        List.take_append_of_le_length (by simp only [List.length_drop]; omega),
        ih (x.drop (p + e)) y (by simp only [List.length_drop]; omega)]
      simp only [List.cons_append, List.append_assoc]

theorem MaskPattern.Models.run_append_newline {P : MaskPattern} {re : List Inst}
    (h : P.Models re) (x y : List Char) :
    P.run (x ++ '\n' :: y) = P.run x ++ '\n' :: P.run y :=
  h.run_append_newline_aux x.length x y (Nat.le_refl _)

/-! ## C20: where a greedy star settles -/

theorem lastTest_append (p : Char → Bool) (test : List Char → Bool) (w : List Char) (j : Nat)
    (hw : lastTest p test w = some j) :
    ∀ (a : List Char), (∀ c ∈ a, p c = true) → lastTest p test (a ++ w) = some (a.length + j) := by
  intro a
  induction a with
  | nil => intro _; simpa using hw
  | cons c a ih =>
    intro ha
    have hc : p c = true := ha c (List.mem_cons_self _ _)
    have := ih (fun c hc => ha c (List.mem_cons_of_mem _ hc))
    simp only [List.cons_append, lastTest, List.append_eq, hc, if_true, this, List.length_cons,
      Option.some.injEq]
    omega

theorem lastTest_exists (p : Char → Bool) (test : List Char → Bool) :
    ∀ (w : List Char) (j : Nat), j ≤ w.length → (∀ c ∈ w.take j, p c = true) →
      test (w.drop j) = true → ∃ j0, lastTest p test w = some j0 := by
  intro w
  induction w with
  | nil =>
    intro j _ _ ht
    simp only [List.drop_nil] at ht
    exact ⟨0, by simp [lastTest, ht]⟩
  | cons c r ih =>
    intro j hj hp ht
    cases j with
    | zero =>
      simp only [List.drop_zero] at ht
      simp only [lastTest, ht, if_true]
      split
      · split
        · exact ⟨_, rfl⟩
        · exact ⟨_, rfl⟩
      · exact ⟨_, rfl⟩
    | succ j =>
      have hc : p c = true := hp c (by simp)
      obtain ⟨j0, hj0⟩ := ih j (by simpa using hj)
        (fun c hc => hp c (by simp only [List.take_succ_cons]; exact List.mem_cons_of_mem _ hc))
        (by simpa using ht)
      exact ⟨j0 + 1, by simp [lastTest, hc, hj0]⟩

theorem lastTest_last (p : Char → Bool) (test : List Char → Bool) :
    ∀ (w : List Char) (j : Nat), lastTest p test w = some j → ∀ j', j < j' → j' ≤ w.length →
      (∀ c ∈ w.take j', p c = true) → test (w.drop j') = false := by
  intro w
  induction w with
  | nil =>
    intro j _ j' h1 h2 _
    simp only [List.length_nil] at h2
    omega
  | cons c r ih =>
    intro j hw j' h1 h2 hp
    obtain ⟨j'', rfl⟩ : ∃ j'', j' = j'' + 1 := ⟨j' - 1, by omega⟩
    have hc : p c = true := hp c (by simp)
    have hp' : ∀ c ∈ r.take j'', p c = true :=
      fun c hc => hp c (by simp only [List.take_succ_cons]; exact List.mem_cons_of_mem _ hc)
    simp only [List.drop_succ_cons]
    simp only [lastTest, hc, if_true] at hw
    cases hr : lastTest p test r with
    | some j0 =>
      rw [hr] at hw
      simp only [Option.some.injEq] at hw
      exact ih j0 hr j'' (by omega) (by simpa using h2) hp'
    | none =>
      cases ht : test (r.drop j'') with
      | false => rfl
      | true =>
        obtain ⟨j0, hj0⟩ := lastTest_exists p test r j'' (by simpa using h2) hp' ht
        rw [hj0] at hr
        cases hr

theorem lastTest_of_append (p : Char → Bool) (test : List Char → Bool) (w : List Char) (k : Nat) :
    ∀ (a : List Char), lastTest p test (a ++ w) = some (a.length + k) →
      lastTest p test w = some k := by
  intro a
  induction a with
  | nil => intro h; simpa using h
  | cons c a ih =>
    intro h
    simp only [List.cons_append, lastTest, List.append_eq, List.length_cons] at h
    split at h
    · split at h
      · next j0 hj0 =>
        simp only [Option.some.injEq] at h
        apply ih
        rw [hj0]
        congr 1
        omega
      · split at h
        · simp only [Option.some.injEq] at h; omega
        · cases h
    · split at h
      · simp only [Option.some.injEq] at h; omega
      · cases h

theorem lastTest_drop (p : Char → Bool) (test : List Char → Bool) (w : List Char) (j : Nat)
    (hw : lastTest p test w = some j) : lastTest p test (w.drop j) = some 0 := by
  have hle := lastTest_le p test w j hw
  apply lastTest_of_append p test (w.drop j) 0 (w.take j)
  rw [List.take_append_drop, List.length_take, Nat.min_eq_left hle]
  exact hw

/-! ## C20: one line has at most one match -/

theorem oneLine_take {l : List Char} (hl : oneLine l) (n : Nat) : oneLine (l.take n) :=
  fun c hc => hl c (List.mem_of_mem_take hc)

theorem oneLine_drop {l : List Char} (hl : oneLine l) (n : Nat) : oneLine (l.drop n) :=
  fun c hc => hl c (List.mem_of_mem_drop hc)

theorem oneLine_append {a b : List Char} (ha : oneLine a) (hb : oneLine b) : oneLine (a ++ b) := by
  intro c hc
  rcases List.mem_append.mp hc with h | h
  · exact ha c h
  · exact hb c h

theorem oneLine_stars : oneLine "****".toList := by
  intro c hc
  have : c = '*' := by simpa using hc
  subst this
  decide

/-- What a successful attempt at `p` in `l` says about `l`. -/
theorem MaskPattern.Models.attempt_facts {P : MaskPattern} {re : List Inst} (h : P.Models re)
    (l : List Char) (p i j e : Nat) (hp : p ≤ l.length)
    (ha : P.attempt (l.drop p) = some (i, j, e)) :
    P.parseG1 (l.drop p) = some i ∧ 1 ≤ i ∧ i ≤ j ∧ j < e ∧ p + e ≤ l.length ∧
      lastTest isAnyClass P.test (l.drop (p + i)) = some (j - i) ∧
      P.test (l.drop (p + j)) = true ∧ e = j + P.lenG2 (l.drop (p + j)) := by
  have hb := h.attempt_bounds _ i j e ha
  simp only [List.length_drop] at hb
  obtain ⟨i', j0, hi, hj, hm⟩ := (P.attempt_some_iff _ _).mp ha
  simp only [Prod.mk.injEq] at hm
  obtain ⟨rfl, rfl, rfl⟩ := hm
  have ht := lastTest_test _ _ _ _ hj
  simp only [List.drop_drop] at hj ht
  refine ⟨hi, hb.1, hb.2.1, hb.2.2.1, by omega, ?_, ?_, ?_⟩
  · rw [Nat.add_sub_cancel_left]; exact hj
  · rw [← Nat.add_assoc]; exact ht
  · simp only [List.drop_drop, Nat.add_assoc]

theorem MaskPattern.Models.run_line {P : MaskPattern} {re : List Inst} (h : P.Models re)
    (l : List Char) (hl : oneLine l) (p i j e : Nat) (hf : P.find l = some (p, i, j, e)) :
    P.run l = l.take (p + i) ++ "****".toList ++ l.drop (p + j) := by
  obtain ⟨hp, ha, _⟩ := P.find_some l p _ hf
  obtain ⟨hi, h1, h2, h3, h4, hlt, ht, he⟩ := h.attempt_facts l p i j e hp ha
  have hnone : P.find (l.drop (p + e)) = none := by
    cases hf2 : P.find (l.drop (p + e)) with
    | none => rfl
    | some r =>
      exfalso
      obtain ⟨p2, i2, j2, e2⟩ := r
      obtain ⟨hp2, ha2, _⟩ := P.find_some _ p2 _ hf2
      obtain ⟨_, g1, g2, g3, g4, _, gt, _⟩ := h.attempt_facts _ p2 i2 j2 e2 hp2 ha2
      simp only [List.length_drop] at g4
      have hlast := lastTest_last _ _ _ _ hlt (e + p2 + j2 - i) (by omega)
        (by simp only [List.length_drop]; omega) (oneLine_take (oneLine_drop hl _) _)
      simp only [List.drop_drop] at hlast gt
      have e1 : p + i + (e + p2 + j2 - i) = p + e + (p2 + j2) := by omega
      rw [e1, gt] at hlast
      cases hlast
  rw [h.run_some l p i j e hf, h.run_none _ hnone]
  have e1 : l.drop (p + e) = (l.drop (p + j)).drop (e - j) := by
    rw [List.drop_drop]; congr 1; omega
  rw [e1, List.append_assoc, List.take_append_drop]

/-! ## C20: a masked line is masked the same way again -/

theorem splice_take (l M R : List Char) (a q : Nat) (hq : q ≤ a) (ha : a ≤ l.length) :
    (l.take a ++ M ++ R).take q = l.take q := by
  rw [List.append_assoc, List.take_append_of_le_length (by simp only [List.length_take]; omega),
    List.take_take, Nat.min_eq_left hq]

theorem splice_drop (l M R : List Char) (a q : Nat) (hq : q ≤ a) (ha : a ≤ l.length) :
    (l.take a ++ M ++ R).drop q = (l.drop q).take (a - q) ++ M ++ R := by
  rw [List.append_assoc, List.drop_append_of_le_length (by simp only [List.length_take]; omega),
    List.drop_take, List.append_assoc]

theorem splice_drop_end (l M R : List Char) (a : Nat) (ha : a ≤ l.length) :
    (l.take a ++ M ++ R).drop (a + M.length) = R := by
  have : (l.take a ++ M).length = a + M.length := by
    simp only [List.length_append, List.length_take]; omega
  rw [← this, List.drop_left]

/-- After masking, the attempt at the same place succeeds with `****` in the middle. -/
theorem MaskPattern.Models.attempt_masked {P : MaskPattern} {re : List Inst} (h : P.Models re)
    (hF : P.Forward) (l : List Char) (p i j e : Nat) (hp : p ≤ l.length)
    (ha : P.attempt (l.drop p) = some (i, j, e)) :
    ∃ e', P.attempt ((l.take (p + i) ++ "****".toList ++ l.drop (p + j)).drop p)
      = some (i, i + 4, e') := by
  obtain ⟨hi, h1, h2, h3, h4, hlt, ht, he⟩ := h.attempt_facts l p i j e hp ha
  have e0 : l.drop (p + j) = (l.drop (p + i)).drop (j - i) := by
    rw [List.drop_drop]; congr 1; omega
  have hd : (l.take (p + i) ++ "****".toList ++ l.drop (p + j)).drop p
      = (l.drop p).take i ++ ("****".toList ++ l.drop (p + j)) := by
    rw [splice_drop _ _ _ _ _ (by omega) (by omega), Nat.add_sub_cancel_left, List.append_assoc]
  have hlen : ((l.drop p).take i).length = i := by
    simp only [List.length_take, List.length_drop]; omega
  have hparse := hF.stable (l.drop p) i ("****".toList ++ l.drop (p + j)) hi
  have hdi : ((l.drop p).take i ++ ("****".toList ++ l.drop (p + j))).drop i
      = "****".toList ++ l.drop (p + j) := by
    have := List.drop_left ((l.drop p).take i) ("****".toList ++ l.drop (p + j))
    rw [hlen] at this
    exact this
  have hlast : lastTest isAnyClass P.test ("****".toList ++ l.drop (p + j)) = some (4 + 0) := by
    apply lastTest_append _ _ _ _ _ _ oneLine_stars
    rw [e0]
    exact lastTest_drop _ _ _ _ hlt
  rw [hd]
  exact ⟨_, (P.attempt_some_iff _ _).mpr ⟨i, 4, hparse, by rw [hdi]; exact hlast, rfl⟩⟩

/-- Before the match, no attempt succeeds after masking either. -/
theorem MaskPattern.Models.attempt_before_masked {P : MaskPattern} {re : List Inst}
    (h : P.Models re) (hF : P.Forward) (l : List Char) (hl : oneLine l) (p i j e : Nat)
    (hf : P.find l = some (p, i, j, e)) (q : Nat) (hq : q < p) :
    P.attempt ((l.take (p + i) ++ "****".toList ++ l.drop (p + j)).drop q) = none := by
  obtain ⟨hp, ha, hmin⟩ := P.find_some l p _ hf
  obtain ⟨hi, h1, h2, h3, h4, hlt, ht, he⟩ := h.attempt_facts l p i j e hp ha
  generalize hu : l.take (p + i) ++ "****".toList ++ l.drop (p + j) = u
  have hup : P.parseG1 (u.drop p) = some i := by
    obtain ⟨e', he'⟩ := h.attempt_masked hF l p i j e hp ha
    rw [hu] at he'
    obtain ⟨i', j0, hi', _, hm⟩ := (P.attempt_some_iff _ _).mp he'
    simp only [Prod.mk.injEq] at hm
    rw [hm.1]
    exact hi'
  have hulen : p + i ≤ u.length := by
    rw [← hu]
    simp only [List.length_append, List.length_take]
    omega
  cases hau : P.attempt (u.drop q) with
  | none => rfl
  | some m =>
    exfalso
    obtain ⟨i', j', e'⟩ := m
    obtain ⟨hi', _, _, _, _, _, _, _⟩ := h.attempt_facts u q i' j' e' (by omega) hau
    have hsplit : u.drop q = (u.drop q).take (p - q) ++ u.drop p := by
      conv_lhs => rw [← List.take_append_drop (p - q) (u.drop q)]
      rw [List.drop_drop]
      congr 2
      omega
    have hmono : i' ≤ p - q + i := by
      have hx : ((u.drop q).take (p - q)).length = p - q := by
        simp only [List.length_take, List.length_drop]; omega
      have := hF.mono ((u.drop q).take (p - q)) (u.drop p) i i' hup (by rw [← hsplit]; exact hi')
      rw [hx] at this
      exact this
    have hsame : (u.drop q).take i' = (l.drop q).take i' := by
      have e1 : (u.drop q).take i' = (u.take (q + i')).drop q := by
        rw [List.drop_take, Nat.add_sub_cancel_left]
      have e2 : (l.drop q).take i' = (l.take (q + i')).drop q := by
        rw [List.drop_take, Nat.add_sub_cancel_left]
      rw [e1, e2, ← hu, splice_take _ _ _ _ _ (by omega) (by omega)]
    have hpl : P.parseG1 (l.drop q) = some i' := by
      have := hF.stable (u.drop q) i' ((l.drop q).drop i') hi'
      rw [hsame, List.take_append_drop] at this
      exact this
    obtain ⟨j0, hj0⟩ := lastTest_exists isAnyClass P.test ((l.drop q).drop i') (p + j - (q + i'))
      (by simp only [List.length_drop]; omega) (oneLine_take (oneLine_drop (oneLine_drop hl _) _) _)
      (by
        simp only [List.drop_drop]
        have : q + i' + (p + j - (q + i')) = p + j := by omega
        rw [this]
        exact ht)
    have := (P.attempt_some_iff (l.drop q) _).mpr ⟨i', j0, hpl, hj0, rfl⟩
    rw [hmin q hq] at this
    cases this

theorem MaskPattern.Models.run_run_line {P : MaskPattern} {re : List Inst} (h : P.Models re)
    (hF : P.Forward) (l : List Char) (hl : oneLine l) : P.run (P.run l) = P.run l := by
  cases hf : P.find l with
  | none => rw [h.run_none l hf, h.run_none l hf]
  | some r =>
    obtain ⟨p, i, j, e⟩ := r
    obtain ⟨hp, ha, hmin⟩ := P.find_some l p _ hf
    obtain ⟨hi, h1, h2, h3, h4, hlt, ht, he⟩ := h.attempt_facts l p i j e hp ha
    rw [h.run_line l hl p i j e hf]
    obtain ⟨e', he'⟩ := h.attempt_masked hF l p i j e hp ha
    have hbefore := h.attempt_before_masked hF l hl p i j e hf
    generalize hu : l.take (p + i) ++ "****".toList ++ l.drop (p + j) = u at he' hbefore
    have hul : oneLine u := by
      rw [← hu]
      exact oneLine_append (oneLine_append (oneLine_take hl _) oneLine_stars) (oneLine_drop hl _)
    have hulen : p ≤ u.length := by
      rw [← hu]
      simp only [List.length_append, List.length_take]
      omega
    have hfu : P.find u = some (p, i, i + 4, e') := P.find_of u p _ hulen he' hbefore
    rw [h.run_line u hul p i (i + 4) e' hfu]
    have e1 : u.take (p + i) = l.take (p + i) := by
      rw [← hu, splice_take _ _ _ _ _ (Nat.le_refl _) (by omega)]
    have e2 : u.drop (p + (i + 4)) = l.drop (p + j) := by
      rw [← hu, ← Nat.add_assoc]
      exact splice_drop_end l "****".toList _ (p + i) (by omega)
    rw [e1, e2, hu]

/-! ## C20: the two patterns -/

theorem dropWhile_append_stop (p : Char → Bool) (x : Char) (hx : p x = false) (R : List Char) :
    ∀ (a : List Char), (∀ c ∈ a, p c = true) →
      (a ++ x :: R).dropWhile p = x :: R ∧ (a ++ x :: R).takeWhile p = a := by
  intro a
  induction a with
  | nil => intro _; simp [List.dropWhile_cons, List.takeWhile_cons, hx]
  | cons c a ih =>
    intro ha
    have hc : p c = true := ha c (List.mem_cons_self _ _)
    have := ih (fun c hc => ha c (List.mem_cons_of_mem _ hc))
    simp [List.dropWhile_cons, List.takeWhile_cons, hc, this]

theorem mask4_parse_iff (z : List Char) (i : Nat) :
    mask4.parseG1 z = some i ↔
      ∃ a R, z = a ++ '.' :: R ∧ (∀ c ∈ a, isDigitClass c = true) ∧ i = a.length + 1 := by
  constructor
  · intro h
    simp only [mask4] at h
    split at h
    · next R hR =>
      simp only [Option.some.injEq] at h
      refine ⟨z.takeWhile isDigitClass, R, ?_, fun c hc => (List.mem_takeWhile_imp hc), h.symm⟩
      rw [← hR, List.takeWhile_append_dropWhile]
    · cases h
  · rintro ⟨a, R, rfl, ha, rfl⟩
    obtain ⟨h1, h2⟩ := dropWhile_append_stop isDigitClass '.' (by decide) R a ha
    simp only [mask4, h1, h2]

theorem mask6_parse_iff (z : List Char) (i : Nat) :
    mask6.parseG1 z = some i ↔
      ∃ a b R, z = a ++ ':' :: (b ++ ':' :: R) ∧ (∀ c ∈ a, isWordClass c = true) ∧
        (∀ c ∈ b, isWordClass c = true) ∧ i = a.length + 1 + b.length + 1 := by
  constructor
  · intro h
    simp only [mask6] at h
    split at h
    · next z2 hz2 =>
      split at h
      · next R hR =>
        simp only [Option.some.injEq] at h
        refine ⟨z.takeWhile isWordClass, z2.takeWhile isWordClass, R, ?_,
          fun c hc => (List.mem_takeWhile_imp hc), fun c hc => (List.mem_takeWhile_imp hc),
          h.symm⟩
        rw [← hR, List.takeWhile_append_dropWhile, ← hz2, List.takeWhile_append_dropWhile]
      · cases h
    · cases h
  · rintro ⟨a, b, R, rfl, ha, hb, rfl⟩
    obtain ⟨h1, h2⟩ := dropWhile_append_stop isWordClass ':' (by decide) (b ++ ':' :: R) a ha
    obtain ⟨h3, h4⟩ := dropWhile_append_stop isWordClass ':' (by decide) R b hb
    simp only [mask6, h1, h2, h3, h4]

theorem mask4_test_iff (y : List Char) : mask4.test y = true ↔ ∃ R, y = '.' :: R := by
  simp only [mask4]
  constructor
  · intro h
    split at h
    · exact ⟨_, rfl⟩
    · cases h
  · rintro ⟨R, rfl⟩
    rfl

theorem mask6_test_iff (y : List Char) :
    mask6.test y = true ↔
      ∃ b R, y = ':' :: (b ++ ':' :: R) ∧ (∀ c ∈ b, isWordClass c = true) := by
  simp only [mask6]
  constructor
  · intro h
    split at h
    · next y' =>
      split at h
      · next R hR =>
        refine ⟨y'.takeWhile isWordClass, R, ?_, fun c hc => (List.mem_takeWhile_imp hc)⟩
        rw [← hR, List.takeWhile_append_dropWhile]
      · cases h
    · cases h
  · rintro ⟨b, R, rfl, hb⟩
    obtain ⟨h3, _⟩ := dropWhile_append_stop isWordClass ':' (by decide) R b hb
    simp only [h3]

theorem length_takeWhile_le (p : Char → Bool) (l : List Char) :
    (l.takeWhile p).length ≤ l.length :=
  (List.takeWhile_sublist p).length_le

theorem mask4_models : mask4.Models ipv4Re where
  closed := ipv4Re_closed
  noNewline := by
    intro i hi
    simp only [ipv4Re, List.mem_cons, List.mem_singleton, List.not_mem_nil, or_false] at hi
    rcases hi with rfl | rfl | rfl | rfl | rfl | rfl | rfl | rfl | rfl <;>
      simp only [Inst.skipsNewline] <;> decide
  parseLen := by
    intro z i h
    obtain ⟨a, R, rfl, _, rfl⟩ := (mask4_parse_iff z i).mp h
    simp only [List.length_append, List.length_cons]
    omega
  testLen := by
    intro y h
    obtain ⟨R, rfl⟩ := (mask4_test_iff y).mp h
    have := length_takeWhile_le isDigitClass R
    simp only [mask4, List.drop_succ_cons, List.drop_zero, List.length_cons]
    omega

theorem mask6_models : mask6.Models ipv6Re where
  closed := ipv6Re_closed
  noNewline := by
    intro i hi
    simp only [ipv6Re, List.mem_cons, List.mem_singleton, List.not_mem_nil, or_false] at hi
    rcases hi with rfl | rfl | rfl | rfl | rfl | rfl | rfl | rfl | rfl | rfl | rfl | rfl | rfl <;>
      simp only [Inst.skipsNewline] <;> decide
  parseLen := by
    intro z i h
    obtain ⟨a, b, R, rfl, _, _, rfl⟩ := (mask6_parse_iff z i).mp h
    simp only [List.length_append, List.length_cons]
    omega
  testLen := by
    intro y h
    obtain ⟨b, R, rfl, hb⟩ := (mask6_test_iff y).mp h
    obtain ⟨h3, h4⟩ := dropWhile_append_stop isWordClass ':' (by decide) R b hb
    have := length_takeWhile_le isWordClass R
    simp only [mask6, List.drop_succ_cons, List.drop_zero, List.length_cons, h3, h4,
      List.length_append]
    omega

/-! ## C20: group 1 of the IPv6 pattern is read forward -/

/-- In `a ++ x :: (b ++ R)`, with `a` and `b` inside a class that `x` is not in,
the only place before the end of `b` that is outside the class is the one of `x`. -/
theorem outside_class_pos (p : Char → Bool) (a b R : List Char) (x y : Char) (n : Nat)
    (ha : ∀ c ∈ a, p c = true) (hb : ∀ c ∈ b, p c = true) (hy : p y = false)
    (hn : n < a.length + 1 + b.length) (h : (a ++ x :: (b ++ R))[n]? = some y) :
    n = a.length := by
  rcases Nat.lt_trichotomy n a.length with h1 | h1 | h1
  · rw [List.getElem?_append_left h1] at h
    have := ha y (List.getElem?_mem h)
    rw [hy] at this
    cases this
  · exact h1
  · rw [List.getElem?_append_right (by omega)] at h
    obtain ⟨k, hk⟩ : ∃ k, n - a.length = k + 1 := ⟨n - a.length - 1, by omega⟩
    rw [hk, List.getElem?_cons_succ, List.getElem?_append_left (by omega)] at h
    have := hb y (List.getElem?_mem h)
    rw [hy] at this
    cases this

theorem mask6_forward : mask6.Forward where
  stable := by
    intro z i R h
    obtain ⟨a, b, R0, rfl, ha, hb, rfl⟩ := (mask6_parse_iff z i).mp h
    apply (mask6_parse_iff _ _).mpr
    refine ⟨a, b, R, ?_, ha, hb, rfl⟩
    have e1 : a ++ ':' :: (b ++ ':' :: R0) = (a ++ ':' :: (b ++ [':'])) ++ R0 := by simp
    have e2 : (a ++ ':' :: (b ++ [':'])).length = a.length + 1 + b.length + 1 := by
      simp only [List.length_append, List.length_cons, List.length_nil]
      omega
    rw [e1, ← e2, List.take_left]
    simp
  mono := by
    intro x z i k hz hxz
    obtain ⟨a, b, R, rfl, ha, hb, rfl⟩ := (mask6_parse_iff z i).mp hz
    obtain ⟨a', b', R', he, ha', hb', rfl⟩ := (mask6_parse_iff _ k).mp hxz
    by_contra hlt
    have hlt : x.length + (a.length + 1 + b.length + 1) < a'.length + 1 + b'.length + 1 := by
      omega
    have g1 : (x ++ (a ++ ':' :: (b ++ ':' :: R)))[x.length + a.length]? = some ':' := by
      rw [List.getElem?_append_right (by omega), Nat.add_sub_cancel_left,
        List.getElem?_append_right (Nat.le_refl _), Nat.sub_self,
        List.getElem?_cons_zero]
    have g2 : (x ++ (a ++ ':' :: (b ++ ':' :: R)))[x.length + a.length + 1 + b.length]?
        = some ':' := by
      rw [List.getElem?_append_right (by omega), List.getElem?_append_right (by omega)]
      have : x.length + a.length + 1 + b.length - x.length - a.length = b.length + 1 := by omega
      rw [this, List.getElem?_cons_succ, List.getElem?_append_right (Nat.le_refl _), Nat.sub_self,
        List.getElem?_cons_zero]
    rw [he] at g1 g2
    have p1 := outside_class_pos isWordClass a' b' (':' :: R') ':' ':' _ ha' hb' (by decide)
      (by omega) g1
    have p2 := outside_class_pos isWordClass a' b' (':' :: R') ':' ':' _ ha' hb' (by decide)
      (by omega) g2
    omega

/-! ## C20: the dots of a line -/

theorem drop_of_getElem? (l : List Char) (n : Nat) (c : Char) (h : l[n]? = some c) :
    l.drop n = c :: l.drop (n + 1) := by
  obtain ⟨hn, he⟩ := List.getElem?_eq_some.mp h
  rw [List.drop_eq_getElem_cons hn, he]

theorem take_of_getElem? (l : List Char) (n : Nat) (c : Char) (h : l[n]? = some c) :
    l.take (n + 1) = l.take n ++ [c] := by
  rw [List.take_succ, h]
  rfl

theorem getElem?_of_drop (l : List Char) (n : Nat) (c : Char) (R : List Char)
    (h : l.drop n = c :: R) : l[n]? = some c := by
  have := List.getElem?_drop l n 0
  rw [h] at this
  simpa using this.symm

theorem MaskPattern.Models.run_oneLine {P : MaskPattern} {re : List Inst} (h : P.Models re)
    (l : List Char) (hl : oneLine l) : oneLine (P.run l) := by
  cases hf : P.find l with
  | none => rw [h.run_none l hf]; exact hl
  | some r =>
    obtain ⟨p, i, j, e⟩ := r
    rw [h.run_line l hl p i j e hf]
    exact oneLine_append (oneLine_append (oneLine_take hl _) oneLine_stars) (oneLine_drop hl _)

theorem mask4_parse_pos (l : List Char) (p i : Nat) (h : mask4.parseG1 (l.drop p) = some i) :
    1 ≤ i ∧ l[p + (i - 1)]? = some '.' ∧ ∀ n, n < i - 1 → l[p + n]? ≠ some '.' := by
  obtain ⟨a, R, he, ha, rfl⟩ := (mask4_parse_iff _ _).mp h
  refine ⟨by omega, ?_, ?_⟩
  · rw [← List.getElem?_drop, he, Nat.add_sub_cancel,
      List.getElem?_append_right (Nat.le_refl _), Nat.sub_self, List.getElem?_cons_zero]
  · intro n hn hdot
    rw [← List.getElem?_drop, he, List.getElem?_append_left (by omega)] at hdot
    have := ha _ (List.getElem?_mem hdot)
    revert this
    decide

theorem mask4_test_pos (l : List Char) (n : Nat) :
    mask4.test (l.drop n) = true ↔ l[n]? = some '.' := by
  rw [mask4_test_iff]
  constructor
  · rintro ⟨R, hR⟩
    exact getElem?_of_drop l n _ R hR
  · intro h
    exact ⟨_, drop_of_getElem? l n _ h⟩

theorem mask4_attempt_of_dots (l : List Char) (hl : oneLine l) (n1 n2 : Nat)
    (h1 : l[n1]? = some '.') (h2 : l[n2]? = some '.') (hlt : n1 < n2) :
    ∃ m, mask4.attempt (l.drop n1) = some m := by
  have hlen : n2 < l.length := (List.getElem?_eq_some.mp h2).1
  have hp : mask4.parseG1 (l.drop n1) = some 1 :=
    (mask4_parse_iff _ _).mpr ⟨[], _, by rw [drop_of_getElem? l n1 _ h1]; rfl,
      fun c hc => (by cases hc), rfl⟩
  obtain ⟨j0, hj0⟩ := lastTest_exists isAnyClass mask4.test ((l.drop n1).drop 1) (n2 - (n1 + 1))
    (by simp only [List.length_drop]; omega) (oneLine_take (oneLine_drop (oneLine_drop hl _) _) _)
    (by
      rw [List.drop_drop, List.drop_drop]
      have : n1 + (1 + (n2 - (n1 + 1))) = n2 := by omega
      rw [this]
      exact (mask4_test_pos l n2).mpr h2)
  exact ⟨_, (mask4.attempt_some_iff _ _).mpr ⟨1, j0, hp, hj0, rfl⟩⟩

theorem two_of_count (x : Char) :
    ∀ (l : List Char), 2 ≤ l.count x →
      ∃ (n1 n2 : Nat), n1 < n2 ∧ l[n1]? = some x ∧ l[n2]? = some x := by
  intro l
  induction l with
  | nil => intro h; simp at h
  | cons c r ih =>
    intro h
    by_cases hc : c = x
    · subst hc
      have hr : 0 < r.count c := by
        simp only [List.count_cons_self] at h
        omega
      obtain ⟨n, hn⟩ := List.mem_iff_getElem?.mp (List.count_pos_iff.mp hr)
      exact ⟨0, n + 1, by omega, by simp, by simpa using hn⟩
    · have hc' : (c == x) = false := by simpa using hc
      rw [List.count_cons, hc'] at h
      simp only [Bool.false_eq_true, if_false, Nat.add_zero] at h
      obtain ⟨n1, n2, h1, h2, h3⟩ := ih h
      exact ⟨n1 + 1, n2 + 1, by omega, by simpa using h2, by simpa using h3⟩

/-- Masking the dots of a line leaves two dots with `****` between them. -/
theorem mask4_run_masked (l : List Char) (hl : oneLine l) : Masked4 (mask4.run l) := by
  cases hf : mask4.find l with
  | none =>
    rw [mask4_models.run_none l hf]
    left
    by_contra hc
    obtain ⟨n1, n2, hlt, h1, h2⟩ := two_of_count '.' l (by omega)
    obtain ⟨m, hm⟩ := mask4_attempt_of_dots l hl n1 n2 h1 h2 hlt
    have hn1 : n1 < l.length := (List.getElem?_eq_some.mp h1).1
    rw [mask4.find_none l hf n1 (by omega)] at hm
    cases hm
  | some r =>
    obtain ⟨p, i, j, e⟩ := r
    obtain ⟨hp, ha, hmin⟩ := mask4.find_some l p _ hf
    obtain ⟨hi, h1, h2, h3, h4, hlt, ht, he⟩ := mask4_models.attempt_facts l p i j e hp ha
    obtain ⟨_, hd1, hdig⟩ := mask4_parse_pos l p i hi
    have hd2 := (mask4_test_pos l (p + j)).mp ht
    rw [mask4_models.run_line l hl p i j e hf]
    right
    refine ⟨l.take (p + (i - 1)), l.drop (p + j + 1), ?_, ?_, ?_⟩
    · have e1 : p + i = p + (i - 1) + 1 := by omega
      rw [e1, take_of_getElem? l _ _ hd1, drop_of_getElem? l _ _ hd2]
      simp
    · intro hmem
      obtain ⟨n, hn⟩ := List.mem_iff_getElem?.mp hmem
      rw [List.getElem?_take] at hn
      split at hn
      · next hlt' =>
        by_cases hnp : n < p
        · obtain ⟨m, hm⟩ := mask4_attempt_of_dots l hl n (p + j) hn hd2 (by omega)
          rw [hmin n hnp] at hm
          cases hm
        · have := hdig (n - p) (by omega)
          rw [Nat.add_sub_cancel' (by omega)] at this
          exact this hn
      · cases hn
    · intro hmem
      obtain ⟨n, hn⟩ := List.mem_iff_getElem?.mp hmem
      rw [List.getElem?_drop] at hn
      have hlen : p + j + 1 + n < l.length := (List.getElem?_eq_some.mp hn).1
      have hlast := lastTest_last _ _ _ _ hlt (p + j + 1 + n - (p + i)) (by omega)
        (by simp only [List.length_drop]; omega) (oneLine_take (oneLine_drop hl _) _)
      rw [List.drop_drop, Nat.add_sub_cancel' (by omega), (mask4_test_pos l _).mpr hn] at hlast
      cases hlast

theorem dot_positions (A B : List Char) (hA : '.' ∉ A) (hB : '.' ∉ B) (n : Nat)
    (h : (A ++ ".****.".toList ++ B)[n]? = some '.') : n = A.length ∨ n = A.length + 5 := by
  rw [List.append_assoc] at h
  rcases Nat.lt_or_ge n A.length with h1 | h1
  · rw [List.getElem?_append_left h1] at h
    exact absurd (List.getElem?_mem h) hA
  · rw [List.getElem?_append_right h1] at h
    rcases Nat.lt_or_ge (n - A.length) 6 with h2 | h2
    · rw [List.getElem?_append_left (by simpa using h2)] at h
      obtain ⟨k, hk⟩ : ∃ k, n - A.length = k := ⟨_, rfl⟩
      rw [hk] at h h2
      interval_cases k
      · left; omega
      · simp at h
      · simp at h
      · simp at h
      · simp at h
      · right; omega
    · rw [List.getElem?_append_right (by simpa using h2)] at h
      exact absurd (List.getElem?_mem h) hB

/-- A line with `****` between its two dots is left alone. -/
theorem mask4_run_of_masked (u : List Char) (hu : oneLine u) (hm : Masked4 u) :
    mask4.run u = u := by
  rcases hm with hc | ⟨A, B, rfl, hA, hB⟩
  · rw [← mask4_models.ReplaceAllString_run]
    exact ReplaceAllString_of_count '.' ipv4Re u (by simpa [ipv4Re, litCount] using hc)
  · cases hf : mask4.find (A ++ ".****.".toList ++ B) with
    | none => exact mask4_models.run_none _ hf
    | some r =>
      obtain ⟨p, i, j, e⟩ := r
      obtain ⟨hp, ha, hmin⟩ := mask4.find_some _ p _ hf
      obtain ⟨hi, h1, h2, h3, h4, hlt, ht, he⟩ := mask4_models.attempt_facts _ p i j e hp ha
      obtain ⟨_, hd1, _⟩ := mask4_parse_pos _ p i hi
      have hd2 := (mask4_test_pos _ (p + j)).mp ht
      have p1 := dot_positions A B hA hB _ hd1
      have p2 := dot_positions A B hA hB _ hd2
      have q1 : p + i = A.length + 1 := by omega
      have q2 : p + j = A.length + 5 := by omega
      rw [mask4_models.run_line _ hu p i j e hf, q1, q2]
      have e1 : (A ++ ".****.".toList ++ B).take (A.length + 1) = A ++ ['.'] := by
        rw [List.append_assoc, List.take_append]
        rfl
      have e2 : (A ++ ".****.".toList ++ B).drop (A.length + 5) = '.' :: B := by
        rw [List.append_assoc, List.drop_append]
        rfl
      rw [e1, e2]
      simp

/-! ## C20: masking the colons keeps the dots masked -/

theorem mask6_parse_pos (l : List Char) (p i : Nat) (h : mask6.parseG1 (l.drop p) = some i) :
    1 ≤ i ∧ l[p + (i - 1)]? = some ':' := by
  obtain ⟨a, b, R, he, ha, hb, rfl⟩ := (mask6_parse_iff _ _).mp h
  refine ⟨by omega, ?_⟩
  rw [← List.getElem?_drop, he, Nat.add_sub_cancel, List.getElem?_append_right (by omega)]
  have : a.length + 1 + b.length - a.length = b.length + 1 := by omega
  rw [this, List.getElem?_cons_succ, List.getElem?_append_right (Nat.le_refl _), Nat.sub_self,
    List.getElem?_cons_zero]

theorem mask6_test_pos (l : List Char) (n : Nat) (h : mask6.test (l.drop n) = true) :
    l[n]? = some ':' := by
  obtain ⟨b, R, hR, _⟩ := (mask6_test_iff _).mp h
  exact getElem?_of_drop l n _ _ hR

theorem colon_positions (A B : List Char) (n : Nat)
    (h : (A ++ ".****.".toList ++ B)[n]? = some ':') : n < A.length ∨ A.length + 6 ≤ n := by
  rw [List.append_assoc] at h
  rcases Nat.lt_or_ge n A.length with h1 | h1
  · exact Or.inl h1
  · rw [List.getElem?_append_right h1] at h
    rcases Nat.lt_or_ge (n - A.length) 6 with h2 | h2
    · rw [List.getElem?_append_left (by simpa using h2)] at h
      obtain ⟨k, hk⟩ : ∃ k, n - A.length = k := ⟨_, rfl⟩
      rw [hk] at h h2
      interval_cases k <;> simp at h
    · right; omega

theorem not_mem_stars : '.' ∉ "****".toList := by decide

theorem not_mem_splice (A : List Char) (hA : '.' ∉ A) (a b : Nat) :
    '.' ∉ A.take a ++ "****".toList ++ A.drop b := by
  intro h
  rcases List.mem_append.mp h with h | h
  · rcases List.mem_append.mp h with h | h
    · exact hA (List.mem_of_mem_take h)
    · exact not_mem_stars h
  · exact hA (List.mem_of_mem_drop h)

theorem mask6_run_masked (t : List Char) (ht : oneLine t) (hm : Masked4 t) :
    Masked4 (mask6.run t) := by
  cases hf : mask6.find t with
  | none => rw [mask6_models.run_none t hf]; exact hm
  | some r =>
    obtain ⟨p, i, j, e⟩ := r
    obtain ⟨hp, ha, hmin⟩ := mask6.find_some t p _ hf
    obtain ⟨hi, h1, h2, h3, h4, hlt, htest, he⟩ := mask6_models.attempt_facts t p i j e hp ha
    obtain ⟨_, hd1⟩ := mask6_parse_pos t p i hi
    have hd2 := mask6_test_pos t (p + j) htest
    rw [mask6_models.run_line t ht p i j e hf]
    rcases hm with hc | ⟨A, B, rfl, hA, hB⟩
    · left
      have e1 : t.drop (p + j) = (t.drop (p + i)).drop (j - i) := by
        rw [List.drop_drop]; congr 1; omega
      have e2 : ((t.drop (p + i)).drop (j - i)).count '.' ≤ (t.drop (p + i)).count '.' :=
        (List.drop_sublist _ _).count_le _
      have e3 : t.count '.' = (t.take (p + i)).count '.' + (t.drop (p + i)).count '.' := by
        rw [← List.count_append, List.take_append_drop]
      have e4 : "****".toList.count '.' = 0 := by decide
      rw [List.count_append, List.count_append, e4, e1]
      omega
    · have c1 := colon_positions A B _ hd1
      have c2 := colon_positions A B _ hd2
      have hlen6 : (A ++ ".****.".toList).length = A.length + 6 := by
        simp only [List.length_append]
        rfl
      rcases c2 with c2 | c2
      · right
        refine ⟨A.take (p + i) ++ "****".toList ++ A.drop (p + j), B, ?_,
          not_mem_splice A hA _ _, hB⟩
        rw [List.append_assoc A, List.take_append_of_le_length (by omega),
          List.drop_append_of_le_length (by omega)]
        simp only [List.append_assoc]
      · rcases c1 with c1 | c1
        · left
          have e1 : (A ++ ".****.".toList ++ B).take (p + i) = A.take (p + i) := by
            rw [List.append_assoc, List.take_append_of_le_length (by omega)]
          have e2 : (A ++ ".****.".toList ++ B).drop (p + j) = B.drop (p + j - (A.length + 6)) := by
            have : p + j = (A ++ ".****.".toList).length + (p + j - (A.length + 6)) := by
              rw [hlen6]; omega
            conv_lhs => rw [this]
            rw [List.drop_append]
          rw [e1, e2]
          have e4 : "****".toList.count '.' = 0 := by decide
          have e5 : (A.take (p + i)).count '.' = 0 :=
            List.count_eq_zero.mpr (fun h => hA (List.mem_of_mem_take h))
          have e6 : (B.drop (p + j - (A.length + 6))).count '.' = 0 :=
            List.count_eq_zero.mpr (fun h => hB (List.mem_of_mem_drop h))
          rw [List.count_append, List.count_append, e4, e5, e6]
          omega
        · right
          refine ⟨A, B.take (p + i - (A.length + 6)) ++ "****".toList
            ++ B.drop (p + j - (A.length + 6)), ?_, hA, not_mem_splice B hB _ _⟩
          have e1 : (A ++ ".****.".toList ++ B).take (p + i)
              = A ++ ".****.".toList ++ B.take (p + i - (A.length + 6)) := by
            have : p + i = (A ++ ".****.".toList).length + (p + i - (A.length + 6)) := by
              rw [hlen6]; omega
            conv_lhs => rw [this]
            rw [List.take_append]
          have e2 : (A ++ ".****.".toList ++ B).drop (p + j) = B.drop (p + j - (A.length + 6)) := by
            have : p + j = (A ++ ".****.".toList).length + (p + j - (A.length + 6)) := by
              rw [hlen6]; omega
            conv_lhs => rw [this]
            rw [List.drop_append]
          rw [e1, e2]
          simp only [List.append_assoc]

/-! ## C20: masking twice -/

theorem IPDesensitize_run (s : List Char) : IPDesensitize s = mask6.run (mask4.run s) := by
  simp only [IPDesensitize, ipv4Desensitize, ipv6Desensitize, mask4_models.ReplaceAllString_run,
    mask6_models.ReplaceAllString_run]

theorem IPDesensitize_line (l : List Char) (hl : oneLine l) :
    IPDesensitize (IPDesensitize l) = IPDesensitize l := by
  have ht : oneLine (mask4.run l) := mask4_models.run_oneLine l hl
  have hm : Masked4 (mask4.run l) := mask4_run_masked l hl
  have hu : oneLine (mask6.run (mask4.run l)) := mask6_models.run_oneLine _ ht
  have hmu : Masked4 (mask6.run (mask4.run l)) := mask6_run_masked _ ht hm
  rw [IPDesensitize_run l, IPDesensitize_run, mask4_run_of_masked _ hu hmu,
    mask6_models.run_run_line mask6_forward _ ht]

theorem IPDesensitize_append_newline (x y : List Char) :
    IPDesensitize (x ++ '\n' :: y) = IPDesensitize x ++ '\n' :: IPDesensitize y := by
  simp only [IPDesensitize_run, mask4_models.run_append_newline,
    mask6_models.run_append_newline]

theorem first_line (s : List Char) :
    oneLine s ∨ ∃ x y, s = x ++ '\n' :: y ∧ oneLine x := by
  induction s with
  | nil => left; intro c hc; cases hc
  | cons c r ih =>
    by_cases hc : c = '\n'
    · subst hc
      exact Or.inr ⟨[], r, rfl, fun c hc => (by cases hc)⟩
    · have hc' : isAnyClass c = true := by simpa [isAnyClass] using hc
      have hone : oneLine [c] := by
        intro d hd
        have : d = c := by simpa using hd
        rw [this]; exact hc'
      rcases ih with h | ⟨x, y, rfl, hx⟩
      · exact Or.inl (oneLine_append hone h)
      · exact Or.inr ⟨c :: x, y, rfl, oneLine_append hone hx⟩

theorem IPDesensitize_twice :
    ∀ (n : Nat) (s : List Char), s.length ≤ n →
      IPDesensitize (IPDesensitize s) = IPDesensitize s := by
  intro n
  induction n with
  | zero =>
    intro s hs
    have : s = [] := List.eq_nil_of_length_eq_zero (by omega)
    subst this
    exact IPDesensitize_line [] (fun c hc => (by cases hc))
  | succ n ih =>
    intro s hs
    rcases first_line s with h | ⟨x, y, rfl, hx⟩
    · exact IPDesensitize_line s h
    · have hy : y.length ≤ n := by
        simp only [List.length_append, List.length_cons] at hs
        omega
      rw [IPDesensitize_append_newline, IPDesensitize_append_newline, IPDesensitize_line x hx,
        ih y hy]

/-! ## C20: `IPDesensitize` is idempotent -/

/-- C20: `IPDesensitize` is idempotent: for every string `s`, an address or
not, on one line or several, masking the masked string once more gives the
masked string itself. -/
theorem C20_idempotent (s : List Char) :
    IPDesensitize (IPDesensitize s) = IPDesensitize s :=
  IPDesensitize_twice s.length s (Nat.le_refl _)

/-- C20 on a text of two lines, a dotted quad and a colon-separated address:
the masked text, and masking it once more. -/
theorem C20_idempotent_witness :
    IPDesensitize "1.2.3.4\na:b:c:d:e".toList = "1.****.4\na:b:****:d:e".toList ∧
      IPDesensitize (IPDesensitize "1.2.3.4\na:b:c:d:e".toList)
        = IPDesensitize "1.2.3.4\na:b:c:d:e".toList :=
  ⟨by decide, C20_idempotent _⟩

end Utils
